import Mathlib

/-!
Verification of the memory-management core of the `elf_bootloader` repository.

The definitions below are a shallow embedding of
`src/alloc/src/range_list_allocator.rs` (the Range List allocator),
`src/alloc/src/buddy_allocator.rs` (the buddy allocator) and
`src/intrusive_linked_list/src/lib.rs` (the intrusive free list).

Modelling conventions:
* `usize` is modelled as `Nat`.  None of the verified properties depend on
  64-bit wrap-around, and the Rust code would panic (debug) on overflow at
  the few `+`/`-` sites involved; all theorems carry hypotheses under which
  no subtraction truncates.
* The fixed-capacity backing arrays (`[MemoryRegions; 128]` plus the
  migrated heap slices) are modelled as the `List` of their live prefix
  (`..region_size`), together with the explicit `region_capacity` /
  `reserved_region_capacity` fields that the code keeps anyway.  The
  `copy_within` shifts of the Rust code become `take`/`drop` surgery on the
  list.
* A Rust `panic!` / `.expect(..)` / out-of-bounds slice index is modelled by
  an `Option` result (`none` = the call panics and never returns).
* `slice::binary_search_by_key(&key, |r| r.address)` is modelled by a linear
  scan (`lowerBound` / `searchAddress`).  On the address-sorted lists the
  allocator maintains — sortedness is a hypothesis of every theorem that
  relies on it — the two agree: the scan returns `Sum.inl i` exactly when
  entry `i` has the searched address and otherwise `Sum.inr` of the
  insertion point.
-/

namespace ElfBootloader

/-- `MemoryRegions` from `range_list_allocator.rs`: a half-open interval
`[address, address + size)`. -/
structure MemoryRegions where
  address : Nat
  size : Nat
deriving Repr, DecidableEq

/-- `MemoryRegions::end` (Lean cannot use the keyword `end` as a name). -/
def MemoryRegions.endAddr (r : MemoryRegions) : Nat := r.address + r.size

/-- `core::alloc::Layout`: a size and an alignment.  The Rust type
guarantees `align` is a nonzero power of two; theorems state this
explicitly where they use it. -/
structure Layout where
  size : Nat
  align : Nat
deriving Repr, DecidableEq

instance {ε α : Type} [DecidableEq ε] [DecidableEq α] : DecidableEq (Except ε α) := fun a b =>
  match a, b with
  | .ok x, .ok y =>
    if h : x = y then isTrue (by rw [h]) else isFalse (by simp [h])
  | .error x, .error y =>
    if h : x = y then isTrue (by rw [h]) else isFalse (by simp [h])
  | .ok _, .error _ => isFalse (by simp)
  | .error _, .ok _ => isFalse (by simp)

/-- `usize::next_multiple_of`: the smallest multiple of `n` that is
`≥ a` (for `n > 0`; Rust panics on `n = 0`). -/
def nextMultipleOf (a n : Nat) : Nat := ((a + n - 1) / n) * n

/-- The `MemoryBlock` state of `range_list_allocator.rs`.  `regions` is the
live prefix of the available list R, `reserved_regions` the live prefix of
the reserved list P. -/
structure MemoryBlock where
  regions : List MemoryRegions
  reserved_regions : List MemoryRegions
  region_capacity : Nat
  reserved_region_capacity : Nat
  allocatable : Bool
deriving Repr, DecidableEq

/-- `MemoryBlock::init`: two empty lists backed by 128-entry static
arrays. -/
def MemoryBlock.init : MemoryBlock :=
  { regions := []
    reserved_regions := []
    region_capacity := 128
    reserved_region_capacity := 128
    allocatable := false }

/-- Number of list entries whose address is strictly below `a`; on an
address-sorted list this is the `Err` insertion point of
`binary_search_by_key` and also the index of an exact match. -/
def lowerBound (a : Nat) (l : List MemoryRegions) : Nat :=
  (l.takeWhile (fun r => decide (r.address < a))).length

/-- `binary_search_by_key(&a, |r| r.address)` on an address-sorted list:
`Sum.inl i` when entry `i` has address `a`, otherwise `Sum.inr` of the
insertion point. -/
def searchAddress (a : Nat) (l : List MemoryRegions) : Sum Nat Nat :=
  let k := lowerBound a l
  match l.get? k with
  | some r => if r.address = a then Sum.inl k else Sum.inr k
  | none => Sum.inr k

/-- `MemoryBlock::insert_region`: shift the tail right and write the new
region at `insertion_point`. -/
def insertRegion (l : List MemoryRegions) (x : Nat) (region : MemoryRegions) :
    List MemoryRegions :=
  l.take x ++ region :: l.drop x

/-- `MemoryBlock::add_and_merge_region` (lines 122–188): insert `region` at
insertion point `x`, merging with the previous and/or next entry on
overlap or adjacency. -/
def addAndMergeRegion (l : List MemoryRegions) (x : Nat) (region : MemoryRegions) :
    List MemoryRegions :=
  let preOv : Bool :=
    decide (0 < x) &&
      (match l.get? (x - 1) with
       | some pre => decide (region.address ≤ pre.endAddr)
       | none => false)
  let nextOv : Bool :=
    match l.get? x with
    | some next => decide (next.address ≤ region.endAddr)
    | none => false
  match preOv, nextOv with
  | false, false => insertRegion l x region
  | true, false =>
    match l.get? (x - 1) with
    | some pre =>
      if pre.endAddr < region.endAddr then
        l.set (x - 1) { pre with size := region.endAddr - pre.address }
      else l
    | none => l
  | false, true =>
    match l.get? x with
    | some next =>
      l.set x { address := region.address
                size := max next.endAddr region.endAddr - region.address }
    | none => l
  | true, true =>
    match l.get? (x - 1), l.get? x with
    | some pre, some next =>
      ((l.set (x - 1)
          { pre with
            size := max (max pre.endAddr region.endAddr) next.endAddr - pre.address }).eraseIdx x)
    | _, _ => l

/-- `MemoryBlock::add_region_internal` acting on one list (the list, its
capacity): capacity check, binary search, then either the exact-address
update path or `add_and_merge_region`. -/
def addRegionList (l : List MemoryRegions) (capacity : Nat) (region : MemoryRegions) :
    Except String (List MemoryRegions) :=
  if capacity < l.length + 1 then .error "region size overflow"
  else
    match searchAddress region.address l with
    | Sum.inl x =>
      match l.get? x with
      | some old =>
        if old.size < region.size then
          match l.get? (x + 1) with
          | some next =>
            if next.address ≤ region.address + region.size then
              .ok ((l.set x
                { old with
                  size := max (region.address + region.size) (next.address + next.size)
                          - old.address }).eraseIdx (x + 1))
            else .ok (l.set x { old with size := region.size })
          | none => .ok (l.set x { old with size := region.size })
        else .ok l
      | none => .ok l
    | Sum.inr x => .ok (addAndMergeRegion l x region)

/-- `MemoryBlock::add_region_internal` on the state. -/
def MemoryBlock.add_region_internal (s : MemoryBlock) (is_reserved : Bool)
    (region : MemoryRegions) : Except String MemoryBlock :=
  if is_reserved then
    (addRegionList s.reserved_regions s.reserved_region_capacity region).map
      (fun l => { s with reserved_regions := l })
  else
    (addRegionList s.regions s.region_capacity region).map
      (fun l => { s with regions := l })

/-- `MemoryBlock::add_region`. -/
def MemoryBlock.add_region (s : MemoryBlock) (region : MemoryRegions) :
    Except String MemoryBlock :=
  s.add_region_internal false region

/-- `MemoryBlock::add_reserved_region`. -/
def MemoryBlock.add_reserved_region (s : MemoryBlock) (region : MemoryRegions) :
    Except String MemoryBlock :=
  s.add_region_internal true region

/-- The cursor-advance `while` loop of `MemoryBlock::check_regions`
(lines 306–309): split the remaining available list into the entries the
cursor skips (those ending at or before `p.address`) and the rest. -/
def advanceCursor (p : MemoryRegions) :
    List MemoryRegions → List MemoryRegions × List MemoryRegions
  | [] => ([], [])
  | r :: rs =>
    if r.endAddr ≤ p.address then
      let d := advanceCursor p rs
      (r :: d.1, d.2)
    else ([], r :: rs)

/-- The `for` loop of `MemoryBlock::check_regions` (lines 304–366).  The
cursor `region_idx` of the Rust code is the length of `done`; the
available list is `done ++ rest`.  On error the partially mutated
available list is returned alongside the message (the Rust code mutates
`self.regions` in place before bailing out). -/
def checkLoop (cap : Nat) (done rest : List MemoryRegions) :
    List MemoryRegions → Except (String × List MemoryRegions) (List MemoryRegions)
  | [] => .ok (done ++ rest)
  | p :: ps =>
    let adv := advanceCursor p rest
    let done := done ++ adv.1
    match adv.2 with
    | [] =>
      .error ("invalid reserved region: located outside of all available regions", done)
    | r :: rs =>
      if p.address < r.address ∨ r.endAddr < p.endAddr then
        .error ("the memory region is smaller than the reserved region", done ++ r :: rs)
      else
        match decide (r.address = p.address), decide (r.endAddr = p.endAddr) with
        | true, true =>
          -- Case 1: exact match, drop `r` (cursor stays)
          checkLoop cap done rs ps
        | true, false =>
          -- Case 2: prefix, shrink `r` from the left
          checkLoop cap done
            ({ address := r.address + p.size, size := r.size - p.size } :: rs) ps
        | false, true =>
          -- Case 3: suffix, shrink `r` from the right
          checkLoop cap done ({ r with size := r.size - p.size } :: rs) ps
        | false, false =>
          -- Case 4: interior, split `r`; cursor advances past the head piece
          if cap < done.length + (r :: rs).length + 1 then
            .error ("region buffer overflow after splitting", done ++ r :: rs)
          else
            checkLoop cap (done ++ [⟨r.address, p.address - r.address⟩])
              (⟨p.endAddr, r.endAddr - p.endAddr⟩ :: rs) ps

/-- `MemoryBlock::check_regions` (lines 287–379): the finalize step,
returned as the post state paired with the Rust `Result` (the Rust code
mutates `self` in place, so an `Err` still leaves the partially subtracted
available list behind).  On success the reserved list is cleared and
`allocatable` is set. -/
def MemoryBlock.check_regions (s : MemoryBlock) : MemoryBlock × Except String Unit :=
  if 120 < s.regions.length ∨ 120 < s.reserved_regions.length then
    (s, .error "memory regions and reserved regions are too big")
  else if s.reserved_regions.length = 0 then
    ({ s with allocatable := true }, .ok ())
  else
    match checkLoop s.region_capacity [] s.regions s.reserved_regions with
    | .ok regions =>
      ({ s with regions := regions, reserved_regions := [], allocatable := true }, .ok ())
    | .error (msg, regions) =>
      ({ s with regions := regions }, .error msg)

/-- One iteration body of `MemoryBlock::allocate_region_internal`: if the
region can serve `size` bytes aligned to `alignment`, the list pieces that
replace it (the head split when `address` is unaligned, the shrunk tail
when the carve does not reach the end) together with the carved address. -/
def carveRegion (size alignment : Nat) (r : MemoryRegions) :
    Option (List MemoryRegions × Nat) :=
  let aligned := nextMultipleOf r.address alignment
  if aligned + size ≤ r.endAddr then
    some
      ((if r.address % alignment ≠ 0 then
          [⟨r.address, aligned - r.address⟩]
        else []) ++
       (if aligned + size ≠ r.endAddr then
          [⟨aligned + size, r.endAddr - (aligned + size)⟩]
        else []),
       aligned)
  else none

/-- The scan of `MemoryBlock::allocate_region_internal` (lines 381–411):
first-fit over the available list. -/
def allocGo (size alignment : Nat) : List MemoryRegions → Option (List MemoryRegions × Nat)
  | [] => none
  | r :: rest =>
    match carveRegion size alignment r with
    | some (pieces, addr) => some (pieces ++ rest, addr)
    | none => (allocGo size alignment rest).map (fun p => (r :: p.1, p.2))

/-- `MemoryBlock::add_reserved_alloc_record` (lines 422–432): merge the
carved interval into the reserved list (binary-search insertion point with
`unwrap_or_else`, collapsing `Ok`/`Err` to the same index). -/
def MemoryBlock.add_reserved_alloc_record (s : MemoryBlock) (address size : Nat) :
    MemoryBlock :=
  { s with
    reserved_regions :=
      addAndMergeRegion s.reserved_regions
        (lowerBound address s.reserved_regions) ⟨address, size⟩ }

/-- `MemoryBlock::allocate_region_internal` on the state: carve from the
first fitting available region and record the carve in the reserved
list. -/
def MemoryBlock.allocate_region_internal (s : MemoryBlock) (size alignment : Nat) :
    MemoryBlock × Option Nat :=
  match allocGo size alignment s.regions with
  | some (regions, addr) =>
    (MemoryBlock.add_reserved_alloc_record { s with regions := regions } addr size,
     some addr)
  | none => (s, none)

/-- `size_of::<MemoryRegions>()` on the 64-bit target: two `usize`
fields. -/
def memoryRegionsByteSize : Nat := 16

/-- `MemoryBlock::overflow_wrapping` (lines 522–561): carve a page-aligned
new backing store out of the available list (recording it in the reserved
list) and double both capacities.  The `copy_nonoverlapping` of the live
prefixes into the new store is content-preserving, so it is the identity on
this model; a failed carve is the `expect("out of memory")` panic,
modelled as `none`. -/
def MemoryBlock.overflow_wrapping (s : MemoryBlock) : Option MemoryBlock :=
  let allocate_size :=
    (s.region_capacity + s.reserved_region_capacity) * 2 * memoryRegionsByteSize
  match s.allocate_region_internal allocate_size 4096 with
  | (s', some _) =>
    some { s' with
           region_capacity := s.region_capacity * 2
           reserved_region_capacity := s.reserved_region_capacity * 2 }
  | (_, none) => none

/-- `MemoryBlock::ensure_overflow_headroom` (lines 413–419). -/
def MemoryBlock.ensure_overflow_headroom (s : MemoryBlock) : Option MemoryBlock :=
  if s.region_capacity < s.regions.length + 10 ∨
      s.reserved_region_capacity < s.reserved_regions.length + 10 then
    s.overflow_wrapping
  else some s

/-- The body of `MemoryBlock::remove_reserved_alloc_record` after its
headroom call (lines 437–507): remove `[addr, addr+size)` from the reserved
list by the exact / prefix / suffix / interior cases; an uncontained range
is ignored. -/
def removeReservedList (l : List MemoryRegions) (addr size : Nat) : List MemoryRegions :=
  match searchAddress addr l with
  | Sum.inl i =>
    match l.get? i with
    | some region =>
      if size = region.size then l.eraseIdx i
      else if size < region.size then
        l.set i { address := region.address + size, size := region.size - size }
      else l.eraseIdx i
    | none => l
  | Sum.inr x =>
    if x = 0 then l
    else
      match l.get? (x - 1) with
      | some region =>
        if region.address ≤ addr ∧ addr + size ≤ region.endAddr then
          match decide (addr = region.address), decide (addr + size = region.endAddr) with
          | true, true => l.eraseIdx (x - 1)
          | true, false =>
            l.set (x - 1) { address := region.address + size, size := region.size - size }
          | false, true =>
            l.set (x - 1) { region with size := addr - region.address }
          | false, false =>
            (l.set (x - 1) { region with size := addr - region.address }).take x ++
              ⟨addr + size, region.endAddr - (addr + size)⟩ ::
                (l.set (x - 1) { region with size := addr - region.address }).drop x
        else l
      | none => l

/-- `MemoryBlock::remove_reserved_alloc_record` (lines 435–508), including
its own headroom call; `none` is the migration panic. -/
def MemoryBlock.remove_reserved_alloc_record (s : MemoryBlock) (addr size : Nat) :
    Option MemoryBlock :=
  match s.ensure_overflow_headroom with
  | none => none
  | some s1 =>
    if size = 0 then some s1
    else some { s1 with reserved_regions := removeReservedList s1.reserved_regions addr size }

/-- `MemoryBlock::add_free_region_merge` (lines 510–520). -/
def MemoryBlock.add_free_region_merge (s : MemoryBlock) (address size : Nat) :
    MemoryBlock :=
  { s with
    regions :=
      addAndMergeRegion s.regions (lowerBound address s.regions) ⟨address, size⟩ }

/-- `MemoryBlock::allocate_region` (lines 563–569); `none` is the migration
panic, `some (s', none)` an ordinary allocation failure. -/
def MemoryBlock.allocate_region (s : MemoryBlock) (layout : Layout) :
    Option (MemoryBlock × Option Nat) :=
  if s.allocatable = false then some (s, none)
  else
    match s.ensure_overflow_headroom with
    | none => none
    | some s1 => some (s1.allocate_region_internal layout.size layout.align)

/-- `MemoryBlock::deallocate_region` (lines 571–586); `none` is the
migration panic. -/
def MemoryBlock.deallocate_region (s : MemoryBlock) (ptr : Nat) (layout : Layout) :
    Option MemoryBlock :=
  if s.allocatable = false then some s
  else if layout.size = 0 then some s
  else
    match s.ensure_overflow_headroom with
    | none => none
    | some s1 =>
      match s1.remove_reserved_alloc_record ptr layout.size with
      | none => none
      | some s2 => some (s2.add_free_region_merge ptr layout.size)

/-!
### Buddy allocator

Embedding of `src/alloc/src/buddy_allocator.rs`.  The intrusive free list
of `src/intrusive_linked_list/src/lib.rs` is modelled as the list of block
addresses reachable from the head; `MINIMUM_ALLOCATABLE_BYTES` (declared in
a crate module that is not part of the sources, the spec requires a power
of two at least the pointer size) and the const generic
`MAX_ALLOCATABLE_BYTES` are parameters `minB` / `maxB`.  `trailing_zeros`
on the power-of-two block sizes is `Nat.log2`. -/

/-- Fuel-driven base-2 logarithm (the fuel only bounds recursion depth;
with fuel `≥ n` it equals `Nat.log2 n`).  Structural recursion so that
concrete witnesses evaluate inside the kernel. -/
def log2Go : Nat → Nat → Nat
  | 0, _ => 0
  | fuel + 1, n => if 2 ≤ n then log2Go fuel (n / 2) + 1 else 0

/-- `usize::trailing_zeros` on the power-of-two sizes the buddy allocator
manipulates equals the base-2 logarithm; this is that logarithm
(`= Nat.log2`, in kernel-evaluable form). -/
def lg2 (n : Nat) : Nat := log2Go n n

/-- `usize::next_power_of_two`: the smallest power of two `≥ n`
(`0` and `1` both give `1`). -/
def nextPow2 (n : Nat) : Nat := 2 ^ (if n ≤ 1 then 0 else lg2 (n - 1) + 1)

namespace IntrusiveList

/-- `IntrusiveLinkedList::push`: prepend. -/
def push (l : List Nat) (ptr : Nat) : List Nat := ptr :: l

/-- `IntrusiveLinkedList::push_back`: append. -/
def push_back (l : List Nat) (ptr : Nat) : List Nat := l ++ [ptr]

/-- `IntrusiveLinkedList::pop`. -/
def pop (l : List Nat) : Option (Nat × List Nat) :=
  match l with
  | [] => none
  | x :: xs => some (x, xs)

/-- `IntrusiveLinkedList::remove_if`: whether `ptr` occurs (the Rust
return value); the removal itself is `List.erase` of the first
occurrence. -/
def remove_if (l : List Nat) (ptr : Nat) : Bool × List Nat :=
  (l.contains ptr, l.erase ptr)

/-- `IntrusiveLinkedList::add_with_sort`: insert after every node whose
address is `≤ ptr`. -/
def add_with_sort (l : List Nat) (ptr : Nat) : List Nat :=
  l.takeWhile (fun x => decide (x ≤ ptr)) ++ ptr :: l.dropWhile (fun x => decide (x ≤ ptr))

end IntrusiveList

/-- The `BuddyAllocator` state: one free list per level (level `i` holds
blocks of `minB * 2^i` bytes). -/
structure BuddyAllocator where
  free_list : List (List Nat)
  total_size : Nat
  allocated : Nat
deriving Repr, DecidableEq

namespace Buddy

/-- `levels!(MAX_ALLOCATABLE_BYTES)`, i.e. `Self::LEVELS`. -/
def levels (minB maxB : Nat) : Nat := lg2 maxB - lg2 minB + 1

/-- `Self::level2size`. -/
def level2size (minB level : Nat) : Nat := 2 ^ (level + lg2 minB)

/-- `Self::size2level` (assumes a power of two, as the Rust comment
states). -/
def size2level (minB size : Nat) : Nat := lg2 size - lg2 minB

/-- `Self::size2level_next_power`. -/
def size2levelNextPower (minB size : Nat) : Nat :=
  size2level minB (nextPow2 size)

/-- Apply `f` to free list number `i` (an out-of-range index would be a
Rust panic; the theorems all carry the `free_list.length = levels` shape
hypothesis under which it does not occur). -/
def updateLevel (fl : List (List Nat)) (i : Nat) (f : List Nat → List Nat) :
    List (List Nat) :=
  match fl.get? i with
  | some l => fl.set i (f l)
  | none => fl

/-- The loop of `BuddyAllocator::set_memory`: push `n` top-level blocks
starting at `ptr`. -/
def pushBlocks (fl : List (List Nat)) (lvl ptr maxB : Nat) : Nat → List (List Nat)
  | 0 => fl
  | n + 1 =>
    pushBlocks (updateLevel fl lvl (fun l => IntrusiveList.push_back l ptr))
      lvl (ptr + maxB) maxB n

/-- `BuddyAllocator::set_memory`. -/
def set_memory (minB maxB : Nat) (s : BuddyAllocator) (ptr size : Nat) : BuddyAllocator :=
  { s with
    total_size := s.total_size + size
    free_list :=
      pushBlocks s.free_list (levels minB maxB - 1) ptr maxB (size >>> lg2 maxB) }

/-- The `while free_level < LEVELS && free_list[free_level].is_none()`
scan of `BuddyAllocator::alloc`; the fuel argument starts at `LEVELS`. -/
def findFree (LEVELS : Nat) (fl : List (List Nat)) : Nat → Nat → Nat
  | lvl, 0 => lvl
  | lvl, fuel + 1 =>
    if lvl < LEVELS then
      match fl.get? lvl with
      | some [] => findFree LEVELS fl (lvl + 1) fuel
      | _ => lvl
    else lvl

/-- The split loop of `BuddyAllocator::alloc` (lines 115–123): starting at
level `i`, pop a block, push its two halves one level down; the fuel is
the number of levels to descend.  `none` is the `pop().unwrap()` panic. -/
def splitDown (minB : Nat) (fl : List (List Nat)) (i : Nat) :
    Nat → Option (List (List Nat))
  | 0 => some fl
  | n + 1 =>
    match fl.get? i with
    | some (block :: rest) =>
      let lower := level2size minB (i - 1)
      let fl1 := (fl.set i rest)
      let fl2 := updateLevel fl1 (i - 1)
        (fun l => IntrusiveList.push (IntrusiveList.push l (block + lower)) block)
      splitDown minB fl2 (i - 1) n
    | _ => none

/-- `BuddyAllocator::alloc` (lines 94–129).  `heap` is the environment of
the `alloc_heap` refill callback: `none` models `alloc_heap == None`,
`some none` a callback that fails, `some (some p)` a callback returning a
fresh `maxB`-block at `p`.  A `pop().unwrap()` panic is surfaced as the
distinguished "unreachable" error. -/
def alloc (minB maxB : Nat) (s : BuddyAllocator) (layout : Layout)
    (heap : Option (Option Nat)) : Except String (BuddyAllocator × Nat) :=
  let required := max (max layout.size layout.align) minB
  let level := size2levelNextPower minB required
  let LEVELS := levels minB maxB
  let free0 := findFree LEVELS s.free_list level LEVELS
  let next : Except String (BuddyAllocator × Nat) :=
    match decide (free0 = LEVELS), heap with
    | true, none => .error "out of memory"
    | true, some none => .error "failed to allocate memory from heap"
    | true, some (some new_heap) =>
      .ok (set_memory minB maxB s new_heap maxB, LEVELS - 1)
    | false, _ => .ok (s, free0)
  match next with
  | .error e => .error e
  | .ok (s1, free1) =>
    match splitDown minB s1.free_list free1 (free1 - level) with
    | none => .error "unreachable: pop on empty free list"
    | some fl =>
      match fl.get? level with
      | some (ptr :: rest) =>
        .ok ({ s1 with
               free_list := fl.set level rest
               allocated := s1.allocated + nextPow2 required }, ptr)
      | _ => .error "unreachable: pop on empty free list"

/-- The merge loop of `BuddyAllocator::dealloc` (lines 146–163); the fuel
starts at `LEVELS - 1 - level` so that fuel `0` is the
`level + 1 == LEVELS` exit, which pushes to the back of the top list. -/
def deallocLoop (minB : Nat) (fl : List (List Nat)) (ptr level : Nat) :
    Nat → List (List Nat)
  | 0 => updateLevel fl level (fun l => IntrusiveList.push_back l ptr)
  | n + 1 =>
    let block_size := level2size minB level
    let buddy := if ptr % level2size minB (level + 1) = 0 then ptr + block_size
      else ptr - block_size
    match fl.get? level with
    | some l =>
      if l.contains buddy then
        deallocLoop minB (fl.set level (l.erase buddy)) (min ptr buddy) (level + 1) n
      else fl.set level (IntrusiveList.add_with_sort l ptr)
    | none => fl

/-- `BuddyAllocator::dealloc` (lines 133–165). -/
def dealloc (minB maxB : Nat) (s : BuddyAllocator) (ptr : Nat) (layout : Layout) :
    BuddyAllocator :=
  let required := max layout.size minB
  let level := size2levelNextPower minB required
  { s with
    allocated := s.allocated - nextPow2 required
    free_list :=
      deallocLoop minB s.free_list ptr level (levels minB maxB - 1 - level) }

/-- `BuddyAllocator::new` followed by nothing: empty free lists. -/
def new (minB maxB : Nat) : BuddyAllocator :=
  { free_list := List.replicate (levels minB maxB) []
    total_size := 0
    allocated := 0 }

end Buddy

/-!  Concrete evaluations mirroring the unit tests of
`buddy_allocator.rs` (with `MINIMUM_ALLOCATABLE_BYTES = 16`, the value the
spec scenarios use). -/

-- `test_buddy_merge_step_by_step` (spec scenario S3): heap `[0, 256)` with
-- `MAX = 128`; A(32,32) = 0, B(32,32) = 32, C(64,64) = 64; freeing A and B
-- leaves one 64-block, freeing C restores two top blocks.
example :
    (let s0 := Buddy.set_memory 16 128 (Buddy.new 16 128) 0 256
     ((Buddy.alloc 16 128 s0 ⟨32, 32⟩ none).bind fun p1 =>
      (Buddy.alloc 16 128 p1.1 ⟨32, 32⟩ none).bind fun p2 =>
      (Buddy.alloc 16 128 p2.1 ⟨64, 64⟩ none).map fun p3 =>
        (p1.2, p2.2, p3.2,
         Buddy.dealloc 16 128
           (Buddy.dealloc 16 128 (Buddy.dealloc 16 128 p3.1 0 ⟨32, 32⟩) 32 ⟨32, 32⟩)
           64 ⟨64, 64⟩)))
    = .ok (0, 32, 64,
        { free_list := [[], [], [], [128, 0]], total_size := 256, allocated := 0 }) := by
  decide

-- `test_alloc_dealloc_split_and_merge` (spec scenario S4): one 4096 top
-- block, allocate (512, 8): levels 512/1024/2048 hold one entry each, top
-- empty; deallocate: everything merges back to the top.
example :
    (let s0 := Buddy.set_memory 16 4096 (Buddy.new 16 4096) 0 4096
     (Buddy.alloc 16 4096 s0 ⟨512, 8⟩ none).map fun p =>
       (p.2, p.1, Buddy.dealloc 16 4096 p.1 p.2 ⟨512, 8⟩))
    = .ok (0,
        { free_list := [[], [], [], [], [], [512], [1024], [2048], []]
          total_size := 4096, allocated := 512 },
        { free_list := [[], [], [], [], [], [], [], [], [0]]
          total_size := 4096, allocated := 0 }) := by
  decide

-- `test_out_of_memory`: refill callback returning `None`.
example :
    Buddy.alloc 16 4096 (Buddy.new 16 4096) ⟨8, 8⟩ (some none)
      = .error "failed to allocate memory from heap" := by decide

/-- Helper used in the concrete evaluations below: extract the success
state of an ingestion call (all the concrete calls below succeed). -/
def expectOk (e : Except String MemoryBlock) : MemoryBlock :=
  e.toOption.getD MemoryBlock.init

/-!  Concrete evaluations of the embedding, mirroring the unit tests of
`range_list_allocator.rs`; they pin the definitions to the behaviour the
Rust test suite asserts. -/

-- `add_adjacent_regions_merge`
example :
    (expectOk ((expectOk (MemoryBlock.init.add_region ⟨0x1000, 0x100⟩)).add_region
      ⟨0x1100, 0x100⟩)).regions = [⟨0x1000, 0x200⟩] := by decide

-- `add_overlapping_regions_merge`
example :
    (expectOk ((expectOk (MemoryBlock.init.add_region ⟨0x1000, 0x200⟩)).add_region
      ⟨0x1100, 0x200⟩)).regions = [⟨0x1000, 0x300⟩] := by decide

-- `add_region_that_spans_two_existing_regions`
example :
    (expectOk ((expectOk ((expectOk (MemoryBlock.init.add_region ⟨0x1000, 0x100⟩)).add_region
      ⟨0x2000, 0x100⟩)).add_region ⟨0x1000, 0x1100⟩)).regions
      = [⟨0x1000, 0x1100⟩] := by decide

-- `add_region_that_is_contained_in_existing_region`
example :
    (expectOk ((expectOk (MemoryBlock.init.add_region ⟨0x1000, 0x1000⟩)).add_region
      ⟨0x1100, 0x100⟩)).regions = [⟨0x1000, 0x1000⟩] := by decide

-- `check_regions_split` (spec scenario S1)
example :
    ((expectOk ((expectOk (MemoryBlock.init.add_region ⟨0x1000, 0x1000⟩)).add_reserved_region
      ⟨0x1100, 0x100⟩)).check_regions).1.regions
      = [⟨0x1000, 0x100⟩, ⟨0x1200, 0xE00⟩] := by decide

-- `check_regions_multiple_reserved_in_one_region`
example :
    ((expectOk ((expectOk ((expectOk (MemoryBlock.init.add_region
      ⟨0x1000, 0x1000⟩)).add_reserved_region ⟨0x1100, 0x100⟩)).add_reserved_region
      ⟨0x1300, 0x100⟩)).check_regions).1.regions
      = [⟨0x1000, 0x100⟩, ⟨0x1200, 0x100⟩, ⟨0x1400, 0xC00⟩] := by decide

-- `check_regions_error_outside`
example :
    ((expectOk ((expectOk (MemoryBlock.init.add_region ⟨0x1000, 0x1000⟩)).add_reserved_region
      ⟨0x2000, 0x100⟩)).check_regions).2
      = .error "invalid reserved region: located outside of all available regions" := by decide

-- `test_allocate_region_with_alignment`
example :
    ((expectOk (MemoryBlock.init.add_region ⟨0x1001, 0x1000⟩)).check_regions).1.allocate_region
      ⟨0x100, 0x100⟩
      = some ({ regions := [⟨0x1001, 0xFF⟩, ⟨0x1200, 0xE01⟩]
                reserved_regions := [⟨0x1100, 0x100⟩]
                region_capacity := 128
                reserved_region_capacity := 128
                allocatable := true }, some 0x1100) := by decide

-- `test_deallocate_region_simple_roundtrip`
example :
    (((expectOk (MemoryBlock.init.add_region ⟨0x1000, 0x1000⟩)).check_regions).1.allocate_region
        ⟨0x100, 0x10⟩).bind
      (fun p => p.1.deallocate_region 0x1000 ⟨0x100, 0x10⟩)
      = some ((expectOk (MemoryBlock.init.add_region ⟨0x1000, 0x1000⟩)).check_regions).1 := by
  decide

/-- State used by the `test_deallocate_region_middle_split_reserved`
evaluation: three adjacent `0x100` carves out of `[0x1000, 0x2000)`, then
the middle one freed. -/
def middleSplitRun : Option MemoryBlock :=
  ((((((expectOk (MemoryBlock.init.add_region
      ⟨0x1000, 0x1000⟩)).check_regions).1.allocate_region ⟨0x100, 0x100⟩).bind
    (fun p => p.1.allocate_region ⟨0x100, 0x100⟩)).bind
    (fun p => p.1.allocate_region ⟨0x100, 0x100⟩)).bind
    (fun p => p.1.deallocate_region 0x1100 ⟨0x100, 0x100⟩))

-- `test_deallocate_region_middle_split_reserved`: freeing the middle of
-- three adjacent carves splits the reserved record (spec scenario S6).
example :
    middleSplitRun.map (fun s => (s.regions, s.reserved_regions))
      = some ([⟨0x1100, 0x100⟩, ⟨0x1300, 0xD00⟩], [⟨0x1000, 0x100⟩, ⟨0x1200, 0x100⟩]) := by
  decide

/-!
### Well-formedness predicates

The Range List invariants the spec states (§3, §8): the available and
reserved lists are sorted in strictly ascending address order with
pairwise disjoint (here: strictly separated) non-empty entries, and after
finalization the two lists are interval-disjoint from each other.
-/

/-- Two regions are separated: the half-open intervals do not overlap
(adjacency allowed). -/
def sep (x r : MemoryRegions) : Prop := x.endAddr ≤ r.address ∨ r.endAddr ≤ x.address

instance (x r : MemoryRegions) : Decidable (sep x r) := by
  unfold sep; infer_instance

/-- Strict chain: every earlier entry ends strictly before a later entry
begins.  This implies strictly ascending addresses and pairwise
disjointness. -/
def SChain (l : List MemoryRegions) : Prop :=
  l.Pairwise (fun a b => a.endAddr < b.address)

instance (l : List MemoryRegions) : Decidable (SChain l) := by
  unfold SChain; exact List.instDecidablePairwise l

/-- All entries non-empty. -/
def PosList (l : List MemoryRegions) : Prop := ∀ r ∈ l, 0 < r.size

instance (l : List MemoryRegions) : Decidable (PosList l) := by
  unfold PosList; infer_instance

/-- Every entry of the first list is separated from every entry of the
second. -/
def SepLists (l₁ l₂ : List MemoryRegions) : Prop := ∀ r ∈ l₁, ∀ p ∈ l₂, sep r p

instance (l₁ l₂ : List MemoryRegions) : Decidable (SepLists l₁ l₂) := by
  unfold SepLists; infer_instance

/-- `o` is a sub-interval of `p`. -/
def within (o p : MemoryRegions) : Prop :=
  p.address ≤ o.address ∧ o.endAddr ≤ p.endAddr

instance (o p : MemoryRegions) : Decidable (within o p) := by
  unfold within; infer_instance

/-- Total number of bytes of a region list. -/
def sumSize (l : List MemoryRegions) : Nat := (l.map (fun r => r.size)).sum

/-- The basic shape invariant of a `MemoryBlock` (spec §3 / §8
"sorted disjointness" plus the mutual separation of R and P that holds
once the state is allocatable). -/
structure MemoryBlock.Wf (s : MemoryBlock) : Prop where
  chainR : SChain s.regions
  chainP : SChain s.reserved_regions
  posR : PosList s.regions
  posP : PosList s.reserved_regions
  sepRP : SepLists s.regions s.reserved_regions

instance (s : MemoryBlock) : Decidable s.Wf := by
  refine decidable_of_iff
    (SChain s.regions ∧ SChain s.reserved_regions ∧ PosList s.regions ∧
      PosList s.reserved_regions ∧ SepLists s.regions s.reserved_regions) ?_
  constructor
  · rintro ⟨h1, h2, h3, h4, h5⟩; exact ⟨h1, h2, h3, h4, h5⟩
  · rintro ⟨h1, h2, h3, h4, h5⟩; exact ⟨h1, h2, h3, h4, h5⟩

/-!
### Basic lemmas about `nextMultipleOf` and carving
-/

theorem nextMultipleOf_dvd (a n : Nat) : n ∣ nextMultipleOf a n :=
  ⟨(a + n - 1) / n, Nat.mul_comm _ _⟩

theorem le_nextMultipleOf (a : Nat) {n : Nat} (hn : 0 < n) : a ≤ nextMultipleOf a n := by
  unfold nextMultipleOf
  have h1 := Nat.div_add_mod (a + n - 1) n
  have h2 : (a + n - 1) % n < n := Nat.mod_lt _ hn
  rw [Nat.mul_comm]
  omega

theorem carveRegion_some {size alignment : Nat} {r : MemoryRegions}
    {pieces : List MemoryRegions} {addr : Nat}
    (h : carveRegion size alignment r = some (pieces, addr)) :
    addr = nextMultipleOf r.address alignment ∧ addr + size ≤ r.endAddr ∧
      pieces =
        (if r.address % alignment ≠ 0 then [⟨r.address, addr - r.address⟩] else []) ++
        (if addr + size ≠ r.endAddr then [⟨addr + size, r.endAddr - (addr + size)⟩]
         else []) := by
  simp only [carveRegion] at h
  split at h
  · simp only [Option.some.injEq, Prod.mk.injEq] at h
    obtain ⟨hp, ha⟩ := h
    subst ha
    exact ⟨rfl, by assumption, hp.symm⟩
  · exact absurd h (by simp)

theorem carveRegion_none {size alignment : Nat} {r : MemoryRegions}
    (h : carveRegion size alignment r = none) :
    ¬ (nextMultipleOf r.address alignment + size ≤ r.endAddr) := by
  simp only [carveRegion] at h
  split at h
  · exact absurd h (by simp)
  · assumption

/-- Every piece that `carveRegion` leaves behind is a sub-interval of the
carved region. -/
theorem carveRegion_pieces_within {size alignment : Nat} (halign : 0 < alignment)
    {r : MemoryRegions} {pieces : List MemoryRegions} {addr : Nat}
    (h : carveRegion size alignment r = some (pieces, addr)) :
    ∀ y ∈ pieces, within y r := by
  obtain ⟨haddr, hle, hp⟩ := carveRegion_some h
  have hge : r.address ≤ addr := haddr ▸ le_nextMultipleOf _ halign
  intro y hy
  rw [hp] at hy
  rcases List.mem_append.mp hy with hy | hy
  · split at hy
    · simp only [List.mem_singleton] at hy
      subst hy
      exact ⟨le_refl _, by simp only [MemoryRegions.endAddr] at hle ⊢; omega⟩
    · simp at hy
  · split at hy
    · simp only [List.mem_singleton] at hy
      subst hy
      exact ⟨by simp only [MemoryRegions.endAddr] at hle ⊢; omega,
             by simp only [MemoryRegions.endAddr] at hle ⊢; omega⟩
    · simp at hy

/-- First-fit scan: the carved address comes from some input region serving
`[addr, addr+size)`, and every output region is a sub-interval of an input
region. -/
theorem allocGo_spec {size alignment : Nat} (halign : 0 < alignment) :
    ∀ {l l' : List MemoryRegions} {addr : Nat},
      allocGo size alignment l = some (l', addr) →
      ((∃ r ∈ l, r.address ≤ addr ∧ addr + size ≤ r.endAddr ∧
          addr = nextMultipleOf r.address alignment) ∧
        ∀ y ∈ l', ∃ r ∈ l, within y r)
  | [], _, _, h => by simp [allocGo] at h
  | r :: rest, l', addr, h => by
    unfold allocGo at h
    cases hc : carveRegion size alignment r with
    | some p =>
      rw [hc] at h
      obtain ⟨pieces, a⟩ := p
      simp only [Option.some.injEq, Prod.mk.injEq] at h
      obtain ⟨hl', ha⟩ := h
      subst a
      obtain ⟨haddr, hle, _⟩ := carveRegion_some hc
      have hge : r.address ≤ addr := haddr ▸ le_nextMultipleOf _ halign
      refine ⟨⟨r, List.mem_cons_self _ _, hge, hle, haddr⟩, ?_⟩
      intro y hy
      rw [← hl'] at hy
      rcases List.mem_append.mp hy with hy | hy
      · exact ⟨r, List.mem_cons_self _ _, carveRegion_pieces_within halign hc y hy⟩
      · exact ⟨y, List.mem_cons_of_mem _ hy, le_refl _, le_refl _⟩
    | none =>
      rw [hc] at h
      cases hrec : allocGo size alignment rest with
      | none => rw [hrec] at h; simp at h
      | some p =>
        rw [hrec] at h
        obtain ⟨l'', a⟩ := p
        simp only [Option.map_some', Option.some.injEq, Prod.mk.injEq] at h
        obtain ⟨hl', ha⟩ := h
        subst a
        obtain ⟨⟨r0, hr0, hspec⟩, hwithin⟩ := allocGo_spec halign hrec
        refine ⟨⟨r0, List.mem_cons_of_mem _ hr0, hspec⟩, ?_⟩
        intro y hy
        rw [← hl'] at hy
        rcases List.mem_cons.mp hy with hy | hy
        · exact ⟨r, List.mem_cons_self _ _, by rw [hy]; exact ⟨le_refl _, le_refl _⟩⟩
        · obtain ⟨r1, hr1, hw⟩ := hwithin y hy
          exact ⟨r1, List.mem_cons_of_mem _ hr1, hw⟩

/-- Unfolding of a successful `allocate_region_internal`. -/
theorem allocate_region_internal_eq_some {s : MemoryBlock} {size alignment : Nat}
    {s' : MemoryBlock} {addr : Nat}
    (h : s.allocate_region_internal size alignment = (s', some addr)) :
    ∃ rs, allocGo size alignment s.regions = some (rs, addr) ∧
      s' = MemoryBlock.add_reserved_alloc_record { s with regions := rs } addr size := by
  unfold MemoryBlock.allocate_region_internal at h
  cases hgo : allocGo size alignment s.regions with
  | none => rw [hgo] at h; simp at h
  | some p =>
    rw [hgo] at h
    obtain ⟨rs, a⟩ := p
    simp only [Prod.mk.injEq, Option.some.injEq] at h
    obtain ⟨hs, ha⟩ := h
    subst a
    exact ⟨rs, rfl, hs.symm⟩

/-- A failed `allocate_region_internal` leaves the state unchanged. -/
theorem allocate_region_internal_eq_none {s : MemoryBlock} {size alignment : Nat}
    {s' : MemoryBlock}
    (h : s.allocate_region_internal size alignment = (s', none)) :
    s' = s ∧ allocGo size alignment s.regions = none := by
  unfold MemoryBlock.allocate_region_internal at h
  cases hgo : allocGo size alignment s.regions with
  | none => rw [hgo] at h; exact ⟨(congrArg Prod.fst h).symm, rfl⟩
  | some p => rw [hgo] at h; obtain ⟨rs, a⟩ := p; simp at h

/-- After a successful headroom check (with or without migration) every
available region is a sub-interval of an original available region. -/
theorem ensure_headroom_within {s s1 : MemoryBlock}
    (h : s.ensure_overflow_headroom = some s1) :
    ∀ y ∈ s1.regions, ∃ r ∈ s.regions, within y r := by
  unfold MemoryBlock.ensure_overflow_headroom at h
  split at h
  · -- migration path
    simp only [MemoryBlock.overflow_wrapping] at h
    cases hint : s.allocate_region_internal
        ((s.region_capacity + s.reserved_region_capacity) * 2 * memoryRegionsByteSize) 4096 with
    | mk s2 res =>
      rw [hint] at h
      cases res with
      | none => simp at h
      | some addr =>
        simp only [Option.some.injEq] at h
        obtain ⟨rs, hgo, hs2⟩ := allocate_region_internal_eq_some hint
        intro y hy
        have hy2 : y ∈ rs := by
          rw [← h] at hy
          simpa [hs2, MemoryBlock.add_reserved_alloc_record] using hy
        exact (allocGo_spec (by norm_num) hgo).2 y hy2
  · -- no migration
    intro y hy
    exact ⟨y, by rw [← Option.some.inj h] at hy; exact hy, le_refl _, le_refl _⟩

/-- C9, general form over the embedding: a successful `allocate_region`
returns an address divisible by the requested power-of-two alignment, and
the carved interval `[addr, addr + size)` lies inside one of the regions
that were in the available list before the call. -/
theorem allocate_region_aligned {s s' : MemoryBlock} {sz a addr : Nat} {k : Nat}
    (ha : a = 2 ^ k)
    (h : s.allocate_region ⟨sz, a⟩ = some (s', some addr)) :
    a ∣ addr ∧ ∃ r ∈ s.regions, r.address ≤ addr ∧ addr + sz ≤ r.endAddr := by
  have halign : 0 < a := ha ▸ Nat.pos_pow_of_pos k (by norm_num)
  unfold MemoryBlock.allocate_region at h
  split at h
  · simp at h
  · cases hens : s.ensure_overflow_headroom with
    | none => rw [hens] at h; simp at h
    | some s1 =>
      rw [hens] at h
      simp only [Option.some.injEq] at h
      obtain ⟨rs, hgo, _⟩ := allocate_region_internal_eq_some h
      obtain ⟨⟨r1, hr1, hle1, hle2, haddr⟩, _⟩ := allocGo_spec halign hgo
      obtain ⟨r, hr, hw1, hw2⟩ := ensure_headroom_within hens r1 hr1
      refine ⟨haddr ▸ nextMultipleOf_dvd _ _, r, hr, le_trans hw1 hle1, ?_⟩
      calc addr + sz ≤ r1.endAddr := hle2
    _ ≤ r.endAddr := hw2

/-!
### Claim theorems C8 and C9
-/

/-- `add_region_internal` never consults the `allocatable` flag: the flag
can be flipped arbitrarily without changing what the call does to the
lists, and the call never alters the flag. -/
theorem add_region_internal_ignores_allocatable (s : MemoryBlock) (b : Bool)
    (is_reserved : Bool) (region : MemoryRegions) :
    MemoryBlock.add_region_internal { s with allocatable := b } is_reserved region
      = (s.add_region_internal is_reserved region).map
          (fun t => { t with allocatable := b }) := by
  unfold MemoryBlock.add_region_internal
  cases is_reserved <;> simp <;>
    cases addRegionList s.regions s.region_capacity region <;>
    cases addRegionList s.reserved_regions s.reserved_region_capacity region <;>
    simp [Except.map]

/-- A concrete finalized state: available `[0x1000, 0x2000)`, finalize with
no reserved regions. -/
def finalizedSimple : MemoryBlock :=
  { regions := [⟨0x1000, 0x1000⟩]
    reserved_regions := []
    region_capacity := 128
    reserved_region_capacity := 128
    allocatable := true }

theorem finalizedSimple_reachable :
    ((expectOk (MemoryBlock.init.add_region ⟨0x1000, 0x1000⟩)).check_regions).1
      = finalizedSimple := by decide

/-- C8 counterexample: on a finalized state (`allocatable = true`, reached
through `add_region` + `check_regions`) a further `add_region` does *not*
fail with any error — there is no `AlreadyFinalized` gate in
`range_list_allocator.rs` — and it changes the available list. -/
theorem C8_already_finalized_counterexample :
    finalizedSimple.allocatable = true ∧
    finalizedSimple.add_region ⟨0x3000, 0x100⟩
      = .ok { finalizedSimple with regions := [⟨0x1000, 0x1000⟩, ⟨0x3000, 0x100⟩] } := by
  decide

/-- C8 (amended): after finalize, `add_region` and `add_reserved_region`
are not rejected: `MemoryBlock` has no `AlreadyFinalized` error.  The two
ingestion operations never consult the `allocatable` flag — they behave on
a finalized state exactly as on the equal state with the flag cleared, and
leave the flag untouched. -/
theorem C8_add_after_finalize_not_gated (s : MemoryBlock) (region : MemoryRegions) :
    (MemoryBlock.add_region { s with allocatable := true } region
        = (MemoryBlock.add_region { s with allocatable := false } region).map
            (fun t => { t with allocatable := true })) ∧
    (MemoryBlock.add_reserved_region { s with allocatable := true } region
        = (MemoryBlock.add_reserved_region { s with allocatable := false } region).map
            (fun t => { t with allocatable := true })) := by
  constructor
  · show MemoryBlock.add_region_internal { s with allocatable := true } false region = _
    rw [show ({ s with allocatable := true } : MemoryBlock)
          = { ({ s with allocatable := false } : MemoryBlock) with allocatable := true } from rfl,
        add_region_internal_ignores_allocatable]
    rfl
  · show MemoryBlock.add_region_internal { s with allocatable := true } true region = _
    rw [show ({ s with allocatable := true } : MemoryBlock)
          = { ({ s with allocatable := false } : MemoryBlock) with allocatable := true } from rfl,
        add_region_internal_ignores_allocatable]
    rfl

/-- C9: for every finalized state, size and power-of-two alignment, a
successful `allocate_region` returns an address that is a multiple of the
alignment, and the carved interval lies inside a region that was in the
available list before the call. -/
theorem C9_allocate_alignment (s s' : MemoryBlock) (sz a k addr : Nat)
    (_hfin : s.allocatable = true) (ha : a = 2 ^ k)
    (h : s.allocate_region ⟨sz, a⟩ = some (s', some addr)) :
    a ∣ addr ∧ ∃ r ∈ s.regions, r.address ≤ addr ∧ addr + sz ≤ r.endAddr :=
  allocate_region_aligned ha h

/-- The state `allocate_region ⟨0x100, 0x100⟩` produces from the finalized
`[0x1001, 0x2001)` state (an unaligned region, so the carve splits it). -/
def alignedCarvePost : MemoryBlock :=
  { regions := [⟨0x1001, 0xFF⟩, ⟨0x1200, 0xE01⟩]
    reserved_regions := [⟨0x1100, 0x100⟩]
    region_capacity := 128
    reserved_region_capacity := 128
    allocatable := true }

theorem C9_allocate_alignment_witness :
    (0x100 : Nat) ∣ 0x1100 ∧
      ∃ r ∈ ({ regions := [⟨0x1001, 0x1000⟩]
               reserved_regions := []
               region_capacity := 128
               reserved_region_capacity := 128
               allocatable := true } : MemoryBlock).regions,
        r.address ≤ 0x1100 ∧ 0x1100 + 0x100 ≤ r.endAddr :=
  C9_allocate_alignment _ alignedCarvePost 0x100 0x100 8 0x1100 (by decide) (by norm_num)
    (by decide)

/-!
### List surgery helpers and the shape of `add_and_merge_region`

On a strictly separated list with non-empty entries, a call with a region
that is separated from every entry (it may touch neighbours, not overlap
them) takes exactly one of four shapes: plain insertion, extension of the
left neighbour, extension of the right neighbour, or coalescing of both.
-/

theorem get?_append_cons_length {α : Type} (A : List α) (b : α) (B : List α) :
    (A ++ b :: B).get? A.length = some b := by
  induction A with
  | nil => rfl
  | cons a A ih =>
    simp only [List.cons_append, List.length_cons, List.get?_cons_succ]
    exact ih

theorem set_append_cons_length {α : Type} (A : List α) (b : α) (B : List α) (v : α) :
    (A ++ b :: B).set A.length v = A ++ v :: B := by
  induction A with
  | nil => rfl
  | cons a A ih => simpa using ih

theorem eraseIdx_append_cons_length {α : Type} (A : List α) (b : α) (B : List α) :
    (A ++ b :: B).eraseIdx A.length = A ++ B := by
  induction A with
  | nil => rfl
  | cons a A ih => simpa using ih

theorem lowerBound_append_eq (a : Nat) (A B : List MemoryRegions)
    (hA : ∀ r ∈ A, r.address < a) (hB : ∀ r ∈ B, ¬ r.address < a) :
    lowerBound a (A ++ B) = A.length := by
  unfold lowerBound
  induction A with
  | nil =>
    cases B with
    | nil => rfl
    | cons b B => simp [List.takeWhile_cons, hB b (List.mem_cons_self _ _)]
  | cons r A ih =>
    have hr := hA r (List.mem_cons_self _ _)
    have ih2 := ih (fun r hr => hA r (List.mem_cons_of_mem _ hr))
    simp [List.takeWhile_cons, hr, ih2]

/-- Shape 1: no touching neighbour on either side — plain insertion. -/
theorem addMerge_shape_insert (A B : List MemoryRegions) (x : MemoryRegions)
    (hA : ∀ r ∈ A, r.endAddr < x.address)
    (hB : ∀ r ∈ B, x.endAddr < r.address) :
    addAndMergeRegion (A ++ B) A.length x = A ++ x :: B := by
  have hpre : ∀ p, (A ++ B).get? (A.length - 1) = some p → 0 < A.length →
      ¬ x.address ≤ p.endAddr := by
    intro p hp hlen
    rcases List.eq_nil_or_concat A with rfl | ⟨A0, q, rfl⟩
    · simp at hlen
    · simp only [List.concat_eq_append] at hA hp hlen
      have : (A0 ++ [q] ++ B).get? A0.length = some q := by
        rw [List.append_assoc, List.singleton_append]
        exact get?_append_cons_length A0 q B
      rw [show (A0 ++ [q]).length - 1 = A0.length by simp] at hp
      rw [this] at hp
      have hq : q = p := by injection hp
      subst hq
      have := hA q (by simp)
      omega
  have hnext : ∀ n, (A ++ B).get? A.length = some n → ¬ n.address ≤ x.endAddr := by
    intro n hn
    cases B with
    | nil => rw [List.append_nil] at hn; simp [List.get?_eq_none.mpr (le_refl _)] at hn
    | cons b B0 =>
      rw [get?_append_cons_length] at hn
      have hb : b = n := by injection hn
      subst hb
      have := hB b (List.mem_cons_self _ _)
      omega
  unfold addAndMergeRegion
  cases hget1 : (A ++ B).get? (A.length - 1) with
  | none =>
    cases hget2 : (A ++ B).get? A.length with
    | none =>
      simp only [Bool.and_eq_false_iff]
      unfold insertRegion
      simp [List.take_left, List.drop_left]
    | some n =>
      simp only [decide_eq_false (hnext n hget2), Bool.and_false]
      unfold insertRegion
      simp [List.take_left, List.drop_left]
  | some p =>
    cases hget2 : (A ++ B).get? A.length with
    | none =>
      by_cases hlen : 0 < A.length
      · simp only [decide_eq_false (hpre p hget1 hlen)]
        unfold insertRegion
        simp [List.take_left, List.drop_left]
      · simp only [decide_eq_false hlen]
        unfold insertRegion
        simp [List.take_left, List.drop_left]
    | some n =>
      by_cases hlen : 0 < A.length
      · simp only [decide_eq_false (hpre p hget1 hlen), decide_eq_false (hnext n hget2)]
        unfold insertRegion
        simp [List.take_left, List.drop_left]
      · simp only [decide_eq_false hlen, decide_eq_false (hnext n hget2)]
        unfold insertRegion
        simp [List.take_left, List.drop_left]



theorem addMerge_shape_left (A0 : List MemoryRegions) (p : MemoryRegions)
    (B : List MemoryRegions) (x : MemoryRegions)
    (hadj : p.endAddr = x.address) (hx : 0 < x.size)
    (hB : ∀ r ∈ B, x.endAddr < r.address) :
    addAndMergeRegion (A0 ++ p :: B) (A0.length + 1) x
      = A0 ++ ⟨p.address, x.endAddr - p.address⟩ :: B := by
  have hget1 : (A0 ++ p :: B).get? (A0.length + 1 - 1) = some p := by
    simpa using get?_append_cons_length A0 p B
  have hlt : p.endAddr < x.endAddr := by
    simp only [MemoryRegions.endAddr] at hadj ⊢
    omega
  cases B with
  | nil =>
    have hget2 : (A0 ++ [p]).get? (A0.length + 1) = none := by
      apply List.get?_eq_none.mpr
      simp
    unfold addAndMergeRegion
    rw [hget1, hget2]
    simp only [show decide (x.address ≤ p.endAddr) = true from by simp [hadj],
      show decide (0 < A0.length + 1) = true from by simp, Bool.and_true]
    rw [if_pos hlt]
    simp only [Nat.add_sub_cancel]
    have := set_append_cons_length A0 p ([] : List MemoryRegions)
      { p with size := x.endAddr - p.address }
    simpa using this
  | cons b B0 =>
    have hb : x.endAddr < b.address := hB b (List.mem_cons_self _ _)
    have hget2 : (A0 ++ p :: b :: B0).get? (A0.length + 1) = some b := by
      have := get?_append_cons_length (A0 ++ [p]) b B0
      simpa using this
    unfold addAndMergeRegion
    rw [hget1, hget2]
    simp only [show decide (x.address ≤ p.endAddr) = true from by simp [hadj],
      show decide (0 < A0.length + 1) = true from by simp,
      show decide (b.address ≤ x.endAddr) = false from by simp; omega, Bool.and_true]
    rw [if_pos hlt]
    simp only [Nat.add_sub_cancel]
    have := set_append_cons_length A0 p (b :: B0)
      { p with size := x.endAddr - p.address }
    simpa using this

theorem addMerge_shape_right_nil (n : MemoryRegions)
    (B0 : List MemoryRegions) (x : MemoryRegions)
    (hadj : n.address = x.endAddr) :
    addAndMergeRegion (n :: B0) 0 x = ⟨x.address, n.endAddr - x.address⟩ :: B0 := by
  have hmax : max n.endAddr x.endAddr = n.endAddr := by
    apply Nat.max_eq_left
    simp only [MemoryRegions.endAddr] at hadj ⊢
    omega
  unfold addAndMergeRegion
  simp only [show decide (n.address ≤ x.endAddr) = true from by simp [hadj],
    show decide (0 < 0) = false from by simp, Bool.false_and]
  rw [show ((n :: B0).get? 0) = some n from rfl]
  simp only [show decide (n.address ≤ x.endAddr) = true from by simp [hadj], hmax]
  rfl

theorem addMerge_shape_right_cons (A1 : List MemoryRegions) (q n : MemoryRegions)
    (B0 : List MemoryRegions) (x : MemoryRegions)
    (hq : q.endAddr < x.address)
    (hadj : n.address = x.endAddr) :
    addAndMergeRegion (A1 ++ q :: n :: B0) (A1.length + 1) x
      = A1 ++ q :: ⟨x.address, n.endAddr - x.address⟩ :: B0 := by
  have hget1 : (A1 ++ q :: n :: B0).get? (A1.length + 1 - 1) = some q := by
    simpa using get?_append_cons_length A1 q (n :: B0)
  have hget2 : (A1 ++ q :: n :: B0).get? (A1.length + 1) = some n := by
    have := get?_append_cons_length (A1 ++ [q]) n B0
    simpa using this
  have hmax : max n.endAddr x.endAddr = n.endAddr := by
    apply Nat.max_eq_left
    simp only [MemoryRegions.endAddr] at hadj ⊢
    omega
  unfold addAndMergeRegion
  rw [hget1, hget2]
  simp only [show decide (n.address ≤ x.endAddr) = true from by simp [hadj],
    show decide (x.address ≤ q.endAddr) = false from by simp; omega,
    Bool.and_false, hmax]
  have := set_append_cons_length (A1 ++ [q]) n B0 ⟨x.address, n.endAddr - x.address⟩
  simpa using this

theorem addMerge_shape_both (A0 : List MemoryRegions) (p n : MemoryRegions)
    (B0 : List MemoryRegions) (x : MemoryRegions)
    (hpadj : p.endAddr = x.address) (hnadj : n.address = x.endAddr) :
    addAndMergeRegion (A0 ++ p :: n :: B0) (A0.length + 1) x
      = A0 ++ ⟨p.address, n.endAddr - p.address⟩ :: B0 := by
  have hget1 : (A0 ++ p :: n :: B0).get? (A0.length + 1 - 1) = some p := by
    simpa using get?_append_cons_length A0 p (n :: B0)
  have hget2 : (A0 ++ p :: n :: B0).get? (A0.length + 1) = some n := by
    have := get?_append_cons_length (A0 ++ [p]) n B0
    simpa using this
  have h1 : max p.endAddr x.endAddr = x.endAddr := by
    apply Nat.max_eq_right
    simp only [MemoryRegions.endAddr] at hpadj ⊢
    omega
  have h2 : max x.endAddr n.endAddr = n.endAddr := by
    apply Nat.max_eq_right
    simp only [MemoryRegions.endAddr] at hnadj ⊢
    omega
  unfold addAndMergeRegion
  rw [hget1, hget2]
  simp only [show decide (x.address ≤ p.endAddr) = true from by simp [hpadj],
    show decide (0 < A0.length + 1) = true from by simp,
    show decide (n.address ≤ x.endAddr) = true from by simp [hnadj],
    Bool.and_true, h1, h2]
  simp only [Nat.add_sub_cancel]
  rw [set_append_cons_length A0 p (n :: B0) { p with size := n.endAddr - p.address }]
  have := eraseIdx_append_cons_length (A0 ++ [{ p with size := n.endAddr - p.address }]) n B0
  simpa using this

theorem sumSize_append (A B : List MemoryRegions) :
    sumSize (A ++ B) = sumSize A + sumSize B := by
  unfold sumSize
  simp

theorem sumSize_cons (r : MemoryRegions) (l : List MemoryRegions) :
    sumSize (r :: l) = r.size + sumSize l := by
  unfold sumSize
  simp

theorem schain_append_cons (A B : List MemoryRegions) (y : MemoryRegions) :
    SChain (A ++ y :: B) ↔
      SChain A ∧ SChain B ∧ (∀ a ∈ A, a.endAddr < y.address) ∧
        (∀ b ∈ B, y.endAddr < b.address) ∧
        (∀ a ∈ A, ∀ b ∈ B, a.endAddr < b.address) := by
  unfold SChain
  rw [List.pairwise_append]
  simp only [List.pairwise_cons, List.mem_cons]
  constructor
  · rintro ⟨h1, ⟨h2, h3⟩, h4⟩
    refine ⟨h1, h3, fun a ha => (h4 a ha y (Or.inl rfl)), h2, ?_⟩
    intro a ha b hb
    exact h4 a ha b (Or.inr hb)
  · rintro ⟨h1, h2, h3, h4, h5⟩
    refine ⟨h1, ⟨h4, h2⟩, ?_⟩
    rintro a ha b (rfl | hb)
    · exact h3 a ha
    · exact h5 a ha b hb

theorem sep_of_within {z y r : MemoryRegions} (hw : within y r) (hs : sep z r) :
    sep z y := by
  unfold within at hw
  unfold sep at hs ⊢
  unfold MemoryRegions.endAddr at *
  omega

theorem dropWhile_head_false {α : Type} (p : α → Bool) :
    ∀ (l : List α) (b : α) (B0 : List α), l.dropWhile p = b :: B0 → p b = false := by
  intro l
  induction l with
  | nil => intro b B0 h; simp [List.dropWhile] at h
  | cons a l ih =>
    intro b B0 h
    rw [List.dropWhile_cons] at h
    split at h
    · exact ih b B0 h
    · injection h with h1 h2
      subst h1
      simp_all

/-- Decomposition of a well-formed list at the insertion point of a
separated non-empty region: a left part strictly below the region and a
right part entirely at or above its end. -/
theorem split_at_lowerBound {l : List MemoryRegions} {x : MemoryRegions}
    (hch : SChain l) (hpos : PosList l) (hx : 0 < x.size)
    (hsep : ∀ r ∈ l, sep x r) :
    ∃ A B, l = A ++ B ∧ lowerBound x.address l = A.length ∧
      (∀ r ∈ A, r.address < x.address) ∧ (∀ r ∈ A, r.endAddr ≤ x.address) ∧
      (∀ r ∈ B, x.endAddr ≤ r.address) := by
  refine ⟨l.takeWhile (fun r => decide (r.address < x.address)),
          l.dropWhile (fun r => decide (r.address < x.address)),
          (List.takeWhile_append_dropWhile _ _).symm, rfl, ?_, ?_, ?_⟩
  · intro r hr
    have := List.mem_takeWhile_imp hr
    simpa using this
  · intro r hr
    have haddr : r.address < x.address := by
      have := List.mem_takeWhile_imp hr
      simpa using this
    have hrl : r ∈ l := (List.takeWhile_sublist _).subset hr
    rcases hsep r hrl with h | h
    · exfalso
      unfold MemoryRegions.endAddr at h
      omega
    · exact h
  · -- every entry of the drop part starts at or above `x.endAddr`
    have hmem : ∀ r ∈ l.dropWhile (fun r => decide (r.address < x.address)),
        x.address ≤ r.address := by
      cases hB : l.dropWhile (fun r => decide (r.address < x.address)) with
      | nil => simp
      | cons b B0 =>
        have hb : x.address ≤ b.address := by
          have := dropWhile_head_false _ l b B0 hB
          simpa using this
        have hchB : SChain (b :: B0) := by
          have hsplit := (List.takeWhile_append_dropWhile
            (fun r => decide (r.address < x.address)) l).symm
          rw [hB] at hsplit
          rw [hsplit] at hch
          unfold SChain at hch ⊢
          exact (List.pairwise_append.mp hch).2.1
        intro r hr
        rcases List.mem_cons.mp hr with rfl | hr
        · exact hb
        · unfold SChain at hchB
          have := (List.pairwise_cons.mp hchB).1 r hr
          unfold MemoryRegions.endAddr at this
          omega
    intro r hr
    have hrl : r ∈ l := (List.dropWhile_sublist _).subset hr
    rcases hsep r hrl with h | h
    · exact h
    · exfalso
      have h1 := hmem r hr
      have h2 := hpos r hrl
      unfold MemoryRegions.endAddr at h
      omega

/-- All invariant conclusions for the plain-insertion shape. -/
theorem addMerge_concl_insert (A B : List MemoryRegions) (x : MemoryRegions)
    (hch : SChain (A ++ B)) (hpos : PosList (A ++ B)) (hx : 0 < x.size)
    (hAstrict : ∀ r ∈ A, r.endAddr < x.address)
    (hBstrict : ∀ r ∈ B, x.endAddr < r.address) :
    SChain (A ++ x :: B) ∧ PosList (A ++ x :: B) ∧
      sumSize (A ++ x :: B) = sumSize (A ++ B) + x.size ∧
      (A ++ x :: B).length ≤ (A ++ B).length + 1 ∧
      (∀ z, 0 < z.size → sep z x → (∀ r ∈ A ++ B, sep z r) →
        ∀ y ∈ A ++ x :: B, sep z y) ∧
      (∀ r ∈ A ++ B, ∃ q ∈ A ++ x :: B, within r q) ∧
      (∃ q ∈ A ++ x :: B, within x q) := by
  have hchA : SChain A := by
    unfold SChain at hch ⊢
    exact (List.pairwise_append.mp hch).1
  have hchB : SChain B := by
    unfold SChain at hch ⊢
    exact (List.pairwise_append.mp hch).2.1
  have hcross : ∀ a ∈ A, ∀ b ∈ B, a.endAddr < b.address := by
    unfold SChain at hch
    exact (List.pairwise_append.mp hch).2.2
  refine ⟨?_, ?_, ?_, ?_, ?_, ?_, ?_⟩
  · exact (schain_append_cons A B x).mpr ⟨hchA, hchB, hAstrict, hBstrict, hcross⟩
  · intro r hr
    rcases List.mem_append.mp hr with hr | hr
    · exact hpos r (List.mem_append.mpr (Or.inl hr))
    · rcases List.mem_cons.mp hr with rfl | hr
      · exact hx
      · exact hpos r (List.mem_append.mpr (Or.inr hr))
  · rw [sumSize_append, sumSize_append, sumSize_cons]
    omega
  · simp
    omega
  · intro z _ hzx hzl y hy
    rcases List.mem_append.mp hy with hy | hy
    · exact hzl y (List.mem_append.mpr (Or.inl hy))
    · rcases List.mem_cons.mp hy with rfl | hy
      · exact hzx
      · exact hzl y (List.mem_append.mpr (Or.inr hy))
  · intro r hr
    rcases List.mem_append.mp hr with hr | hr
    · exact ⟨r, List.mem_append.mpr (Or.inl hr), le_refl _, le_refl _⟩
    · exact ⟨r, List.mem_append.mpr (Or.inr (List.mem_cons_of_mem _ hr)),
        le_refl _, le_refl _⟩
  · exact ⟨x, List.mem_append.mpr (Or.inr (List.mem_cons_self _ _)), le_refl _, le_refl _⟩

/-- All invariant conclusions for the extend-left-neighbour shape. -/
theorem addMerge_concl_left (A0 : List MemoryRegions) (p : MemoryRegions)
    (B : List MemoryRegions) (x : MemoryRegions)
    (hch : SChain (A0 ++ p :: B)) (hpos : PosList (A0 ++ p :: B)) (hx : 0 < x.size)
    (hpadj : p.endAddr = x.address)
    (hBstrict : ∀ r ∈ B, x.endAddr < r.address) :
    SChain (A0 ++ ⟨p.address, x.endAddr - p.address⟩ :: B) ∧
      PosList (A0 ++ ⟨p.address, x.endAddr - p.address⟩ :: B) ∧
      sumSize (A0 ++ ⟨p.address, x.endAddr - p.address⟩ :: B)
        = sumSize (A0 ++ p :: B) + x.size ∧
      (A0 ++ ⟨p.address, x.endAddr - p.address⟩ :: B).length
        ≤ (A0 ++ p :: B).length + 1 ∧
      (∀ z, 0 < z.size → sep z x → (∀ r ∈ A0 ++ p :: B, sep z r) →
        ∀ y ∈ A0 ++ ⟨p.address, x.endAddr - p.address⟩ :: B, sep z y) ∧
      (∀ r ∈ A0 ++ p :: B, ∃ q ∈ A0 ++ ⟨p.address, x.endAddr - p.address⟩ :: B, within r q) ∧
      (∃ q ∈ A0 ++ ⟨p.address, x.endAddr - p.address⟩ :: B, within x q) := by
  have hppos : 0 < p.size := hpos p (List.mem_append.mpr (Or.inr (List.mem_cons_self _ _)))
  obtain ⟨hchA, hchB, hA2p, hp2B, hcross⟩ := (schain_append_cons A0 B p).mp hch
  have hm : (⟨p.address, x.endAddr - p.address⟩ : MemoryRegions).endAddr = x.endAddr := by
    simp only [MemoryRegions.endAddr] at hpadj ⊢
    omega
  have hmw : within p ⟨p.address, x.endAddr - p.address⟩ := by
    refine ⟨le_refl _, ?_⟩
    rw [hm]
    simp only [MemoryRegions.endAddr] at hpadj ⊢
    omega
  have hxw : within x ⟨p.address, x.endAddr - p.address⟩ := by
    refine ⟨?_, le_of_eq hm.symm⟩
    simp only [MemoryRegions.endAddr] at hpadj ⊢
    omega
  refine ⟨?_, ?_, ?_, ?_, ?_, ?_, ?_⟩
  · refine (schain_append_cons A0 B _).mpr ⟨hchA, hchB, hA2p, ?_, hcross⟩
    intro b hb
    rw [hm]
    exact hBstrict b hb
  · intro r hr
    rcases List.mem_append.mp hr with hr | hr
    · exact hpos r (List.mem_append.mpr (Or.inl hr))
    · rcases List.mem_cons.mp hr with rfl | hr
      · simp only [MemoryRegions.endAddr] at hpadj ⊢
        omega
      · exact hpos r (List.mem_append.mpr (Or.inr (List.mem_cons_of_mem _ hr)))
  · rw [sumSize_append, sumSize_append, sumSize_cons, sumSize_cons]
    have : (⟨p.address, x.endAddr - p.address⟩ : MemoryRegions).size = p.size + x.size := by
      simp only [MemoryRegions.endAddr] at hpadj ⊢
      omega
    omega
  · simp
  · intro z hz hzx hzl y hy
    rcases List.mem_append.mp hy with hy | hy
    · exact hzl y (List.mem_append.mpr (Or.inl hy))
    · rcases List.mem_cons.mp hy with rfl | hy
      · have hzp := hzl p (List.mem_append.mpr (Or.inr (List.mem_cons_self _ _)))
        unfold sep at hzp hzx ⊢
        rw [hm]
        simp only [MemoryRegions.endAddr] at hzp hzx hpadj ⊢
        omega
      · exact hzl y (List.mem_append.mpr (Or.inr (List.mem_cons_of_mem _ hy)))
  · intro r hr
    rcases List.mem_append.mp hr with hr | hr
    · exact ⟨r, List.mem_append.mpr (Or.inl hr), le_refl _, le_refl _⟩
    · rcases List.mem_cons.mp hr with rfl | hr
      · exact ⟨_, List.mem_append.mpr (Or.inr (List.mem_cons_self _ _)), hmw⟩
      · exact ⟨r, List.mem_append.mpr (Or.inr (List.mem_cons_of_mem _ hr)),
          le_refl _, le_refl _⟩
  · exact ⟨_, List.mem_append.mpr (Or.inr (List.mem_cons_self _ _)), hxw⟩

/-- All invariant conclusions for the extend-right-neighbour shape. -/
theorem addMerge_concl_right (A : List MemoryRegions) (n : MemoryRegions)
    (B0 : List MemoryRegions) (x : MemoryRegions)
    (hch : SChain (A ++ n :: B0)) (hpos : PosList (A ++ n :: B0)) (hx : 0 < x.size)
    (hnadj : n.address = x.endAddr)
    (hAstrict : ∀ r ∈ A, r.endAddr < x.address) :
    SChain (A ++ ⟨x.address, n.endAddr - x.address⟩ :: B0) ∧
      PosList (A ++ ⟨x.address, n.endAddr - x.address⟩ :: B0) ∧
      sumSize (A ++ ⟨x.address, n.endAddr - x.address⟩ :: B0)
        = sumSize (A ++ n :: B0) + x.size ∧
      (A ++ ⟨x.address, n.endAddr - x.address⟩ :: B0).length
        ≤ (A ++ n :: B0).length + 1 ∧
      (∀ z, 0 < z.size → sep z x → (∀ r ∈ A ++ n :: B0, sep z r) →
        ∀ y ∈ A ++ ⟨x.address, n.endAddr - x.address⟩ :: B0, sep z y) ∧
      (∀ r ∈ A ++ n :: B0, ∃ q ∈ A ++ ⟨x.address, n.endAddr - x.address⟩ :: B0, within r q) ∧
      (∃ q ∈ A ++ ⟨x.address, n.endAddr - x.address⟩ :: B0, within x q) := by
  obtain ⟨hchA, hchB, hA2n, hn2B, hcross⟩ := (schain_append_cons A B0 n).mp hch
  have hm : (⟨x.address, n.endAddr - x.address⟩ : MemoryRegions).endAddr = n.endAddr := by
    simp only [MemoryRegions.endAddr] at hnadj ⊢
    omega
  have hmw : within n ⟨x.address, n.endAddr - x.address⟩ := by
    refine ⟨?_, le_of_eq hm.symm⟩
    simp only [MemoryRegions.endAddr] at hnadj ⊢
    omega
  have hxw : within x ⟨x.address, n.endAddr - x.address⟩ := by
    refine ⟨le_refl _, ?_⟩
    rw [hm]
    simp only [MemoryRegions.endAddr] at hnadj ⊢
    omega
  refine ⟨?_, ?_, ?_, ?_, ?_, ?_, ?_⟩
  · refine (schain_append_cons A B0 _).mpr ⟨hchA, hchB, hAstrict, ?_, hcross⟩
    intro b hb
    rw [hm]
    exact hn2B b hb
  · intro r hr
    rcases List.mem_append.mp hr with hr | hr
    · exact hpos r (List.mem_append.mpr (Or.inl hr))
    · rcases List.mem_cons.mp hr with rfl | hr
      · simp only [MemoryRegions.endAddr] at hnadj ⊢
        omega
      · exact hpos r (List.mem_append.mpr (Or.inr (List.mem_cons_of_mem _ hr)))
  · rw [sumSize_append, sumSize_append, sumSize_cons, sumSize_cons]
    have : (⟨x.address, n.endAddr - x.address⟩ : MemoryRegions).size = n.size + x.size := by
      simp only [MemoryRegions.endAddr] at hnadj ⊢
      omega
    omega
  · simp
  · intro z hz hzx hzl y hy
    rcases List.mem_append.mp hy with hy | hy
    · exact hzl y (List.mem_append.mpr (Or.inl hy))
    · rcases List.mem_cons.mp hy with rfl | hy
      · have hzn := hzl n (List.mem_append.mpr (Or.inr (List.mem_cons_self _ _)))
        unfold sep at hzn hzx ⊢
        rw [hm]
        simp only [MemoryRegions.endAddr] at hzn hzx hnadj ⊢
        omega
      · exact hzl y (List.mem_append.mpr (Or.inr (List.mem_cons_of_mem _ hy)))
  · intro r hr
    rcases List.mem_append.mp hr with hr | hr
    · exact ⟨r, List.mem_append.mpr (Or.inl hr), le_refl _, le_refl _⟩
    · rcases List.mem_cons.mp hr with rfl | hr
      · exact ⟨_, List.mem_append.mpr (Or.inr (List.mem_cons_self _ _)), hmw⟩
      · exact ⟨r, List.mem_append.mpr (Or.inr (List.mem_cons_of_mem _ hr)),
          le_refl _, le_refl _⟩
  · exact ⟨_, List.mem_append.mpr (Or.inr (List.mem_cons_self _ _)), hxw⟩

/-- All invariant conclusions for the coalesce-both-neighbours shape. -/
theorem addMerge_concl_both (A0 : List MemoryRegions) (p n : MemoryRegions)
    (B0 : List MemoryRegions) (x : MemoryRegions)
    (hch : SChain (A0 ++ p :: n :: B0)) (hpos : PosList (A0 ++ p :: n :: B0))
    (hx : 0 < x.size)
    (hpadj : p.endAddr = x.address) (hnadj : n.address = x.endAddr) :
    SChain (A0 ++ ⟨p.address, n.endAddr - p.address⟩ :: B0) ∧
      PosList (A0 ++ ⟨p.address, n.endAddr - p.address⟩ :: B0) ∧
      sumSize (A0 ++ ⟨p.address, n.endAddr - p.address⟩ :: B0)
        = sumSize (A0 ++ p :: n :: B0) + x.size ∧
      (A0 ++ ⟨p.address, n.endAddr - p.address⟩ :: B0).length
        ≤ (A0 ++ p :: n :: B0).length + 1 ∧
      (∀ z, 0 < z.size → sep z x → (∀ r ∈ A0 ++ p :: n :: B0, sep z r) →
        ∀ y ∈ A0 ++ ⟨p.address, n.endAddr - p.address⟩ :: B0, sep z y) ∧
      (∀ r ∈ A0 ++ p :: n :: B0,
        ∃ q ∈ A0 ++ ⟨p.address, n.endAddr - p.address⟩ :: B0, within r q) ∧
      (∃ q ∈ A0 ++ ⟨p.address, n.endAddr - p.address⟩ :: B0, within x q) := by
  obtain ⟨hchA, hchB, hA2p, hp2B, hcross⟩ := (schain_append_cons A0 (n :: B0) p).mp hch
  obtain ⟨hn2B, hchB0⟩ := List.pairwise_cons.mp hchB
  have hpn : p.endAddr < n.address := hp2B n (List.mem_cons_self _ _)
  have hm : (⟨p.address, n.endAddr - p.address⟩ : MemoryRegions).endAddr = n.endAddr := by
    simp only [MemoryRegions.endAddr] at hpadj hnadj ⊢
    omega
  have hpw : within p ⟨p.address, n.endAddr - p.address⟩ := by
    refine ⟨le_refl _, ?_⟩
    rw [hm]
    simp only [MemoryRegions.endAddr] at hpadj hnadj ⊢
    omega
  have hnw : within n ⟨p.address, n.endAddr - p.address⟩ := by
    refine ⟨?_, le_of_eq hm.symm⟩
    simp only [MemoryRegions.endAddr] at hpadj hnadj ⊢
    omega
  have hxw : within x ⟨p.address, n.endAddr - p.address⟩ := by
    refine ⟨?_, ?_⟩
    · simp only [MemoryRegions.endAddr] at hpadj ⊢
      omega
    · rw [hm]
      simp only [MemoryRegions.endAddr] at hnadj ⊢
      omega
  refine ⟨?_, ?_, ?_, ?_, ?_, ?_, ?_⟩
  · refine (schain_append_cons A0 B0 _).mpr ⟨hchA, hchB0, hA2p, ?_, ?_⟩
    · intro b hb
      rw [hm]
      exact hn2B b hb
    · intro a ha b hb
      exact hcross a ha b (List.mem_cons_of_mem _ hb)
  · intro r hr
    rcases List.mem_append.mp hr with hr | hr
    · exact hpos r (List.mem_append.mpr (Or.inl hr))
    · rcases List.mem_cons.mp hr with rfl | hr
      · simp only [MemoryRegions.endAddr] at hpadj hnadj ⊢
        omega
      · exact hpos r (List.mem_append.mpr (Or.inr
          (List.mem_cons_of_mem _ (List.mem_cons_of_mem _ hr))))
  · rw [sumSize_append, sumSize_append, sumSize_cons, sumSize_cons, sumSize_cons]
    have : (⟨p.address, n.endAddr - p.address⟩ : MemoryRegions).size
        = p.size + x.size + n.size := by
      simp only [MemoryRegions.endAddr] at hpadj hnadj hpn ⊢
      omega
    omega
  · simp
    omega
  · intro z hz hzx hzl y hy
    rcases List.mem_append.mp hy with hy | hy
    · exact hzl y (List.mem_append.mpr (Or.inl hy))
    · rcases List.mem_cons.mp hy with rfl | hy
      · have hzp := hzl p (List.mem_append.mpr (Or.inr (List.mem_cons_self _ _)))
        have hzn := hzl n (List.mem_append.mpr (Or.inr
          (List.mem_cons_of_mem _ (List.mem_cons_self _ _))))
        unfold sep at hzp hzn hzx ⊢
        rw [hm]
        simp only [MemoryRegions.endAddr] at hzp hzn hzx hpadj hnadj ⊢
        omega
      · exact hzl y (List.mem_append.mpr (Or.inr
          (List.mem_cons_of_mem _ (List.mem_cons_of_mem _ hy))))
  · intro r hr
    rcases List.mem_append.mp hr with hr | hr
    · exact ⟨r, List.mem_append.mpr (Or.inl hr), le_refl _, le_refl _⟩
    · rcases List.mem_cons.mp hr with rfl | hr
      · exact ⟨_, List.mem_append.mpr (Or.inr (List.mem_cons_self _ _)), hpw⟩
      · rcases List.mem_cons.mp hr with rfl | hr
        · exact ⟨_, List.mem_append.mpr (Or.inr (List.mem_cons_self _ _)), hnw⟩
        · exact ⟨r, List.mem_append.mpr (Or.inr (List.mem_cons_of_mem _ hr)),
            le_refl _, le_refl _⟩
  · exact ⟨_, List.mem_append.mpr (Or.inr (List.mem_cons_self _ _)), hxw⟩

/-- Master lemma for `add_and_merge_region` at the binary-search insertion
point: on a well-formed list, merging in a non-empty region that is
separated from every entry keeps the list well formed, adds exactly the
region's bytes, keeps separation from any region separated from everything
involved, and covers every old entry and the new region. -/
theorem addMerge_master {l : List MemoryRegions} {x : MemoryRegions}
    (hch : SChain l) (hpos : PosList l) (hx : 0 < x.size)
    (hsep : ∀ r ∈ l, sep x r) :
    SChain (addAndMergeRegion l (lowerBound x.address l) x) ∧
    PosList (addAndMergeRegion l (lowerBound x.address l) x) ∧
    sumSize (addAndMergeRegion l (lowerBound x.address l) x) = sumSize l + x.size ∧
    (addAndMergeRegion l (lowerBound x.address l) x).length ≤ l.length + 1 ∧
    (∀ z, 0 < z.size → sep z x → (∀ r ∈ l, sep z r) →
      ∀ y ∈ addAndMergeRegion l (lowerBound x.address l) x, sep z y) ∧
    (∀ r ∈ l, ∃ q ∈ addAndMergeRegion l (lowerBound x.address l) x, within r q) ∧
    (∃ q ∈ addAndMergeRegion l (lowerBound x.address l) x, within x q) := by
  obtain ⟨A, B, rfl, hk, hAmem, hsepA, hsepB⟩ := split_at_lowerBound hch hpos hx hsep
  rw [hk]
  have hchB : SChain B := by
    unfold SChain at hch ⊢
    exact (List.pairwise_append.mp hch).2.1
  -- strictness on the B side when the head is not adjacent
  have hBstrict_of : ∀ (n : MemoryRegions) (B0 : List MemoryRegions), B = n :: B0 →
      ¬ n.address = x.endAddr → ∀ r ∈ B, x.endAddr < r.address := by
    intro n B0 hB hn r hr
    subst hB
    rcases List.mem_cons.mp hr with rfl | hr
    · have := hsepB r (List.mem_cons_self _ _)
      omega
    · have h1 := hsepB n (List.mem_cons_self _ _)
      have h2 : n.endAddr < r.address := by
        unfold SChain at hchB
        exact (List.pairwise_cons.mp hchB).1 r hr
      unfold MemoryRegions.endAddr at h1 h2 ⊢
      omega
  rcases List.eq_nil_or_concat A with rfl | ⟨A0, p, rfl⟩
  · -- no left part
    cases B with
    | nil =>
      rw [addMerge_shape_insert [] [] x (by simp) (by simp)]
      exact addMerge_concl_insert [] [] x hch hpos hx (by simp) (by simp)
    | cons n B0 =>
      by_cases hn : n.address = x.endAddr
      · have heq : addAndMergeRegion (([] : List MemoryRegions) ++ n :: B0)
            ([] : List MemoryRegions).length x
            = ([] : List MemoryRegions) ++ ⟨x.address, n.endAddr - x.address⟩ :: B0 := by
          simpa using addMerge_shape_right_nil n B0 x hn
        rw [heq]
        exact addMerge_concl_right [] n B0 x hch hpos hx hn (by simp)
      · have hBs := hBstrict_of n B0 rfl hn
        rw [addMerge_shape_insert [] (n :: B0) x (by simp) hBs]
        exact addMerge_concl_insert [] (n :: B0) x hch hpos hx (by simp) hBs
  · -- left part ends in `p`
    simp only [List.concat_eq_append] at hch hpos hsep hAmem hsepA hsepB hBstrict_of ⊢
    have hpA : p ∈ A0 ++ [p] := by simp
    have hchA : SChain (A0 ++ [p]) := by
      unfold SChain at hch ⊢
      exact (List.pairwise_append.mp hch).1
    have hA0p : ∀ r ∈ A0, r.endAddr < p.address := by
      intro r hr
      unfold SChain at hchA
      exact (List.pairwise_append.mp hchA).2.2 r hr p (List.mem_cons_self _ _)
    by_cases hp : p.endAddr = x.address
    · -- left-adjacent
      have hch2 : SChain (A0 ++ p :: B) := by
        have := hch
        rwa [List.append_assoc, List.singleton_append] at this
      have hpos2 : PosList (A0 ++ p :: B) := by
        have := hpos
        rwa [List.append_assoc, List.singleton_append] at this
      cases B with
      | nil =>
        have heq : addAndMergeRegion ((A0 ++ [p]) ++ ([] : List MemoryRegions))
            (A0 ++ [p]).length x
            = A0 ++ ⟨p.address, x.endAddr - p.address⟩ :: ([] : List MemoryRegions) := by
          have := addMerge_shape_left A0 p [] x hp hx (by simp)
          simpa [List.append_assoc] using this
        rw [heq]
        have hc := addMerge_concl_left A0 p [] x hch2 hpos2 hx hp (by simp)
        simpa [List.append_assoc, List.singleton_append] using hc
      | cons n B0 =>
        by_cases hn : n.address = x.endAddr
        · have heq : addAndMergeRegion ((A0 ++ [p]) ++ n :: B0) (A0 ++ [p]).length x
              = A0 ++ ⟨p.address, n.endAddr - p.address⟩ :: B0 := by
            have := addMerge_shape_both A0 p n B0 x hp hn
            simpa [List.append_assoc] using this
          rw [heq]
          have hc := addMerge_concl_both A0 p n B0 x hch2 hpos2 hx hp hn
          simpa [List.append_assoc, List.singleton_append] using hc
        · have hBs := hBstrict_of n B0 rfl hn
          have heq : addAndMergeRegion ((A0 ++ [p]) ++ n :: B0) (A0 ++ [p]).length x
              = A0 ++ ⟨p.address, x.endAddr - p.address⟩ :: n :: B0 := by
            have := addMerge_shape_left A0 p (n :: B0) x hp hx hBs
            simpa [List.append_assoc] using this
          rw [heq]
          have hc := addMerge_concl_left A0 p (n :: B0) x hch2 hpos2 hx hp hBs
          simpa [List.append_assoc, List.singleton_append] using hc
    · -- not left-adjacent
      have hAstrict : ∀ r ∈ A0 ++ [p], r.endAddr < x.address := by
        intro r hr
        rcases List.mem_append.mp hr with hr | hr
        · have h1 := hA0p r hr
          have h2 := hsepA p hpA
          unfold MemoryRegions.endAddr at h1 h2 ⊢
          omega
        · rcases List.mem_cons.mp hr with rfl | hr
          · have := hsepA r hpA
            omega
          · simp at hr
      cases B with
      | nil =>
        rw [addMerge_shape_insert (A0 ++ [p]) [] x hAstrict (by simp)]
        exact addMerge_concl_insert (A0 ++ [p]) [] x hch hpos hx hAstrict (by simp)
      | cons n B0 =>
        by_cases hn : n.address = x.endAddr
        · have hq : p.endAddr < x.address := hAstrict p hpA
          have heq : addAndMergeRegion ((A0 ++ [p]) ++ n :: B0) (A0 ++ [p]).length x
              = (A0 ++ [p]) ++ ⟨x.address, n.endAddr - x.address⟩ :: B0 := by
            have := addMerge_shape_right_cons A0 p n B0 x hq hn
            simpa [List.append_assoc] using this
          rw [heq]
          exact addMerge_concl_right (A0 ++ [p]) n B0 x hch hpos hx hn hAstrict
        · have hBs := hBstrict_of n B0 rfl hn
          rw [addMerge_shape_insert (A0 ++ [p]) (n :: B0) x hAstrict hBs]
          exact addMerge_concl_insert (A0 ++ [p]) (n :: B0) x hch hpos hx hAstrict hBs

/-- Search resolution when the covering entry starts exactly at `addr`. -/
theorem searchAddress_exact (A B : List MemoryRegions) (p : MemoryRegions) (addr : Nat)
    (hA : ∀ r ∈ A, r.address < addr) (hB : ∀ r ∈ B, addr < r.address)
    (hpaddr : p.address = addr) :
    searchAddress addr (A ++ p :: B) = Sum.inl A.length := by
  have hk : lowerBound addr (A ++ p :: B) = A.length := by
    apply lowerBound_append_eq addr A (p :: B) hA
    intro r hr
    rcases List.mem_cons.mp hr with rfl | hr
    · omega
    · have := hB r hr
      omega
  unfold searchAddress
  simp only [hk, get?_append_cons_length A p B, if_pos hpaddr]

/-- Search resolution when the covering entry starts strictly below
`addr`. -/
theorem searchAddress_err (A B : List MemoryRegions) (p : MemoryRegions) (addr : Nat)
    (hA : ∀ r ∈ A, r.address < addr) (hB : ∀ r ∈ B, addr < r.address)
    (hplt : p.address < addr) :
    searchAddress addr (A ++ p :: B) = Sum.inr (A.length + 1) := by
  have hk : lowerBound addr (A ++ p :: B) = A.length + 1 := by
    have h2 := lowerBound_append_eq addr (A ++ [p]) B
      (by intro r hr
          rcases List.mem_append.mp hr with hr | hr
          · exact hA r hr
          · rcases List.mem_cons.mp hr with rfl | hr
            · exact hplt
            · simp at hr)
      (by intro r hr
          have := hB r hr
          omega)
    rw [List.append_assoc, List.singleton_append] at h2
    simpa using h2
  unfold searchAddress
  cases hBl : B with
  | nil =>
    have hnone : (A ++ [p]).get? (A.length + 1) = none := by
      apply List.get?_eq_none.mpr
      simp
    subst hBl
    simp only [hk, hnone]
  | cons b B0 =>
    have hget : (A ++ p :: b :: B0).get? (A.length + 1) = some b := by
      have := get?_append_cons_length (A ++ [p]) b B0
      simpa using this
    subst hBl
    have hne : ¬ b.address = addr := by
      have := hB b (List.mem_cons_self _ _)
      omega
    simp only [hk, hget, if_neg hne]

/-- Removal shape: exact match — the entry is dropped. -/
theorem removeRes_shape_exact (A B : List MemoryRegions) (p : MemoryRegions)
    (addr size : Nat)
    (hA : ∀ r ∈ A, r.address < addr) (hB : ∀ r ∈ B, addr < r.address)
    (hpaddr : p.address = addr) (hsize : size = p.size) :
    removeReservedList (A ++ p :: B) addr size = A ++ B := by
  unfold removeReservedList
  rw [searchAddress_exact A B p addr hA hB hpaddr]
  simp only [get?_append_cons_length A p B, if_pos hsize]
  exact eraseIdx_append_cons_length A p B

/-- Removal shape: prefix — the entry keeps its tail. -/
theorem removeRes_shape_front (A B : List MemoryRegions) (p : MemoryRegions)
    (addr size : Nat)
    (hA : ∀ r ∈ A, r.address < addr) (hB : ∀ r ∈ B, addr < r.address)
    (hpaddr : p.address = addr) (hsize : size < p.size) :
    removeReservedList (A ++ p :: B) addr size
      = A ++ ⟨p.address + size, p.size - size⟩ :: B := by
  unfold removeReservedList
  rw [searchAddress_exact A B p addr hA hB hpaddr]
  simp only [get?_append_cons_length A p B,
    if_neg (show ¬ size = p.size from by omega), if_pos hsize]
  exact set_append_cons_length A p B _

/-- Removal shape: suffix — the entry keeps its head. -/
theorem removeRes_shape_suffix (A B : List MemoryRegions) (p : MemoryRegions)
    (addr size : Nat)
    (hA : ∀ r ∈ A, r.address < addr) (hB : ∀ r ∈ B, addr < r.address)
    (hplt : p.address < addr) (hend : addr + size = p.endAddr) :
    removeReservedList (A ++ p :: B) addr size
      = A ++ ⟨p.address, addr - p.address⟩ :: B := by
  unfold removeReservedList
  rw [searchAddress_err A B p addr hA hB hplt]
  have hx0 : ¬ (A.length + 1 = 0) := by omega
  have hget : (A ++ p :: B).get? (A.length + 1 - 1) = some p := by
    simpa using get?_append_cons_length A p B
  simp only [if_neg hx0, hget]
  simp only [if_pos (show p.address ≤ addr ∧ addr + size ≤ p.endAddr from ⟨by omega, by omega⟩),
    show decide (addr = p.address) = false from by simp; omega,
    show decide (addr + size = p.endAddr) = true from by simp [hend]]
  have := set_append_cons_length A p B ({ p with size := addr - p.address })
  simpa using this

/-- Removal shape: interior — the entry splits in two. -/
theorem removeRes_shape_interior (A B : List MemoryRegions) (p : MemoryRegions)
    (addr size : Nat)
    (hA : ∀ r ∈ A, r.address < addr) (hB : ∀ r ∈ B, addr < r.address)
    (hplt : p.address < addr) (hcov : addr + size ≤ p.endAddr)
    (hend : ¬ addr + size = p.endAddr) :
    removeReservedList (A ++ p :: B) addr size
      = A ++ ⟨p.address, addr - p.address⟩ ::
          ⟨addr + size, p.endAddr - (addr + size)⟩ :: B := by
  unfold removeReservedList
  rw [searchAddress_err A B p addr hA hB hplt]
  have hx0 : ¬ (A.length + 1 = 0) := by omega
  have hget : (A ++ p :: B).get? (A.length + 1 - 1) = some p := by
    simpa using get?_append_cons_length A p B
  simp only [if_neg hx0, hget]
  simp only [if_pos (show p.address ≤ addr ∧ addr + size ≤ p.endAddr from ⟨by omega, hcov⟩),
    show decide (addr = p.address) = false from by simp; omega,
    show decide (addr + size = p.endAddr) = false from by simp [hend]]
  have hset := set_append_cons_length A p B ({ p with size := addr - p.address })
  simp only [Nat.add_sub_cancel] at hset ⊢
  rw [hset]
  have htake : (A ++ { p with size := addr - p.address } :: B).take (A.length + 1)
      = A ++ [{ p with size := addr - p.address }] := by
    rw [show A ++ ({ p with size := addr - p.address } : MemoryRegions) :: B
          = (A ++ [{ p with size := addr - p.address }]) ++ B from by simp,
        show A.length + 1 = (A ++ [{ p with size := addr - p.address }]).length from by simp]
    exact List.take_left _ _
  have hdrop : (A ++ { p with size := addr - p.address } :: B).drop (A.length + 1) = B := by
    rw [show A ++ ({ p with size := addr - p.address } : MemoryRegions) :: B
          = (A ++ [{ p with size := addr - p.address }]) ++ B from by simp,
        show A.length + 1 = (A ++ [{ p with size := addr - p.address }]).length from by simp]
    exact List.drop_left _ _
  rw [htake, hdrop]
  simp

/-- Master lemma for `remove_reserved_alloc_record`'s list surgery: on a
well-formed list, removing a non-empty range contained in a single entry
keeps the list well formed, removes exactly the range's bytes, only
shrinks entries, and keeps every covered interval that is separated from
the removed range covered. -/
theorem removeReserved_master {l : List MemoryRegions} {addr size : Nat}
    (hch : SChain l) (hpos : PosList l) (hs : 0 < size)
    {p : MemoryRegions} (hp : p ∈ l) (hw : within ⟨addr, size⟩ p) :
    SChain (removeReservedList l addr size) ∧
    PosList (removeReservedList l addr size) ∧
    sumSize l = sumSize (removeReservedList l addr size) + size ∧
    (removeReservedList l addr size).length ≤ l.length + 1 ∧
    (∀ y ∈ removeReservedList l addr size, ∃ q ∈ l, within y q) ∧
    (∀ o : MemoryRegions, 0 < o.size → sep o ⟨addr, size⟩ →
      (∃ q ∈ l, within o q) → ∃ q ∈ removeReservedList l addr size, within o q) ∧
    (∀ y ∈ removeReservedList l addr size, sep y ⟨addr, size⟩) := by
  obtain ⟨A, B, rfl⟩ := List.append_of_mem hp
  obtain ⟨hchA, hchB, hA2p, hp2B, hcross⟩ := (schain_append_cons A B p).mp hch
  simp only [within, MemoryRegions.endAddr] at hw
  obtain ⟨hw1, hw2⟩ := hw
  have hA : ∀ r ∈ A, r.address < addr := by
    intro r hr
    have := hA2p r hr
    unfold MemoryRegions.endAddr at this
    omega
  have hB : ∀ r ∈ B, addr < r.address := by
    intro r hr
    have := hp2B r hr
    unfold MemoryRegions.endAddr at this
    omega
  have hAmem : ∀ r ∈ A, r ∈ A ++ p :: B := fun r hr => List.mem_append.mpr (Or.inl hr)
  have hBmem : ∀ r ∈ B, r ∈ A ++ p :: B :=
    fun r hr => List.mem_append.mpr (Or.inr (List.mem_cons_of_mem _ hr))
  have hpmem : p ∈ A ++ p :: B := List.mem_append.mpr (Or.inr (List.mem_cons_self _ _))
  -- helper: non-`p` covering entries survive in any result of the form A ++ M ++ B
  by_cases h1 : p.address = addr
  · by_cases h2 : size = p.size
    · -- exact removal
      rw [removeRes_shape_exact A B p addr size hA hB h1 h2]
      refine ⟨?_, ?_, ?_, ?_, ?_, ?_, ?_⟩
      · unfold SChain at hchA hchB ⊢
        exact List.pairwise_append.mpr ⟨hchA, hchB, hcross⟩
      · intro r hr
        rcases List.mem_append.mp hr with hr | hr
        · exact hpos r (hAmem r hr)
        · exact hpos r (hBmem r hr)
      · rw [sumSize_append, sumSize_append, sumSize_cons]
        omega
      · simp only [List.length_append, List.length_cons]
        omega
      · intro y hy
        rcases List.mem_append.mp hy with hy | hy
        · exact ⟨y, hAmem y hy, le_refl _, le_refl _⟩
        · exact ⟨y, hBmem y hy, le_refl _, le_refl _⟩
      · intro o ho hosep hocov
        obtain ⟨q, hq, hoq⟩ := hocov
        rcases List.mem_append.mp hq with hq | hq
        · exact ⟨q, List.mem_append.mpr (Or.inl hq), hoq⟩
        · rcases List.mem_cons.mp hq with rfl | hq
          · exfalso
            unfold within at hoq
            unfold sep at hosep
            simp only [MemoryRegions.endAddr] at hoq hosep
            omega
          · exact ⟨q, List.mem_append.mpr (Or.inr hq), hoq⟩
      · intro y hy
        rcases List.mem_append.mp hy with hy | hy
        · have := hA2p y hy
          unfold sep
          unfold MemoryRegions.endAddr at this ⊢
          dsimp only
          omega
        · have := hp2B y hy
          unfold sep
          unfold MemoryRegions.endAddr at this ⊢
          dsimp only
          omega
    · -- prefix removal
      have hlt : size < p.size := by omega
      rw [removeRes_shape_front A B p addr size hA hB h1 hlt]
      have hm : within (⟨p.address + size, p.size - size⟩ : MemoryRegions) p := by
        unfold within
        simp only [MemoryRegions.endAddr]
        omega
      refine ⟨?_, ?_, ?_, ?_, ?_, ?_, ?_⟩
      · refine (schain_append_cons A B _).mpr ⟨hchA, hchB, ?_, ?_, hcross⟩
        · intro a ha
          have := hA2p a ha
          unfold MemoryRegions.endAddr at this ⊢
          simp only
          omega
        · intro b hb
          have := hp2B b hb
          unfold MemoryRegions.endAddr at this ⊢
          simp only
          omega
      · intro r hr
        rcases List.mem_append.mp hr with hr | hr
        · exact hpos r (hAmem r hr)
        · rcases List.mem_cons.mp hr with rfl | hr
          · simp only
            omega
          · exact hpos r (hBmem r hr)
      · rw [sumSize_append, sumSize_append, sumSize_cons, sumSize_cons]
        simp only
        omega
      · simp only [List.length_append, List.length_cons]
        omega
      · intro y hy
        rcases List.mem_append.mp hy with hy | hy
        · exact ⟨y, hAmem y hy, le_refl _, le_refl _⟩
        · rcases List.mem_cons.mp hy with rfl | hy
          · exact ⟨p, hpmem, hm⟩
          · exact ⟨y, hBmem y hy, le_refl _, le_refl _⟩
      · intro o ho hosep hocov
        obtain ⟨q, hq, hoq⟩ := hocov
        rcases List.mem_append.mp hq with hq | hq
        · exact ⟨q, List.mem_append.mpr (Or.inl hq), hoq⟩
        · rcases List.mem_cons.mp hq with rfl | hq
          · refine ⟨_, List.mem_append.mpr (Or.inr (List.mem_cons_self _ _)), ?_⟩
            unfold within at hoq ⊢
            unfold sep at hosep
            simp only [MemoryRegions.endAddr] at hoq hosep ⊢
            omega
          · exact ⟨q, List.mem_append.mpr (Or.inr (List.mem_cons_of_mem _ hq)), hoq⟩
      · intro y hy
        rcases List.mem_append.mp hy with hy | hy
        · have := hA2p y hy
          unfold sep
          unfold MemoryRegions.endAddr at this ⊢
          dsimp only
          omega
        · rcases List.mem_cons.mp hy with rfl | hy
          · unfold sep MemoryRegions.endAddr
            dsimp only
            omega
          · have := hp2B y hy
            unfold sep
            unfold MemoryRegions.endAddr at this ⊢
            dsimp only
            omega
  · -- p starts strictly below addr
    have hplt : p.address < addr := by omega
    by_cases h2 : addr + size = p.endAddr
    · -- suffix removal
      rw [removeRes_shape_suffix A B p addr size hA hB hplt h2]
      have hm : within (⟨p.address, addr - p.address⟩ : MemoryRegions) p := by
        unfold within
        simp only [MemoryRegions.endAddr]
        omega
      unfold MemoryRegions.endAddr at h2
      refine ⟨?_, ?_, ?_, ?_, ?_, ?_, ?_⟩
      · refine (schain_append_cons A B _).mpr ⟨hchA, hchB, ?_, ?_, hcross⟩
        · intro a ha
          have := hA2p a ha
          unfold MemoryRegions.endAddr at this ⊢
          simp only
          omega
        · intro b hb
          have := hp2B b hb
          unfold MemoryRegions.endAddr at this ⊢
          simp only
          omega
      · intro r hr
        rcases List.mem_append.mp hr with hr | hr
        · exact hpos r (hAmem r hr)
        · rcases List.mem_cons.mp hr with rfl | hr
          · simp only
            omega
          · exact hpos r (hBmem r hr)
      · rw [sumSize_append, sumSize_append, sumSize_cons, sumSize_cons]
        simp only
        omega
      · simp only [List.length_append, List.length_cons]
        omega
      · intro y hy
        rcases List.mem_append.mp hy with hy | hy
        · exact ⟨y, hAmem y hy, le_refl _, le_refl _⟩
        · rcases List.mem_cons.mp hy with rfl | hy
          · exact ⟨p, hpmem, hm⟩
          · exact ⟨y, hBmem y hy, le_refl _, le_refl _⟩
      · intro o ho hosep hocov
        obtain ⟨q, hq, hoq⟩ := hocov
        rcases List.mem_append.mp hq with hq | hq
        · exact ⟨q, List.mem_append.mpr (Or.inl hq), hoq⟩
        · rcases List.mem_cons.mp hq with rfl | hq
          · refine ⟨_, List.mem_append.mpr (Or.inr (List.mem_cons_self _ _)), ?_⟩
            unfold within at hoq ⊢
            unfold sep at hosep
            simp only [MemoryRegions.endAddr] at hoq hosep ⊢
            omega
          · exact ⟨q, List.mem_append.mpr (Or.inr (List.mem_cons_of_mem _ hq)), hoq⟩
      · intro y hy
        rcases List.mem_append.mp hy with hy | hy
        · have := hA2p y hy
          unfold sep
          unfold MemoryRegions.endAddr at this ⊢
          dsimp only
          omega
        · rcases List.mem_cons.mp hy with rfl | hy
          · unfold sep MemoryRegions.endAddr
            dsimp only
            omega
          · have := hp2B y hy
            unfold sep
            unfold MemoryRegions.endAddr at this ⊢
            dsimp only
            omega
    · -- interior removal
      rw [removeRes_shape_interior A B p addr size hA hB hplt
        (by unfold MemoryRegions.endAddr; omega) h2]
      have hm1 : within (⟨p.address, addr - p.address⟩ : MemoryRegions) p := by
        unfold within
        simp only [MemoryRegions.endAddr]
        omega
      have hm2 : within (⟨addr + size, p.endAddr - (addr + size)⟩ : MemoryRegions) p := by
        unfold within
        simp only [MemoryRegions.endAddr]
        omega
      unfold MemoryRegions.endAddr at h2
      refine ⟨?_, ?_, ?_, ?_, ?_, ?_, ?_⟩
      · refine (schain_append_cons A (⟨addr + size, p.endAddr - (addr + size)⟩ :: B) _).mpr
          ⟨hchA, ?_, ?_, ?_, ?_⟩
        · refine List.pairwise_cons.mpr ⟨?_, hchB⟩
          intro b hb
          have := hp2B b hb
          unfold MemoryRegions.endAddr at this ⊢
          simp only
          omega
        · intro a ha
          have := hA2p a ha
          unfold MemoryRegions.endAddr at this ⊢
          simp only
          omega
        · intro b hb
          rcases List.mem_cons.mp hb with rfl | hb
          · unfold MemoryRegions.endAddr
            simp only
            omega
          · have := hp2B b hb
            unfold MemoryRegions.endAddr at this ⊢
            simp only
            omega
        · intro a ha b hb
          rcases List.mem_cons.mp hb with rfl | hb
          · have := hA2p a ha
            unfold MemoryRegions.endAddr at this ⊢
            simp only
            omega
          · exact hcross a ha b hb
      · intro r hr
        rcases List.mem_append.mp hr with hr | hr
        · exact hpos r (hAmem r hr)
        · rcases List.mem_cons.mp hr with rfl | hr
          · simp only
            omega
          · rcases List.mem_cons.mp hr with rfl | hr
            · simp only [MemoryRegions.endAddr]
              omega
            · exact hpos r (hBmem r hr)
      · rw [sumSize_append, sumSize_append, sumSize_cons, sumSize_cons, sumSize_cons]
        simp only [MemoryRegions.endAddr]
        omega
      · simp only [List.length_append, List.length_cons]
        omega
      · intro y hy
        rcases List.mem_append.mp hy with hy | hy
        · exact ⟨y, hAmem y hy, le_refl _, le_refl _⟩
        · rcases List.mem_cons.mp hy with rfl | hy
          · exact ⟨p, hpmem, hm1⟩
          · rcases List.mem_cons.mp hy with rfl | hy
            · exact ⟨p, hpmem, hm2⟩
            · exact ⟨y, hBmem y hy, le_refl _, le_refl _⟩
      · intro o ho hosep hocov
        obtain ⟨q, hq, hoq⟩ := hocov
        rcases List.mem_append.mp hq with hq | hq
        · exact ⟨q, List.mem_append.mpr (Or.inl hq), hoq⟩
        · rcases List.mem_cons.mp hq with rfl | hq
          · unfold within at hoq
            unfold sep at hosep
            simp only [MemoryRegions.endAddr] at hoq hosep
            rcases hosep with hsp | hsp
            · refine ⟨_, List.mem_append.mpr (Or.inr (List.mem_cons_self _ _)), ?_⟩
              unfold within
              simp only [MemoryRegions.endAddr]
              omega
            · refine ⟨_, List.mem_append.mpr (Or.inr
                (List.mem_cons_of_mem _ (List.mem_cons_self _ _))), ?_⟩
              unfold within
              simp only [MemoryRegions.endAddr]
              omega
          · exact ⟨q, List.mem_append.mpr (Or.inr (List.mem_cons_of_mem _
              (List.mem_cons_of_mem _ hq))), hoq⟩
      · intro y hy
        rcases List.mem_append.mp hy with hy | hy
        · have := hA2p y hy
          unfold sep
          unfold MemoryRegions.endAddr at this ⊢
          dsimp only
          omega
        · rcases List.mem_cons.mp hy with rfl | hy
          · unfold sep MemoryRegions.endAddr
            dsimp only
            omega
          · rcases List.mem_cons.mp hy with rfl | hy
            · unfold sep MemoryRegions.endAddr
              dsimp only
              omega
            · have := hp2B y hy
              unfold sep
              unfold MemoryRegions.endAddr at this ⊢
              dsimp only
              omega

theorem sep_comm {x r : MemoryRegions} (h : sep x r) : sep r x := by
  unfold sep at h ⊢
  tauto

theorem lt_nextMultipleOf {a n : Nat} (hn : 0 < n) (h : ¬ a % n = 0) :
    a < nextMultipleOf a n := by
  have h1 := le_nextMultipleOf a hn
  rcases Nat.lt_or_ge a (nextMultipleOf a n) with h2 | h2
  · exact h2
  · exfalso
    have heq : nextMultipleOf a n = a := le_antisymm h2 h1
    have hd := nextMultipleOf_dvd a n
    rw [heq] at hd
    exact h (Nat.mod_eq_zero_of_dvd hd)

theorem nextMultipleOf_eq_of_mod {a n : Nat} (hn : 0 < n) (h : a % n = 0) :
    nextMultipleOf a n = a := by
  obtain ⟨q, rfl⟩ := Nat.dvd_of_mod_eq_zero h
  unfold nextMultipleOf
  have h1 : (n * q + n - 1) / n = q := by
    apply Nat.div_eq_of_lt_le
    · have : q * n = n * q := Nat.mul_comm _ _
      omega
    · have : (q + 1) * n = n * q + n := by
        rw [Nat.succ_mul, Nat.mul_comm]
      omega
  rw [h1, Nat.mul_comm]

/-- Master lemma for the first-fit carve scan: on a well-formed list a
successful carve keeps the list well formed, removes exactly `size`
bytes, adds at most one entry, and leaves every remaining entry separated
from the carved interval. -/
theorem allocGo_master {size alignment : Nat} (hsz : 0 < size) (halign : 0 < alignment) :
    ∀ {l l' : List MemoryRegions} {addr : Nat},
      SChain l → PosList l →
      allocGo size alignment l = some (l', addr) →
      SChain l' ∧ PosList l' ∧ sumSize l = sumSize l' + size ∧
        l'.length ≤ l.length + 1 ∧
        (∀ y ∈ l', sep (⟨addr, size⟩ : MemoryRegions) y)
  | [], _, _, _, _, h => by simp [allocGo] at h
  | r :: rest, l', addr, hch, hpos, h => by
    have hr2rest : ∀ b ∈ rest, r.endAddr < b.address := by
      unfold SChain at hch
      exact (List.pairwise_cons.mp hch).1
    have hchRest : SChain rest := by
      unfold SChain at hch ⊢
      exact (List.pairwise_cons.mp hch).2
    have hposRest : PosList rest := fun q hq => hpos q (List.mem_cons_of_mem _ hq)
    unfold allocGo at h
    cases hc : carveRegion size alignment r with
    | some p =>
      rw [hc] at h
      obtain ⟨pieces, a⟩ := p
      simp only [Option.some.injEq, Prod.mk.injEq] at h
      obtain ⟨hl', ha⟩ := h
      subst a
      obtain ⟨haddr, hle, hp⟩ := carveRegion_some hc
      have hge : r.address ≤ addr := haddr ▸ le_nextMultipleOf _ halign
      have hrend : r.endAddr = r.address + r.size := rfl
      subst hl'
      by_cases c1 : r.address % alignment ≠ 0
      · have hgt : r.address < addr := haddr ▸ lt_nextMultipleOf halign c1
        by_cases c2 : addr + size ≠ r.endAddr
        · -- head split piece and tail piece
          rw [if_pos c1, if_pos c2] at hp
          subst hp
          have hlt2 : addr + size < r.endAddr := by
            unfold MemoryRegions.endAddr at hle c2 ⊢
            omega
          simp only [List.singleton_append, List.cons_append, List.nil_append]
          refine ⟨?_, ?_, ?_, ?_, ?_⟩
          · unfold SChain
            refine List.pairwise_cons.mpr ⟨?_, List.pairwise_cons.mpr ⟨?_, hchRest⟩⟩
            · intro b hb
              rcases List.mem_cons.mp hb with rfl | hb
              · unfold MemoryRegions.endAddr
                dsimp only
                omega
              · have := hr2rest b hb
                unfold MemoryRegions.endAddr at this ⊢
                dsimp only
                omega
            · intro b hb
              have := hr2rest b hb
              unfold MemoryRegions.endAddr at this ⊢
              dsimp only
              omega
          · intro q hq
            rcases List.mem_cons.mp hq with rfl | hq
            · simp only
              omega
            · rcases List.mem_cons.mp hq with rfl | hq
              · simp only
                unfold MemoryRegions.endAddr at hlt2
                omega
              · exact hposRest q hq
          · rw [sumSize_cons, sumSize_cons, sumSize_cons]
            dsimp only
            unfold MemoryRegions.endAddr at hlt2
            omega
          · simp only [List.length_cons, List.nil_append]
            omega
          · intro y hy
            rcases List.mem_cons.mp hy with rfl | hy
            · unfold sep MemoryRegions.endAddr
              dsimp only
              omega
            · rcases List.mem_cons.mp hy with rfl | hy
              · unfold sep MemoryRegions.endAddr
                dsimp only
                omega
              · have := hr2rest y hy
                unfold sep MemoryRegions.endAddr at this ⊢
                unfold MemoryRegions.endAddr at hlt2
                dsimp only
                omega
        · -- head split piece only (carve reaches the end)
          rw [if_pos c1, if_neg c2] at hp
          subst hp
          have hend : addr + size = r.endAddr := by omega
          simp only [List.singleton_append, List.append_nil, List.cons_append]
          refine ⟨?_, ?_, ?_, ?_, ?_⟩
          · unfold SChain
            refine List.pairwise_cons.mpr ⟨?_, hchRest⟩
            intro b hb
            have := hr2rest b hb
            unfold MemoryRegions.endAddr at this ⊢
            dsimp only
            omega
          · intro q hq
            rcases List.mem_cons.mp hq with rfl | hq
            · simp only
              omega
            · exact hposRest q hq
          · rw [sumSize_cons, sumSize_cons]
            dsimp only
            simp only [List.nil_append] at *
            unfold MemoryRegions.endAddr at hend
            omega
          · simp only [List.length_cons, List.nil_append]
            omega
          · intro y hy
            rcases List.mem_cons.mp hy with rfl | hy
            · unfold sep MemoryRegions.endAddr
              dsimp only
              omega
            · have := hr2rest y hy
              unfold sep MemoryRegions.endAddr at this ⊢
              unfold MemoryRegions.endAddr at hend
              dsimp only
              omega
      · -- no head split: the carve starts at the region base
        have heq : addr = r.address := by
          rw [haddr]
          exact nextMultipleOf_eq_of_mod halign (by omega)
        by_cases c2 : addr + size ≠ r.endAddr
        · -- tail piece only
          rw [if_neg c1, if_pos c2] at hp
          subst hp
          have hlt2 : addr + size < r.endAddr := by
            unfold MemoryRegions.endAddr at hle c2 ⊢
            omega
          simp only [List.singleton_append, List.nil_append]
          refine ⟨?_, ?_, ?_, ?_, ?_⟩
          · unfold SChain
            refine List.pairwise_cons.mpr ⟨?_, hchRest⟩
            intro b hb
            have := hr2rest b hb
            unfold MemoryRegions.endAddr at this ⊢
            dsimp only
            omega
          · intro q hq
            rcases List.mem_cons.mp hq with rfl | hq
            · simp only
              unfold MemoryRegions.endAddr at hlt2
              omega
            · exact hposRest q hq
          · rw [sumSize_cons, sumSize_cons]
            dsimp only
            unfold MemoryRegions.endAddr at hlt2
            omega
          · simp only [List.length_cons, List.nil_append]
            omega
          · intro y hy
            rcases List.mem_cons.mp hy with rfl | hy
            · unfold sep MemoryRegions.endAddr
              dsimp only
              omega
            · have := hr2rest y hy
              unfold sep MemoryRegions.endAddr at this ⊢
              unfold MemoryRegions.endAddr at hlt2
              dsimp only
              omega
        · -- whole region consumed
          rw [if_neg c1, if_neg c2] at hp
          subst hp
          have hend : addr + size = r.endAddr := by omega
          simp only [List.nil_append]
          refine ⟨hchRest, hposRest, ?_, ?_, ?_⟩
          · rw [sumSize_cons]
            unfold MemoryRegions.endAddr at hend
            omega
          · simp only [List.length_cons, List.nil_append]
            omega
          · intro y hy
            have := hr2rest y hy
            unfold sep MemoryRegions.endAddr at this ⊢
            unfold MemoryRegions.endAddr at hend
            dsimp only
            omega
    | none =>
      rw [hc] at h
      cases hrec : allocGo size alignment rest with
      | none => rw [hrec] at h; simp at h
      | some p =>
        rw [hrec] at h
        obtain ⟨l'', a⟩ := p
        simp only [Option.map_some', Option.some.injEq, Prod.mk.injEq] at h
        obtain ⟨hl', ha⟩ := h
        subst a
        subst hl'
        obtain ⟨hch'', hpos'', hsum'', hlen'', hsep''⟩ :=
          allocGo_master hsz halign hchRest hposRest hrec
        obtain ⟨⟨r0, hr0, hr0a, hr0e, _⟩, hwithin⟩ := allocGo_spec halign hrec
        refine ⟨?_, ?_, ?_, ?_, ?_⟩
        · unfold SChain
          refine List.pairwise_cons.mpr ⟨?_, hch''⟩
          intro b hb
          obtain ⟨q, hq, hw1, hw2⟩ := hwithin b hb
          have := hr2rest q hq
          unfold MemoryRegions.endAddr at this ⊢
          omega
        · intro q hq
          rcases List.mem_cons.mp hq with rfl | hq
          · exact hpos q (List.mem_cons_self _ _)
          · exact hpos'' q hq
        · rw [sumSize_cons, sumSize_cons]
          omega
        · simp only [List.length_cons]
          omega
        · intro y hy
          rcases List.mem_cons.mp hy with rfl | hy
          · have := hr2rest r0 hr0
            unfold sep MemoryRegions.endAddr at this ⊢
            dsimp only
            omega
          · exact hsep'' y hy

/-- `within` is transitive. -/
theorem within_trans {a b c : MemoryRegions} (h1 : within a b) (h2 : within b c) :
    within a c := by
  unfold within MemoryRegions.endAddr at h1 h2 ⊢
  omega

/-- On a list of non-empty entries all separated from `x`, the binary
search for `x.address` misses and reports the insertion point. -/
theorem searchAddress_inr_of_sep {l : List MemoryRegions} {x : MemoryRegions}
    (hpos : PosList l) (hx : 0 < x.size) (hsep : ∀ r ∈ l, sep x r) :
    searchAddress x.address l = Sum.inr (lowerBound x.address l) := by
  unfold searchAddress
  cases hg : l.get? (lowerBound x.address l) with
  | none => simp only [hg]
  | some r =>
    have hr : r ∈ l := List.get?_mem hg
    have hs := hsep r hr
    have hrp := hpos r hr
    have hne : ¬ r.address = x.address := by
      unfold sep MemoryRegions.endAddr at hs
      intro he
      omega
    simp only [hg, if_neg hne]

/-- Master lemma for a successful `add_region_internal` list update with a
non-empty region separated from every entry: the call takes the
insert-and-merge path and inherits all conclusions of the merge master
lemma. -/
theorem addRegionList_master {l : List MemoryRegions} {cap : Nat} {x : MemoryRegions}
    {l2 : List MemoryRegions}
    (hch : SChain l) (hpos : PosList l) (hx : 0 < x.size) (hsep : ∀ r ∈ l, sep x r)
    (h : addRegionList l cap x = .ok l2) :
    l2 = addAndMergeRegion l (lowerBound x.address l) x ∧
    SChain l2 ∧ PosList l2 ∧ sumSize l2 = sumSize l + x.size ∧
    l2.length ≤ l.length + 1 ∧
    (∀ r ∈ l, ∃ q ∈ l2, within r q) ∧ (∃ q ∈ l2, within x q) ∧
    (∀ z, 0 < z.size → sep z x → (∀ r ∈ l, sep z r) → ∀ y ∈ l2, sep z y) := by
  unfold addRegionList at h
  split at h
  · exact absurd h (by simp)
  · rw [searchAddress_inr_of_sep hpos hx hsep] at h
    simp only [Except.ok.injEq] at h
    subst h
    obtain ⟨c1, c2, c3, c4, c5, c6, c7⟩ := addMerge_master hch hpos hx hsep
    exact ⟨rfl, c1, c2, c3, c4, c6, c7, c5⟩

/-- Shape of a successful first-fit scan: the list splits at the first
region that can serve the request, and only that region is replaced by its
carve pieces. -/
theorem allocGo_shape {size alignment : Nat} :
    ∀ {l l2 : List MemoryRegions} {addr : Nat},
      allocGo size alignment l = some (l2, addr) →
      ∃ R1 r R2 pieces, l = R1 ++ r :: R2 ∧ l2 = R1 ++ (pieces ++ R2) ∧
        carveRegion size alignment r = some (pieces, addr) ∧
        (∀ q ∈ R1, carveRegion size alignment q = none)
  | [], _, _, h => by simp [allocGo] at h
  | r :: rest, l2, addr, h => by
    unfold allocGo at h
    cases hc : carveRegion size alignment r with
    | some p =>
      rw [hc] at h
      obtain ⟨pieces, a⟩ := p
      simp only [Option.some.injEq, Prod.mk.injEq] at h
      obtain ⟨hl2, ha⟩ := h
      subst a
      exact ⟨[], r, rest, pieces, by simp, by simp [hl2], hc, by simp⟩
    | none =>
      rw [hc] at h
      cases hrec : allocGo size alignment rest with
      | none => rw [hrec] at h; simp at h
      | some p =>
        rw [hrec] at h
        obtain ⟨l3, a⟩ := p
        simp only [Option.map_some', Option.some.injEq, Prod.mk.injEq] at h
        obtain ⟨hl2, ha⟩ := h
        subst a
        obtain ⟨R1, r0, R2, pieces, hsplit, hres, hcarve, hnone⟩ := allocGo_shape hrec
        refine ⟨r :: R1, r0, R2, pieces, by simp [hsplit], by simp [← hl2, hres], hcarve, ?_⟩
        intro q hq
        rcases List.mem_cons.mp hq with rfl | hq
        · exact hc
        · exact hnone q hq

/-- Master lemma for a successful `allocate_region_internal` on a
well-formed state: the carved bytes move from the available list into the
reserved list, well-formedness is preserved, the carve is covered by a
reserved entry, reserved coverage only grows, and the new available list
lies inside the old one and avoids the carve. -/
theorem allocate_region_internal_master {s : MemoryBlock} {size alignment : Nat}
    {t : MemoryBlock} {addr : Nat}
    (hWf : s.Wf) (hsz : 0 < size) (halign : 0 < alignment)
    (h : s.allocate_region_internal size alignment = (t, some addr)) :
    t.Wf ∧
    sumSize s.regions = sumSize t.regions + size ∧
    sumSize t.reserved_regions = sumSize s.reserved_regions + size ∧
    t.regions.length ≤ s.regions.length + 1 ∧
    t.reserved_regions.length ≤ s.reserved_regions.length + 1 ∧
    t.region_capacity = s.region_capacity ∧
    t.reserved_region_capacity = s.reserved_region_capacity ∧
    t.allocatable = s.allocatable ∧
    (∀ y ∈ t.regions, ∃ r ∈ s.regions, within y r) ∧
    (∃ q ∈ t.reserved_regions, within ⟨addr, size⟩ q) ∧
    (∀ p ∈ s.reserved_regions, ∃ q ∈ t.reserved_regions, within p q) ∧
    (∀ y ∈ t.regions, sep (⟨addr, size⟩ : MemoryRegions) y) ∧
    (∃ r ∈ s.regions, within ⟨addr, size⟩ r) := by
  obtain ⟨rs, hgo, ht⟩ := allocate_region_internal_eq_some h
  obtain ⟨hchR, hposR, hsumR, hlenR, hsepRc⟩ := allocGo_master hsz halign hWf.chainR hWf.posR hgo
  obtain ⟨⟨r0, hr0, hr0a, hr0e, _⟩, hwithinR⟩ := allocGo_spec halign hgo
  have hwc : within (⟨addr, size⟩ : MemoryRegions) r0 := by
    unfold within MemoryRegions.endAddr
    unfold MemoryRegions.endAddr at hr0e
    dsimp only
    omega
  have hsepPc : ∀ p ∈ s.reserved_regions, sep (⟨addr, size⟩ : MemoryRegions) p := by
    intro p hp
    exact sep_comm (sep_of_within hwc (sep_comm (hWf.sepRP r0 hr0 p hp)))
  obtain ⟨cch, cpos, csum, clen, ctrans, ccov, cx⟩ :=
    addMerge_master hWf.chainP hWf.posP
      (show 0 < (⟨addr, size⟩ : MemoryRegions).size from hsz) hsepPc
  have hsepRy : ∀ y ∈ rs, ∀ p ∈ s.reserved_regions, sep y p := by
    intro y hy p hp
    obtain ⟨ry, hry, hwy⟩ := hwithinR y hy
    exact sep_comm (sep_of_within hwy (sep_comm (hWf.sepRP ry hry p hp)))
  subst ht
  unfold MemoryBlock.add_reserved_alloc_record
  dsimp only
  refine ⟨⟨hchR, cch, hposR, cpos, ?_⟩, hsumR, by simpa using csum, hlenR,
    by simpa using clen, rfl, rfl, rfl, hwithinR, by simpa using cx, ccov, hsepRc,
    r0, hr0, hwc⟩
  intro y hy q hq
  exact ctrans y (hposR y hy) (sep_comm (hsepRc y hy)) (hsepRy y hy) q hq

/-- Master lemma for a successful migration (`overflow_wrapping`): both
capacities double, the new-store carve moves from the available list into
the reserved list so the combined byte count is unchanged, and both lists
keep their well-formed shape and coverage. -/
theorem overflow_wrapping_master {s m : MemoryBlock} (hWf : s.Wf)
    (hcap : 0 < s.region_capacity + s.reserved_region_capacity)
    (h : s.overflow_wrapping = some m) :
    m.Wf ∧
    sumSize m.regions + sumSize m.reserved_regions
      = sumSize s.regions + sumSize s.reserved_regions ∧
    m.region_capacity = s.region_capacity * 2 ∧
    m.reserved_region_capacity = s.reserved_region_capacity * 2 ∧
    m.allocatable = s.allocatable ∧
    m.regions.length ≤ s.regions.length + 1 ∧
    m.reserved_regions.length ≤ s.reserved_regions.length + 1 ∧
    (∀ y ∈ m.regions, ∃ r ∈ s.regions, within y r) ∧
    (∀ p ∈ s.reserved_regions, ∃ q ∈ m.reserved_regions, within p q) := by
  unfold MemoryBlock.overflow_wrapping at h
  dsimp only at h
  cases hint : s.allocate_region_internal
      ((s.region_capacity + s.reserved_region_capacity) * 2 * memoryRegionsByteSize) 4096 with
  | mk t res =>
    rw [hint] at h
    cases res with
    | none => simp at h
    | some addr =>
      simp only [Option.some.injEq] at h
      have hsz : 0 < (s.region_capacity + s.reserved_region_capacity) * 2
          * memoryRegionsByteSize := by
        unfold memoryRegionsByteSize
        omega
      obtain ⟨c1, c2, c3, c4, c5, c6, c7, c8, c9, c10, c11, c12, c13⟩ :=
        allocate_region_internal_master hWf hsz (by norm_num) hint
      subst h
      dsimp only
      exact ⟨⟨c1.chainR, c1.chainP, c1.posR, c1.posP, c1.sepRP⟩, by omega, rfl, rfl, c8,
        c4, c5, c9, c11⟩

/-- Master lemma for a successful headroom check: with or without a
migration, well-formedness, the combined byte count, the flag and coverage
are preserved, and the capacities only grow. -/
theorem ensure_headroom_master {s s1 : MemoryBlock} (hWf : s.Wf)
    (hcap : 0 < s.region_capacity + s.reserved_region_capacity)
    (h : s.ensure_overflow_headroom = some s1) :
    s1.Wf ∧
    sumSize s1.regions + sumSize s1.reserved_regions
      = sumSize s.regions + sumSize s.reserved_regions ∧
    s.region_capacity ≤ s1.region_capacity ∧
    s.reserved_region_capacity ≤ s1.reserved_region_capacity ∧
    s1.allocatable = s.allocatable ∧
    (∀ y ∈ s1.regions, ∃ r ∈ s.regions, within y r) ∧
    (∀ p ∈ s.reserved_regions, ∃ q ∈ s1.reserved_regions, within p q) := by
  unfold MemoryBlock.ensure_overflow_headroom at h
  split at h
  · obtain ⟨c1, c2, c3, c4, c5, c6, c7, c8, c9⟩ := overflow_wrapping_master hWf hcap h
    exact ⟨c1, c2, by omega, by omega, c5, c8, c9⟩
  · cases h
    exact ⟨hWf, rfl, le_refl _, le_refl _, rfl, fun y hy => ⟨y, hy, le_refl _, le_refl _⟩,
      fun p hp => ⟨p, hp, le_refl _, le_refl _⟩⟩

/-- `sep` is a decidable relation (for evaluating concrete invariant
instances). -/
instance : DecidableRel sep := fun a b => inferInstanceAs (Decidable (sep a b))

/-- The run-time invariant of the allocator together with the set of live
allocations (`live` lists the carves handed out by `allocate_region` and
not yet freed): both lists are well shaped, the capacities are the live
backing-store sizes, the lists are mutually separated once the state is
allocatable, and every live allocation is covered by the reserved list and
disjoint from the available list and from the other live allocations. -/
structure AllocInv (s : MemoryBlock) (live : List MemoryRegions) : Prop where
  chainR : SChain s.regions
  posR : PosList s.regions
  chainP : SChain s.reserved_regions
  posP : PosList s.reserved_regions
  capR : 0 < s.region_capacity
  capP : 0 < s.reserved_region_capacity
  sepRP : s.allocatable = true → SepLists s.regions s.reserved_regions
  livePos : ∀ z ∈ live, 0 < z.size
  livePair : List.Pairwise sep live
  liveCov : ∀ z ∈ live, ∃ q ∈ s.reserved_regions, within z q
  liveSepR : ∀ z ∈ live, ∀ r ∈ s.regions, sep z r
  liveEmpty : s.allocatable = false → live = []

instance (s : MemoryBlock) (live : List MemoryRegions) : Decidable (AllocInv s live) := by
  refine decidable_of_iff
    (SChain s.regions ∧ PosList s.regions ∧ SChain s.reserved_regions ∧
      PosList s.reserved_regions ∧ 0 < s.region_capacity ∧ 0 < s.reserved_region_capacity ∧
      (s.allocatable = true → SepLists s.regions s.reserved_regions) ∧
      (∀ z ∈ live, 0 < z.size) ∧ List.Pairwise sep live ∧
      (∀ z ∈ live, ∃ q ∈ s.reserved_regions, within z q) ∧
      (∀ z ∈ live, ∀ r ∈ s.regions, sep z r) ∧
      (s.allocatable = false → live = [])) ?_
  constructor
  · rintro ⟨h1, h2, h3, h4, h5, h6, h7, h8, h9, h10, h11, h12⟩
    exact ⟨h1, h2, h3, h4, h5, h6, h7, h8, h9, h10, h11, h12⟩
  · rintro ⟨h1, h2, h3, h4, h5, h6, h7, h8, h9, h10, h11, h12⟩
    exact ⟨h1, h2, h3, h4, h5, h6, h7, h8, h9, h10, h11, h12⟩

/-- On an allocatable state the invariant contains well-formedness. -/
theorem allocInv_wf {s : MemoryBlock} {live : List MemoryRegions}
    (hInv : AllocInv s live) (hfin : s.allocatable = true) : s.Wf :=
  ⟨hInv.chainR, hInv.chainP, hInv.posR, hInv.posP, hInv.sepRP hfin⟩

/-- The headroom check preserves the run-time invariant and the combined
byte count of the two lists. -/
theorem ensure_headroom_inv {s s1 : MemoryBlock} {live : List MemoryRegions}
    (hInv : AllocInv s live) (hfin : s.allocatable = true)
    (h : s.ensure_overflow_headroom = some s1) :
    AllocInv s1 live ∧ s1.allocatable = true ∧ s1.Wf ∧
    sumSize s1.regions + sumSize s1.reserved_regions
      = sumSize s.regions + sumSize s.reserved_regions := by
  obtain ⟨c1, c2, c3, c4, c5, c6, c7⟩ :=
    ensure_headroom_master (allocInv_wf hInv hfin) (by have := hInv.capR; omega) h
  have hfin1 : s1.allocatable = true := by rw [c5, hfin]
  refine ⟨⟨c1.chainR, c1.posR, c1.chainP, c1.posP, ?_, ?_, fun _ => c1.sepRP,
    hInv.livePos, hInv.livePair, ?_, ?_, ?_⟩, hfin1, c1, c2⟩
  · have := hInv.capR
    omega
  · have := hInv.capP
    omega
  · intro z hz
    obtain ⟨q, hq, hzq⟩ := hInv.liveCov z hz
    obtain ⟨q2, hq2, hqq2⟩ := c7 q hq
    exact ⟨q2, hq2, within_trans hzq hqq2⟩
  · intro z hz y hy
    obtain ⟨r, hr, hyr⟩ := c6 y hy
    exact sep_of_within hyr (hInv.liveSepR z hz r hr)
  · intro hfalse
    rw [hfin1] at hfalse
    cases hfalse

/-- A successful `allocate_region` preserves the run-time invariant with
the carve prepended to the live allocations, and conserves the combined
byte count of the two lists. -/
theorem allocate_region_ok_master {s t : MemoryBlock} {live : List MemoryRegions}
    {sz a addr : Nat} (hInv : AllocInv s live) (hsz : 0 < sz) (ha : 0 < a)
    (h : s.allocate_region ⟨sz, a⟩ = some (t, some addr)) :
    AllocInv t (⟨addr, sz⟩ :: live) ∧
    sumSize t.regions + sumSize t.reserved_regions
      = sumSize s.regions + sumSize s.reserved_regions := by
  unfold MemoryBlock.allocate_region at h
  split at h
  · simp at h
  next hflag =>
    have hfin : s.allocatable = true := by
      cases hb : s.allocatable
      · exact absurd hb hflag
      · rfl
    cases hens : s.ensure_overflow_headroom with
    | none => rw [hens] at h; simp at h
    | some s1 =>
      rw [hens] at h
      simp only [Option.some.injEq] at h
      obtain ⟨hInv1, hfin1, hWf1, hsum1⟩ := ensure_headroom_inv hInv hfin hens
      obtain ⟨d1, d2, d3, d4, d5, d6, d7, d8, d9, d10, d11, d12, r0, hr0, hwr0⟩ :=
        allocate_region_internal_master hWf1 hsz ha h
      have hfint : t.allocatable = true := by rw [d8, hfin1]
      refine ⟨⟨d1.chainR, d1.posR, d1.chainP, d1.posP, ?_, ?_, fun _ => d1.sepRP,
        ?_, ?_, ?_, ?_, ?_⟩, by omega⟩
      · rw [d6]
        exact hInv1.capR
      · rw [d7]
        exact hInv1.capP
      · intro z hz
        rcases List.mem_cons.mp hz with rfl | hz
        · exact hsz
        · exact hInv1.livePos z hz
      · refine List.pairwise_cons.mpr ⟨?_, hInv1.livePair⟩
        intro z hz
        exact sep_comm (sep_of_within hwr0 (hInv1.liveSepR z hz r0 hr0))
      · intro z hz
        rcases List.mem_cons.mp hz with rfl | hz
        · exact d10
        · obtain ⟨q, hq, hzq⟩ := hInv1.liveCov z hz
          obtain ⟨q2, hq2, hqq2⟩ := d11 q hq
          exact ⟨q2, hq2, within_trans hzq hqq2⟩
      · intro z hz y hy
        rcases List.mem_cons.mp hz with rfl | hz
        · exact d12 y hy
        · obtain ⟨r, hr, hyr⟩ := d9 y hy
          exact sep_of_within hyr (hInv1.liveSepR z hz r hr)
      · intro hfalse
        rw [hfint] at hfalse
        cases hfalse

/-- A failed `allocate_region` (ordinary `None` result, not the migration
panic) preserves the run-time invariant and the combined byte count. -/
theorem allocate_region_fail_master {s t : MemoryBlock} {live : List MemoryRegions}
    {sz a : Nat} (hInv : AllocInv s live)
    (h : s.allocate_region ⟨sz, a⟩ = some (t, none)) :
    AllocInv t live ∧
    sumSize t.regions + sumSize t.reserved_regions
      = sumSize s.regions + sumSize s.reserved_regions := by
  unfold MemoryBlock.allocate_region at h
  split at h
  · simp only [Option.some.injEq, Prod.mk.injEq] at h
    rw [← h.1]
    exact ⟨hInv, rfl⟩
  next hflag =>
    have hfin : s.allocatable = true := by
      cases hb : s.allocatable
      · exact absurd hb hflag
      · rfl
    cases hens : s.ensure_overflow_headroom with
    | none => rw [hens] at h; simp at h
    | some s1 =>
      rw [hens] at h
      simp only [Option.some.injEq] at h
      obtain ⟨hInv1, hfin1, hWf1, hsum1⟩ := ensure_headroom_inv hInv hfin hens
      obtain ⟨ht, _⟩ := allocate_region_internal_eq_none h
      subst ht
      exact ⟨hInv1, hsum1⟩

/-- Freeing a live allocation preserves the run-time invariant (with that
allocation removed from the live list) and conserves the combined byte
count: the freed bytes move from the reserved list back into the
available list. -/
theorem deallocate_region_master {s u : MemoryBlock} {live1 live2 : List MemoryRegions}
    {z : MemoryRegions} {a : Nat}
    (hInv : AllocInv s (live1 ++ z :: live2))
    (h : s.deallocate_region z.address ⟨z.size, a⟩ = some u) :
    AllocInv u (live1 ++ live2) ∧
    sumSize u.regions + sumSize u.reserved_regions
      = sumSize s.regions + sumSize s.reserved_regions := by
  have hzmem : z ∈ live1 ++ z :: live2 := by simp
  have hzpos : 0 < z.size := hInv.livePos z hzmem
  have hsub : (live1 ++ live2).Sublist (live1 ++ z :: live2) :=
    (List.sublist_cons_self z live2).append_left live1
  have hmemSub : ∀ w ∈ live1 ++ live2, w ∈ live1 ++ z :: live2 := fun w hw => hsub.subset hw
  have hpairSub : List.Pairwise sep (live1 ++ live2) := hInv.livePair.sublist hsub
  have hzsep : ∀ w ∈ live1 ++ live2, sep z w := by
    have hp := hInv.livePair
    rw [List.pairwise_append] at hp
    obtain ⟨hp1, hp2, hcross⟩ := hp
    intro w hw
    rcases List.mem_append.mp hw with hw | hw
    · exact sep_comm (hcross w hw z (List.mem_cons_self _ _))
    · exact (List.pairwise_cons.mp hp2).1 w hw
  unfold MemoryBlock.deallocate_region at h
  dsimp only at h
  split at h
  next hflag => exact absurd (hInv.liveEmpty hflag) (by simp)
  next hflag =>
    have hfin : s.allocatable = true := by
      cases hb : s.allocatable
      · exact absurd hb hflag
      · rfl
    split at h
    next hsz0 => exact absurd hsz0 (by omega)
    next hsz0 =>
      cases hens : s.ensure_overflow_headroom with
      | none => rw [hens] at h; simp at h
      | some s1 =>
        rw [hens] at h
        dsimp only at h
        obtain ⟨hInv1, hfin1, hWf1, hsum1⟩ := ensure_headroom_inv hInv hfin hens
        cases hrem : s1.remove_reserved_alloc_record z.address z.size with
        | none => rw [hrem] at h; simp at h
        | some s2 =>
          rw [hrem] at h
          simp only [Option.some.injEq] at h
          unfold MemoryBlock.remove_reserved_alloc_record at hrem
          cases hens2 : s1.ensure_overflow_headroom with
          | none => rw [hens2] at hrem; simp at hrem
          | some s1x =>
            rw [hens2] at hrem
            dsimp only at hrem
            rw [if_neg (show ¬ z.size = 0 from by omega)] at hrem
            simp only [Option.some.injEq] at hrem
            obtain ⟨hInv1x, hfin1x, hWf1x, hsum1x⟩ := ensure_headroom_inv hInv1 hfin1 hens2
            obtain ⟨q, hq, hzq⟩ := hInv1x.liveCov z hzmem
            obtain ⟨e1, e2, e3, e4, e5, e6, e7⟩ :=
              removeReserved_master hWf1x.chainP hWf1x.posP hzpos hq hzq
            obtain ⟨f1, f2, f3, f4, f5, f6, f7⟩ :=
              addMerge_master hInv1x.chainR hInv1x.posR
                (show 0 < (⟨z.address, z.size⟩ : MemoryRegions).size from hzpos)
                (hInv1x.liveSepR z hzmem)
            have f3x : sumSize (addAndMergeRegion s1x.regions
                (lowerBound z.address s1x.regions) ⟨z.address, z.size⟩)
                = sumSize s1x.regions + z.size := by simpa using f3
            subst hrem
            subst h
            have hsepRP3 : ∀ y ∈ addAndMergeRegion s1x.regions
                (lowerBound z.address s1x.regions) ⟨z.address, z.size⟩,
                ∀ p ∈ removeReservedList s1x.reserved_regions z.address z.size, sep y p := by
              intro y hy p hp
              refine sep_comm (f5 p (e2 p hp) (e7 p hp) ?_ y hy)
              intro r hr
              obtain ⟨q2, hq2, hpq2⟩ := e5 p hp
              exact sep_comm (sep_of_within hpq2 (hWf1x.sepRP r hr q2 hq2))
            refine ⟨⟨f1, f2, e1, e2, hInv1x.capR, hInv1x.capP, fun _ => hsepRP3,
              fun w hw => hInv1x.livePos w (hmemSub w hw), hpairSub, ?_, ?_, ?_⟩, ?_⟩
            · intro w hw
              obtain ⟨q2, hq2, hwq2⟩ := hInv1x.liveCov w (hmemSub w hw)
              exact e6 w (hInv1x.livePos w (hmemSub w hw)) (sep_comm (hzsep w hw))
                ⟨q2, hq2, hwq2⟩
            · intro w hw y hy
              exact f5 w (hInv1x.livePos w (hmemSub w hw)) (sep_comm (hzsep w hw))
                (hInv1x.liveSepR w (hmemSub w hw)) y hy
            · intro hfalse
              have hx : s1x.allocatable = false := hfalse
              rw [hfin1x] at hx
              cases hx
            · unfold MemoryBlock.add_free_region_merge
              dsimp only
              omega

/-- One public allocation-phase call on the pair of the allocator state
and the list of live allocations.  A free must exactly match a live
allocation (the range was previously returned by `allocate_region` and not
yet freed), as in the conservation claim. -/
inductive AllocStep :
    MemoryBlock × List MemoryRegions → MemoryBlock × List MemoryRegions → Prop
  | alloc_ok {s t : MemoryBlock} {live : List MemoryRegions} {sz a addr : Nat}
      (hsz : 0 < sz) (ha : 0 < a)
      (h : s.allocate_region ⟨sz, a⟩ = some (t, some addr)) :
      AllocStep (s, live) (t, ⟨addr, sz⟩ :: live)
  | alloc_fail {s t : MemoryBlock} {live : List MemoryRegions} {sz a : Nat}
      (h : s.allocate_region ⟨sz, a⟩ = some (t, none)) :
      AllocStep (s, live) (t, live)
  | dealloc {s u : MemoryBlock} {live1 live2 : List MemoryRegions} {z : MemoryRegions}
      {a : Nat} (h : s.deallocate_region z.address ⟨z.size, a⟩ = some u) :
      AllocStep (s, live1 ++ z :: live2) (u, live1 ++ live2)

/-- Single-step preservation of the run-time invariant and of the
combined byte count. -/
theorem allocStep_master {p q : MemoryBlock × List MemoryRegions}
    (hInv : AllocInv p.1 p.2) (hstep : AllocStep p q) :
    AllocInv q.1 q.2 ∧
    sumSize q.1.regions + sumSize q.1.reserved_regions
      = sumSize p.1.regions + sumSize p.1.reserved_regions := by
  cases hstep with
  | alloc_ok hsz ha h => exact allocate_region_ok_master hInv hsz ha h
  | alloc_fail h => exact allocate_region_fail_master hInv h
  | dealloc h => exact deallocate_region_master hInv h

/-- Multi-step preservation of the run-time invariant and of the combined
byte count. -/
theorem allocSteps_master {p q : MemoryBlock × List MemoryRegions}
    (hInv : AllocInv p.1 p.2) (hsteps : Relation.ReflTransGen AllocStep p q) :
    AllocInv q.1 q.2 ∧
    sumSize q.1.regions + sumSize q.1.reserved_regions
      = sumSize p.1.regions + sumSize p.1.reserved_regions := by
  induction hsteps with
  | refl => exact ⟨hInv, rfl⟩
  | tail hs hstep ih =>
    obtain ⟨hInv2, hsum2⟩ := ih
    obtain ⟨hInv3, hsum3⟩ := allocStep_master hInv2 hstep
    exact ⟨hInv3, by omega⟩

/-- C1: conservation.  For every finalized state satisfying the run-time
invariant and every sequence of `allocate_region` / `deallocate_region`
calls whose frees each exactly match a live allocation, the combined byte
count of the available list R and the reserved list P never changes — so
it stays equal to the byte count of the finalized universe (the value of
`sum R + sum P` when `allocatable` was set).  Migration
(`overflow_wrapping`) inside any of these calls moves the new-store carve
from R into P and is covered by the same invariant. -/
theorem C1_conservation (p q : MemoryBlock × List MemoryRegions)
    (hfin : p.1.allocatable = true) (hInv : AllocInv p.1 p.2)
    (hsteps : Relation.ReflTransGen AllocStep p q) :
    AllocInv q.1 q.2 ∧
    sumSize q.1.regions + sumSize q.1.reserved_regions
      = sumSize p.1.regions + sumSize p.1.reserved_regions :=
  allocSteps_master hInv hsteps

/-- The pair reached from the finalized `[0x1000, 0x2000)` state by one
successful `allocate_region ⟨0x100, 0x100⟩` call. -/
def postAllocC1 : MemoryBlock × List MemoryRegions :=
  ({ regions := [⟨0x1100, 0xF00⟩]
     reserved_regions := [⟨0x1000, 0x100⟩]
     region_capacity := 128
     reserved_region_capacity := 128
     allocatable := true }, [⟨0x1000, 0x100⟩])

theorem C1_conservation_witness :
    AllocInv postAllocC1.1 postAllocC1.2 ∧
    sumSize postAllocC1.1.regions + sumSize postAllocC1.1.reserved_regions
      = sumSize finalizedSimple.regions + sumSize finalizedSimple.reserved_regions :=
  C1_conservation (finalizedSimple, []) postAllocC1 (by decide) (by decide)
    (Relation.ReflTransGen.single
      (@AllocStep.alloc_ok finalizedSimple
        { regions := [⟨0x1100, 0xF00⟩]
          reserved_regions := [⟨0x1000, 0x100⟩]
          region_capacity := 128
          reserved_region_capacity := 128
          allocatable := true } [] 0x100 0x100 0x1000 (by decide) (by decide) (by decide)))

/-- Entries strictly below the insertion point start strictly below the
searched address. -/
theorem lowerBound_get_lt (addr : Nat) :
    ∀ (l : List MemoryRegions) (i : Nat), i < lowerBound addr l →
      ∃ r, l.get? i = some r ∧ r.address < addr
  | [], i, h => by simp [lowerBound] at h
  | r :: rest, i, h => by
    unfold lowerBound at h
    rw [List.takeWhile_cons] at h
    by_cases hr : r.address < addr
    · simp [hr] at h
      cases i with
      | zero => exact ⟨r, rfl, hr⟩
      | succ j =>
        have := lowerBound_get_lt addr rest j (by unfold lowerBound; omega)
        simpa using this
    · simp [hr] at h

/-- Removing a range that is separated from every reserved entry is a
no-op (`remove_reserved_alloc_record` silently ignores unknown frees). -/
theorem removeReserved_noop {l : List MemoryRegions} {addr size : Nat}
    (hpos : PosList l) (hs : 0 < size)
    (hdisj : ∀ p ∈ l, sep ⟨addr, size⟩ p) :
    removeReservedList l addr size = l := by
  unfold removeReservedList
  have hsa := searchAddress_inr_of_sep hpos
    (show 0 < (⟨addr, size⟩ : MemoryRegions).size from hs) hdisj
  dsimp only at hsa
  rw [hsa]
  dsimp only
  by_cases hx : lowerBound addr l = 0
  · rw [if_pos hx]
  · rw [if_neg hx]
    obtain ⟨region, hget, hlt⟩ := lowerBound_get_lt addr l (lowerBound addr l - 1) (by omega)
    rw [hget]
    dsimp only
    have hsep := hdisj region (List.get?_mem hget)
    have hp := hpos region (List.get?_mem hget)
    have hnc : ¬ (region.address ≤ addr ∧ addr + size ≤ region.endAddr) := by
      unfold sep MemoryRegions.endAddr at hsep
      dsimp only at hsep
      unfold MemoryRegions.endAddr
      rintro ⟨h1, h2⟩
      omega
    rw [if_neg hnc]

/-- A small allocatable state whose available list already holds
`capacity - 10 + 1` entries, so the next `allocate_region` or
`deallocate_region` triggers a migration; the first region has room for
the page-aligned new store. -/
def triggerState : MemoryBlock :=
  { regions := [⟨0x1000, 0x2000⟩, ⟨0x100000, 0x100⟩, ⟨0x101000, 0x100⟩, ⟨0x102000, 0x100⟩,
      ⟨0x103000, 0x100⟩, ⟨0x104000, 0x100⟩, ⟨0x105000, 0x100⟩]
    reserved_regions := []
    region_capacity := 16
    reserved_region_capacity := 16
    allocatable := true }

/-- The state `deallocate_region 0x5000 ⟨0x10, 0x10⟩` produces from
`triggerState`: the migration carves `[0x1000, 0x1400)` into the reserved
list and doubles the capacities, then the unknown free is insert-merged
into the available list. -/
def c10End : MemoryBlock :=
  { regions := [⟨0x1400, 0x1C00⟩, ⟨0x5000, 0x10⟩, ⟨0x100000, 0x100⟩, ⟨0x101000, 0x100⟩,
      ⟨0x102000, 0x100⟩, ⟨0x103000, 0x100⟩, ⟨0x104000, 0x100⟩, ⟨0x105000, 0x100⟩]
    reserved_regions := [⟨0x1000, 0x400⟩]
    region_capacity := 32
    reserved_region_capacity := 32
    allocatable := true }

/-- C10 counterexample to the universal reading: on a finalized state that
triggers a migration, an unknown free does change the reserved list — the
migration records the new-store carve there before the free is ignored. -/
theorem C10_counterexample :
    triggerState.allocatable = true ∧
    (∀ p ∈ triggerState.reserved_regions, sep ⟨0x5000, 0x10⟩ p) ∧
    triggerState.deallocate_region 0x5000 ⟨0x10, 0x10⟩ = some c10End ∧
    c10End.reserved_regions ≠ triggerState.reserved_regions := by decide

/-- C10 (amended with the no-migration headroom bound): an unknown free —
a positive range separated from every reserved entry — is never rejected:
`deallocate_region` leaves the reserved list unchanged and still
insert-merges the range into the available list, silently growing the
allocatable memory. -/
theorem C10_invalid_free (s : MemoryBlock) (addr size a : Nat)
    (hfin : s.allocatable = true) (hsz : 0 < size) (hWf : s.Wf)
    (hdisj : ∀ p ∈ s.reserved_regions, sep ⟨addr, size⟩ p)
    (hnr : s.regions.length + 10 ≤ s.region_capacity)
    (hnp : s.reserved_regions.length + 10 ≤ s.reserved_region_capacity) :
    s.deallocate_region addr ⟨size, a⟩
      = some { s with regions :=
          addAndMergeRegion s.regions (lowerBound addr s.regions) ⟨addr, size⟩ } := by
  have hens : s.ensure_overflow_headroom = some s := by
    unfold MemoryBlock.ensure_overflow_headroom
    rw [if_neg (by omega)]
  have hrem : s.remove_reserved_alloc_record addr size = some s := by
    unfold MemoryBlock.remove_reserved_alloc_record
    rw [hens]
    dsimp only
    rw [if_neg (show ¬ size = 0 from by omega)]
    rw [removeReserved_noop hWf.posP hsz hdisj]
  unfold MemoryBlock.deallocate_region
  rw [if_neg (by rw [hfin]; simp)]
  dsimp only
  rw [if_neg (show ¬ size = 0 from by omega), hens]
  dsimp only
  rw [hrem]
  rfl

theorem C10_invalid_free_witness :
    finalizedSimple.deallocate_region 0x3000 ⟨0x10, 0x10⟩
      = some { finalizedSimple with regions := addAndMergeRegion finalizedSimple.regions (lowerBound 0x3000 finalizedSimple.regions) ⟨0x3000, 0x10⟩ } :=
  C10_invalid_free finalizedSimple 0x3000 0x10 0x10 (by decide) (by decide) (by decide)
    (by decide) (by decide) (by decide)

/-- The state `overflow_wrapping` produces from `triggerState`: the
new-store carve `[0x1000, 0x1400)` moves from the available into the
reserved list and both capacities double. -/
def migratedTrigger : MemoryBlock :=
  { regions := [⟨0x1400, 0x1C00⟩, ⟨0x100000, 0x100⟩, ⟨0x101000, 0x100⟩, ⟨0x102000, 0x100⟩,
      ⟨0x103000, 0x100⟩, ⟨0x104000, 0x100⟩, ⟨0x105000, 0x100⟩]
    reserved_regions := [⟨0x1000, 0x400⟩]
    region_capacity := 32
    reserved_region_capacity := 32
    allocatable := true }

/-- C7 counterexample to the words "the logical sequences of regions
stored in R and P are unchanged by the migration itself": the migration
carves the new backing store out of an available region, so R itself
changes (and P gains the carve). -/
theorem C7_counterexample :
    (triggerState.region_capacity < triggerState.regions.length + 10 ∨
      triggerState.reserved_region_capacity < triggerState.reserved_regions.length + 10) ∧
    triggerState.overflow_wrapping = some migratedTrigger ∧
    migratedTrigger.regions ≠ triggerState.regions ∧
    migratedTrigger.reserved_regions ≠ triggerState.reserved_regions := by decide

/-- C7 (amended): entering `allocate_region` or `deallocate_region` with
`|R| + 10 > cap(R)` or `|P| + 10 > cap(P)` migrates first when R has a
free range large enough for the new store: both capacities double, the
lists change only by carving the new store out of one available region
and insert-merging that carve into the reserved list (the combined byte
count is conserved), and the operation then proceeds on the migrated
state exactly as the un-triggered code path would. -/
theorem C7_migration (s m : MemoryBlock) (layout : Layout) (ptr : Nat)
    (hWf : s.Wf) (hcap : 0 < s.region_capacity + s.reserved_region_capacity)
    (hfin : s.allocatable = true)
    (htrig : s.region_capacity < s.regions.length + 10 ∨
      s.reserved_region_capacity < s.reserved_regions.length + 10)
    (hmig : s.overflow_wrapping = some m) :
    m.region_capacity = s.region_capacity * 2 ∧
    m.reserved_region_capacity = s.reserved_region_capacity * 2 ∧
    m.allocatable = true ∧ m.Wf ∧
    sumSize m.regions + sumSize m.reserved_regions
      = sumSize s.regions + sumSize s.reserved_regions ∧
    (∃ R1 r R2 pieces addr,
      s.regions = R1 ++ r :: R2 ∧ m.regions = R1 ++ (pieces ++ R2) ∧
      carveRegion ((s.region_capacity + s.reserved_region_capacity) * 2
        * memoryRegionsByteSize) 4096 r = some (pieces, addr) ∧
      m.reserved_regions = addAndMergeRegion s.reserved_regions
        (lowerBound addr s.reserved_regions)
        ⟨addr, (s.region_capacity + s.reserved_region_capacity) * 2
          * memoryRegionsByteSize⟩) ∧
    s.allocate_region layout = some (m.allocate_region_internal layout.size layout.align) ∧
    (layout.size ≠ 0 →
      s.deallocate_region ptr layout
        = match m.remove_reserved_alloc_record ptr layout.size with
          | none => none
          | some s2 => some (s2.add_free_region_merge ptr layout.size)) := by
  have hens : s.ensure_overflow_headroom = some m := by
    unfold MemoryBlock.ensure_overflow_headroom
    rw [if_pos htrig]
    exact hmig
  obtain ⟨w1, w2, w3, w4, w5, w6, w7, w8, w9⟩ := overflow_wrapping_master hWf hcap hmig
  refine ⟨w3, w4, by rw [w5, hfin], w1, w2, ?_, ?_, ?_⟩
  · unfold MemoryBlock.overflow_wrapping at hmig
    dsimp only at hmig
    cases hint : s.allocate_region_internal
        ((s.region_capacity + s.reserved_region_capacity) * 2 * memoryRegionsByteSize)
        4096 with
    | mk t res =>
      rw [hint] at hmig
      cases res with
      | none => simp at hmig
      | some addr =>
        simp only [Option.some.injEq] at hmig
        obtain ⟨rs, hgo, ht⟩ := allocate_region_internal_eq_some hint
        obtain ⟨R1, r, R2, pieces, hsplit, hres, hcarve, hnone⟩ := allocGo_shape hgo
        refine ⟨R1, r, R2, pieces, addr, hsplit, ?_, hcarve, ?_⟩
        · rw [← hmig, ht]
          exact hres
        · rw [← hmig, ht]
          rfl
  · unfold MemoryBlock.allocate_region
    rw [if_neg (by rw [hfin]; simp), hens]
  · intro hsz
    unfold MemoryBlock.deallocate_region
    rw [if_neg (by rw [hfin]; simp)]
    rw [if_neg hsz, hens]

theorem C7_migration_witness :
    migratedTrigger.region_capacity = triggerState.region_capacity * 2 ∧
    migratedTrigger.reserved_region_capacity = triggerState.reserved_region_capacity * 2 :=
  ⟨(C7_migration triggerState migratedTrigger ⟨0x10, 0x10⟩ 0 (by decide) (by decide)
      (by decide) (by decide) (by decide)).1,
   (C7_migration triggerState migratedTrigger ⟨0x10, 0x10⟩ 0 (by decide) (by decide)
      (by decide) (by decide) (by decide)).2.1⟩

/-- What the cursor-advance loop does: it splits the remaining available
list at the first region ending beyond `p.address`. -/
theorem advanceCursor_spec (p : MemoryRegions) :
    ∀ (l : List MemoryRegions),
      l = (advanceCursor p l).1 ++ (advanceCursor p l).2 ∧
      (∀ d ∈ (advanceCursor p l).1, d.endAddr ≤ p.address) ∧
      (∀ r0 rs0, (advanceCursor p l).2 = r0 :: rs0 → p.address < r0.endAddr)
  | [] => by simp [advanceCursor]
  | r :: rest => by
    unfold advanceCursor
    by_cases hr : r.endAddr ≤ p.address
    · rw [if_pos hr]
      obtain ⟨ih1, ih2, ih3⟩ := advanceCursor_spec p rest
      dsimp only
      refine ⟨by rw [List.cons_append, ← ih1], ?_, ih3⟩
      intro d hd
      rcases List.mem_cons.mp hd with rfl | hd
      · exact hr
      · exact ih2 d hd
    · rw [if_neg hr]
      refine ⟨rfl, by simp, ?_⟩
      intro r0 rs0 h
      cases h
      omega

theorem sumSize_nil : sumSize [] = 0 := rfl

/-- Master lemma for the subtraction loop of `check_regions`: when every
remaining reserved region lies inside one of the regions past the cursor
and the capacity covers the worst-case growth, the loop succeeds, the
result is well shaped, exactly the reserved bytes are removed, every
result entry lies inside an original entry, and every reserved region is
separated from the result. -/
theorem checkLoop_master (cap : Nat) :
    ∀ (ps done rest : List MemoryRegions),
      SChain (done ++ rest) → PosList (done ++ rest) →
      SChain ps → PosList ps →
      (∀ q ∈ ps, ∀ d ∈ done, d.endAddr ≤ q.address) →
      (∀ q ∈ ps, ∃ r ∈ rest, within q r) →
      (done ++ rest).length + ps.length ≤ cap →
      ∃ out, checkLoop cap done rest ps = .ok out ∧
        SChain out ∧ PosList out ∧
        sumSize out + sumSize ps = sumSize (done ++ rest) ∧
        (∀ y ∈ out, ∃ q ∈ done ++ rest, within y q) ∧
        (∀ q ∈ ps, ∀ y ∈ out, sep q y) ∧
        out.length ≤ (done ++ rest).length + ps.length
  | [], done, rest, hch, hpos, _, _, _, _, _ =>
    ⟨done ++ rest, rfl, hch, hpos, by simp [sumSize],
      fun y hy => ⟨y, hy, le_refl _, le_refl _⟩, by simp, by simp⟩
  | p :: ps, done, rest, hch, hpos, hchp, hposp, hcur, hcov, hlen => by
    have hppos : 0 < p.size := hposp p (List.mem_cons_self _ _)
    obtain ⟨hsplit, hskip, hhead⟩ := advanceCursor_spec p rest
    cases hadv : advanceCursor p rest with
    | mk skip rest2 =>
      rw [hadv] at hsplit hskip hhead
      dsimp only at hsplit hskip hhead
      obtain ⟨rq, hrq, hprq⟩ := hcov p (List.mem_cons_self _ _)
      have hprq1 : rq.address ≤ p.address := hprq.1
      have hprq2 : p.endAddr ≤ rq.endAddr := hprq.2
      cases rest2 with
      | nil =>
        exfalso
        rw [List.append_nil] at hsplit
        subst hsplit
        have hsk := hskip rq hrq
        unfold MemoryRegions.endAddr at hsk hprq2
        omega
      | cons r rs =>
        subst hsplit
        have hrend : p.address < r.endAddr := hhead r rs rfl
        rw [← List.append_assoc] at hch hpos hlen ⊢
        obtain ⟨hchDS, hchRS, hDS2r, hr2RS, hcross⟩ := (schain_append_cons _ _ _).mp hch
        have hreq : rq = r := by
          rcases List.mem_append.mp hrq with hin | hin
          · exfalso
            have hsk := hskip rq hin
            unfold MemoryRegions.endAddr at hsk hprq2 hrend
            omega
          · rcases List.mem_cons.mp hin with h | hin
            · exact h
            · exfalso
              have hgt := hr2RS rq hin
              unfold MemoryRegions.endAddr at hgt hprq2 hrend
              omega
        rw [hreq] at hprq1 hprq2
        have hcheck : ¬ (p.address < r.address ∨ r.endAddr < p.endAddr) := by
          rintro (hlt | hlt) <;> omega
        have hchps : ∀ q ∈ ps, p.endAddr < q.address :=
          fun q hq => (List.pairwise_cons.mp hchp).1 q hq
        have hchpt : SChain ps := (List.pairwise_cons.mp hchp).2
        have hpost : PosList ps := fun q hq => hposp q (List.mem_cons_of_mem _ hq)
        have hdsp : ∀ d ∈ done ++ skip, d.endAddr ≤ p.address := by
          intro d hd
          rcases List.mem_append.mp hd with hd | hd
          · exact hcur p (List.mem_cons_self _ _) d hd
          · exact hskip d hd
        have hcurt : ∀ q ∈ ps, ∀ d ∈ done ++ skip, d.endAddr ≤ q.address := by
          intro q hq d hd
          have ha := hdsp d hd
          have hb := hchps q hq
          unfold MemoryRegions.endAddr at ha hb ⊢
          omega
        have hcovt : ∀ q ∈ ps, within q r ∨ ∃ b ∈ rs, within q b := by
          intro q hq
          obtain ⟨rq2, hrq2, hq1, hq2⟩ := hcov q (List.mem_cons_of_mem _ hq)
          have hqpos : 0 < q.size := hpost q hq
          rcases List.mem_append.mp hrq2 with hin | hin
          · exfalso
            have hsk := hskip rq2 hin
            have hpq := hchps q hq
            unfold MemoryRegions.endAddr at hsk hq2 hpq
            omega
          · rcases List.mem_cons.mp hin with rfl | hin
            · exact Or.inl ⟨hq1, hq2⟩
            · exact Or.inr ⟨rq2, hin, hq1, hq2⟩
        have hposDSr : PosList ((done ++ skip) ++ r :: rs) := hpos
        have hre : r.endAddr = r.address + r.size := rfl
        have hpe : p.endAddr = p.address + p.size := rfl
        unfold checkLoop
        rw [hadv]
        dsimp only
        rw [if_neg hcheck]
        by_cases h1 : r.address = p.address
        · by_cases h2 : r.endAddr = p.endAddr
          · -- exact match: drop `r`
            simp only [show decide (r.address = p.address) = true from by simp [h1],
              show decide (r.endAddr = p.endAddr) = true from by simp [h2]]
            obtain ⟨out, hout, o1, o2, o3, o4, o5, o6⟩ :=
              checkLoop_master cap ps (done ++ skip) rs
                (by unfold SChain at hchDS hchRS ⊢
                    exact List.pairwise_append.mpr ⟨hchDS, hchRS, hcross⟩)
                (by intro q hq
                    rcases List.mem_append.mp hq with hq | hq
                    · exact hposDSr q (List.mem_append.mpr (Or.inl hq))
                    · exact hposDSr q
                        (List.mem_append.mpr (Or.inr (List.mem_cons_of_mem _ hq))))
                hchpt hpost hcurt
                (by intro q hq
                    rcases hcovt q hq with ⟨hq1, hq2⟩ | ⟨b, hb, hqb⟩
                    · exfalso
                      have hpq := hchps q hq
                      have hqpos := hpost q hq
                      unfold MemoryRegions.endAddr at h2 hq2 hpq
                      omega
                    · exact ⟨b, hb, hqb⟩)
                (by simp only [List.length_append, List.length_cons, List.length_nil] at hlen ⊢
                    omega)
            refine ⟨out, hout, o1, o2, ?_, ?_, ?_, ?_⟩
            · simp only [sumSize_append, sumSize_cons, sumSize_nil] at o3 ⊢
              unfold MemoryRegions.endAddr at h2
              omega
            · intro y hy
              obtain ⟨q, hq, hyq⟩ := o4 y hy
              rcases List.mem_append.mp hq with hq | hq
              · exact ⟨q, List.mem_append.mpr (Or.inl hq), hyq⟩
              · exact ⟨q, List.mem_append.mpr (Or.inr (List.mem_cons_of_mem _ hq)), hyq⟩
            · intro q hq y hy
              rcases List.mem_cons.mp hq with rfl | hq
              · obtain ⟨q2, hq2, hyq2⟩ := o4 y hy
                refine sep_of_within hyq2 ?_
                rcases List.mem_append.mp hq2 with hq2 | hq2
                · have hd := hdsp q2 hq2
                  unfold sep
                  unfold MemoryRegions.endAddr at hd ⊢
                  omega
                · have hb := hr2RS q2 hq2
                  unfold sep
                  unfold MemoryRegions.endAddr at hb h2 ⊢
                  omega
              · exact o5 q hq y hy
            · simp only [List.length_append, List.length_cons, List.length_nil] at o6 ⊢
              omega
          · -- prefix: shrink `r` from the left
            simp only [show decide (r.address = p.address) = true from by simp [h1],
              show decide (r.endAddr = p.endAddr) = false from by simp [h2]]
            have hsz : p.size < r.size := by
              unfold MemoryRegions.endAddr at hprq2 h2
              omega
            obtain ⟨out, hout, o1, o2, o3, o4, o5, o6⟩ :=
              checkLoop_master cap ps (done ++ skip)
                ({ address := r.address + p.size, size := r.size - p.size } :: rs)
                (by refine (schain_append_cons _ _ _).mpr ⟨hchDS, hchRS, ?_, ?_, hcross⟩
                    · intro d hd
                      have := hDS2r d hd
                      unfold MemoryRegions.endAddr at this ⊢
                      dsimp only
                      omega
                    · intro b hb
                      have := hr2RS b hb
                      unfold MemoryRegions.endAddr at this ⊢
                      dsimp only
                      omega)
                (by intro q hq
                    rcases List.mem_append.mp hq with hq | hq
                    · exact hposDSr q (List.mem_append.mpr (Or.inl hq))
                    · rcases List.mem_cons.mp hq with rfl | hq
                      · dsimp only
                        omega
                      · exact hposDSr q
                          (List.mem_append.mpr (Or.inr (List.mem_cons_of_mem _ hq))))
                hchpt hpost hcurt
                (by intro q hq
                    rcases hcovt q hq with ⟨hq1, hq2⟩ | ⟨b, hb, hqb⟩
                    · refine ⟨_, List.mem_cons_self _ _, ?_, ?_⟩
                      · have hpq := hchps q hq
                        unfold MemoryRegions.endAddr at hpq
                        dsimp only
                        omega
                      · have hpr := hprq2
                        unfold MemoryRegions.endAddr at hpr hq2 ⊢
                        dsimp only
                        omega
                    · exact ⟨b, List.mem_cons_of_mem _ hb, hqb⟩)
                (by simp only [List.length_append, List.length_cons, List.length_nil] at hlen ⊢
                    omega)
            refine ⟨out, hout, o1, o2, ?_, ?_, ?_, ?_⟩
            · simp only [sumSize_append, sumSize_cons, sumSize_nil] at o3 ⊢
              omega
            · intro y hy
              obtain ⟨q, hq, hyq⟩ := o4 y hy
              rcases List.mem_append.mp hq with hq | hq
              · exact ⟨q, List.mem_append.mpr (Or.inl hq), hyq⟩
              · rcases List.mem_cons.mp hq with rfl | hq
                · refine ⟨r, List.mem_append.mpr (Or.inr (List.mem_cons_self _ _)),
                    within_trans hyq ?_⟩
                  unfold within MemoryRegions.endAddr
                  dsimp only
                  omega
                · exact ⟨q, List.mem_append.mpr (Or.inr (List.mem_cons_of_mem _ hq)), hyq⟩
            · intro q hq y hy
              rcases List.mem_cons.mp hq with rfl | hq
              · obtain ⟨q2, hq2, hyq2⟩ := o4 y hy
                refine sep_of_within hyq2 ?_
                rcases List.mem_append.mp hq2 with hq2 | hq2
                · have hd := hdsp q2 hq2
                  unfold sep
                  unfold MemoryRegions.endAddr at hd ⊢
                  omega
                · rcases List.mem_cons.mp hq2 with rfl | hq2
                  · unfold sep MemoryRegions.endAddr
                    dsimp only
                    omega
                  · have hb := hr2RS q2 hq2
                    have hpr := hprq2
                    unfold sep
                    unfold MemoryRegions.endAddr at hb hpr ⊢
                    omega
              · exact o5 q hq y hy
            · simp only [List.length_append, List.length_cons, List.length_nil] at o6 ⊢
              omega
        · by_cases h2 : r.endAddr = p.endAddr
          · -- suffix: shrink `r` from the right
            simp only [show decide (r.address = p.address) = false from by simp [h1],
              show decide (r.endAddr = p.endAddr) = true from by simp [h2]]
            have hlt : r.address < p.address := by omega
            have hsz : p.size < r.size := by
              unfold MemoryRegions.endAddr at h2
              omega
            obtain ⟨out, hout, o1, o2, o3, o4, o5, o6⟩ :=
              checkLoop_master cap ps (done ++ skip)
                ({ r with size := r.size - p.size } :: rs)
                (by refine (schain_append_cons _ _ _).mpr ⟨hchDS, hchRS, ?_, ?_, hcross⟩
                    · intro d hd
                      have := hDS2r d hd
                      unfold MemoryRegions.endAddr at this ⊢
                      dsimp only
                      omega
                    · intro b hb
                      have := hr2RS b hb
                      unfold MemoryRegions.endAddr at this ⊢
                      dsimp only
                      omega)
                (by intro q hq
                    rcases List.mem_append.mp hq with hq | hq
                    · exact hposDSr q (List.mem_append.mpr (Or.inl hq))
                    · rcases List.mem_cons.mp hq with rfl | hq
                      · dsimp only
                        omega
                      · exact hposDSr q
                          (List.mem_append.mpr (Or.inr (List.mem_cons_of_mem _ hq))))
                hchpt hpost hcurt
                (by intro q hq
                    rcases hcovt q hq with ⟨hq1, hq2⟩ | ⟨b, hb, hqb⟩
                    · exfalso
                      have hpq := hchps q hq
                      have hqpos := hpost q hq
                      unfold MemoryRegions.endAddr at h2 hq2 hpq
                      omega
                    · exact ⟨b, List.mem_cons_of_mem _ hb, hqb⟩)
                (by simp only [List.length_append, List.length_cons, List.length_nil] at hlen ⊢
                    omega)
            refine ⟨out, hout, o1, o2, ?_, ?_, ?_, ?_⟩
            · simp only [sumSize_append, sumSize_cons, sumSize_nil] at o3 ⊢
              omega
            · intro y hy
              obtain ⟨q, hq, hyq⟩ := o4 y hy
              rcases List.mem_append.mp hq with hq | hq
              · exact ⟨q, List.mem_append.mpr (Or.inl hq), hyq⟩
              · rcases List.mem_cons.mp hq with rfl | hq
                · refine ⟨r, List.mem_append.mpr (Or.inr (List.mem_cons_self _ _)),
                    within_trans hyq ?_⟩
                  unfold within MemoryRegions.endAddr
                  dsimp only
                  omega
                · exact ⟨q, List.mem_append.mpr (Or.inr (List.mem_cons_of_mem _ hq)), hyq⟩
            · intro q hq y hy
              rcases List.mem_cons.mp hq with rfl | hq
              · obtain ⟨q2, hq2, hyq2⟩ := o4 y hy
                refine sep_of_within hyq2 ?_
                rcases List.mem_append.mp hq2 with hq2 | hq2
                · have hd := hdsp q2 hq2
                  unfold sep
                  unfold MemoryRegions.endAddr at hd ⊢
                  omega
                · rcases List.mem_cons.mp hq2 with rfl | hq2
                  · unfold sep
                    unfold MemoryRegions.endAddr at h2 ⊢
                    dsimp only
                    omega
                  · have hb := hr2RS q2 hq2
                    unfold sep
                    unfold MemoryRegions.endAddr at hb h2 ⊢
                    omega
              · exact o5 q hq y hy
            · simp only [List.length_append, List.length_cons, List.length_nil] at o6 ⊢
              omega
          · -- interior: split `r`
            simp only [show decide (r.address = p.address) = false from by simp [h1],
              show decide (r.endAddr = p.endAddr) = false from by simp [h2]]
            have hlt : r.address < p.address := by omega
            have hlt2 : p.endAddr < r.endAddr := by omega
            rw [if_neg (show ¬ cap < (done ++ skip).length + (r :: rs).length + 1 from by
              simp only [List.length_append, List.length_cons, List.length_nil] at hlen ⊢
              omega)]
            obtain ⟨out, hout, o1, o2, o3, o4, o5, o6⟩ :=
              checkLoop_master cap ps ((done ++ skip) ++ [⟨r.address, p.address - r.address⟩])
                (⟨p.endAddr, r.endAddr - p.endAddr⟩ :: rs)
                (by refine (schain_append_cons _ _ _).mpr ⟨?_, hchRS, ?_, ?_, ?_⟩
                    · refine (schain_append_cons _ _ _).mpr
                        ⟨hchDS, ?_, ?_, ?_, ?_⟩
                      · unfold SChain
                        exact List.Pairwise.nil
                      · intro d hd
                        have := hDS2r d hd
                        unfold MemoryRegions.endAddr at this ⊢
                        dsimp only
                        omega
                      · intro b hb
                        simp at hb
                      · intro a ha b hb
                        simp at hb
                    · intro d hd
                      rcases List.mem_append.mp hd with hd | hd
                      · have := hDS2r d hd
                        unfold MemoryRegions.endAddr at this hlt2 ⊢
                        dsimp only
                        omega
                      · rcases List.mem_cons.mp hd with rfl | hd
                        · unfold MemoryRegions.endAddr
                          dsimp only
                          omega
                        · simp at hd
                    · intro b hb
                      have := hr2RS b hb
                      unfold MemoryRegions.endAddr at this hlt2 ⊢
                      dsimp only
                      omega
                    · intro d hd b hb
                      rcases List.mem_append.mp hd with hd | hd
                      · exact hcross d hd b hb
                      · rcases List.mem_cons.mp hd with rfl | hd
                        · have := hr2RS b hb
                          unfold MemoryRegions.endAddr at this hlt2 ⊢
                          dsimp only
                          omega
                        · simp at hd)
                (by intro q hq
                    rcases List.mem_append.mp hq with hq | hq
                    · rcases List.mem_append.mp hq with hq | hq
                      · exact hposDSr q (List.mem_append.mpr (Or.inl hq))
                      · rcases List.mem_cons.mp hq with rfl | hq
                        · dsimp only
                          omega
                        · simp at hq
                    · rcases List.mem_cons.mp hq with rfl | hq
                      · unfold MemoryRegions.endAddr at hlt2
                        dsimp only
                        omega
                      · exact hposDSr q
                          (List.mem_append.mpr (Or.inr (List.mem_cons_of_mem _ hq))))
                hchpt hpost
                (by intro q hq d hd
                    rcases List.mem_append.mp hd with hd | hd
                    · exact hcurt q hq d hd
                    · rcases List.mem_cons.mp hd with rfl | hd
                      · have hpq := hchps q hq
                        unfold MemoryRegions.endAddr at hpq ⊢
                        dsimp only
                        omega
                      · simp at hd)
                (by intro q hq
                    rcases hcovt q hq with ⟨hq1, hq2⟩ | ⟨b, hb, hqb⟩
                    · refine ⟨_, List.mem_cons_self _ _, ?_, ?_⟩
                      · have hpq := hchps q hq
                        dsimp only
                        omega
                      · have := hq2
                        unfold MemoryRegions.endAddr at this ⊢
                        dsimp only
                        omega
                    · exact ⟨b, List.mem_cons_of_mem _ hb, hqb⟩)
                (by simp only [List.length_append, List.length_cons, List.length_nil] at hlen ⊢
                    omega)
            refine ⟨out, hout, o1, o2, ?_, ?_, ?_, ?_⟩
            · simp only [sumSize_append, sumSize_cons, sumSize_nil] at o3 ⊢
              omega
            · intro y hy
              obtain ⟨q, hq, hyq⟩ := o4 y hy
              rcases List.mem_append.mp hq with hq | hq
              · rcases List.mem_append.mp hq with hq | hq
                · exact ⟨q, List.mem_append.mpr (Or.inl hq), hyq⟩
                · rcases List.mem_cons.mp hq with rfl | hq
                  · refine ⟨r, List.mem_append.mpr (Or.inr (List.mem_cons_self _ _)),
                      within_trans hyq ?_⟩
                    unfold within MemoryRegions.endAddr
                    dsimp only
                    omega
                  · simp at hq
              · rcases List.mem_cons.mp hq with rfl | hq
                · refine ⟨r, List.mem_append.mpr (Or.inr (List.mem_cons_self _ _)),
                    within_trans hyq ?_⟩
                  unfold within MemoryRegions.endAddr
                  unfold MemoryRegions.endAddr at hlt2
                  dsimp only
                  omega
                · exact ⟨q, List.mem_append.mpr (Or.inr (List.mem_cons_of_mem _ hq)), hyq⟩
            · intro q hq y hy
              rcases List.mem_cons.mp hq with rfl | hq
              · obtain ⟨q2, hq2, hyq2⟩ := o4 y hy
                refine sep_of_within hyq2 ?_
                rcases List.mem_append.mp hq2 with hq2 | hq2
                · rcases List.mem_append.mp hq2 with hq2 | hq2
                  · have hd := hdsp q2 hq2
                    unfold sep
                    unfold MemoryRegions.endAddr at hd ⊢
                    omega
                  · rcases List.mem_cons.mp hq2 with rfl | hq2
                    · unfold sep MemoryRegions.endAddr
                      dsimp only
                      omega
                    · simp at hq2
                · rcases List.mem_cons.mp hq2 with rfl | hq2
                  · unfold sep MemoryRegions.endAddr
                    dsimp only
                    omega
                  · have hb := hr2RS q2 hq2
                    have hpr := hprq2
                    unfold sep
                    unfold MemoryRegions.endAddr at hb hpr ⊢
                    omega
              · exact o5 q hq y hy
            · simp only [List.length_append, List.length_cons, List.length_nil] at o6 ⊢
              omega

/-- Master lemma for a successful finalize: under the shape invariant,
containment of every reserved region in an available region, the code's
120-entry gate and a capacity covering the worst-case split growth,
`check_regions` succeeds, subtracts exactly the reserved bytes from the
available list, clears the reserved list and sets `allocatable`. -/
theorem check_regions_master {s : MemoryBlock}
    (hchR : SChain s.regions) (hposR : PosList s.regions)
    (hchP : SChain s.reserved_regions) (hposP : PosList s.reserved_regions)
    (hcov : ∀ p ∈ s.reserved_regions, ∃ r ∈ s.regions, within p r)
    (hlenR : s.regions.length ≤ 120) (hlenP : s.reserved_regions.length ≤ 120)
    (hcap : s.regions.length + s.reserved_regions.length ≤ s.region_capacity) :
    ∃ t, s.check_regions = (t, .ok ()) ∧
      t.reserved_regions = [] ∧ t.allocatable = true ∧
      t.region_capacity = s.region_capacity ∧
      t.reserved_region_capacity = s.reserved_region_capacity ∧
      SChain t.regions ∧ PosList t.regions ∧
      sumSize t.regions + sumSize s.reserved_regions = sumSize s.regions ∧
      (∀ y ∈ t.regions, ∃ q ∈ s.regions, within y q) ∧
      (∀ p ∈ s.reserved_regions, ∀ y ∈ t.regions, sep p y) ∧
      t.regions.length ≤ s.regions.length + s.reserved_regions.length := by
  unfold MemoryBlock.check_regions
  rw [if_neg (by omega)]
  by_cases hP : s.reserved_regions.length = 0
  · rw [if_pos hP]
    have hPnil : s.reserved_regions = [] := List.length_eq_zero.mp hP
    refine ⟨_, rfl, hPnil, rfl, rfl, rfl, hchR, hposR, ?_, ?_, ?_, ?_⟩
    · rw [hPnil, sumSize_nil]
      rfl
    · exact fun y hy => ⟨y, hy, le_refl _, le_refl _⟩
    · intro p hp
      rw [hPnil] at hp
      simp at hp
    · dsimp only
      omega
  · rw [if_neg hP]
    obtain ⟨out, hout, o1, o2, o3, o4, o5, o6⟩ :=
      checkLoop_master s.region_capacity s.reserved_regions [] s.regions
        (by simpa using hchR) (by simpa using hposR) hchP hposP (by simp)
        (by simpa using hcov) (by simpa using hcap)
    rw [hout]
    refine ⟨_, rfl, rfl, rfl, rfl, rfl, o1, o2, by simpa using o3, ?_, o5,
      by simpa using o6⟩
    intro y hy
    obtain ⟨q, hq, hyq⟩ := o4 y hy
    exact ⟨q, by simpa using hq, hyq⟩

/-- The exact post-state of spec scenario S1 (available `[0x1000, 0x2000)`
with reserved `[0x1100, 0x1200)` finalized). -/
def s1Pre : MemoryBlock :=
  { regions := [⟨0x1000, 0x1000⟩]
    reserved_regions := [⟨0x1100, 0x100⟩]
    region_capacity := 128
    reserved_region_capacity := 128
    allocatable := false }

/-- 120 available regions with nine interior reserved carve-outs. -/
def capacityPre : MemoryBlock :=
  { regions := (List.range 120).map (fun i => ⟨0x10000 * i, 0x1000⟩)
    reserved_regions := (List.range 9).map (fun i => ⟨0x10000 * i + 0x100, 0x100⟩)
    region_capacity := 128
    reserved_region_capacity := 128
    allocatable := false }

/-- C3 counterexample to the claimed sufficient bound `|R| ≤ 120 ∧
|P| ≤ 120`: on `capacityPre` both bounds hold and every reserved region is
interior to its own available region, yet eight interior splits exhaust
the 128-entry capacity and finalize fails with the split-overflow error
instead of returning `Ok`. -/
theorem C3_counterexample :
    capacityPre.regions.length ≤ 120 ∧ capacityPre.reserved_regions.length ≤ 120 ∧
    SChain capacityPre.regions ∧ PosList capacityPre.regions ∧
    SChain capacityPre.reserved_regions ∧ PosList capacityPre.reserved_regions ∧
    (∀ p ∈ capacityPre.reserved_regions, ∃ r ∈ capacityPre.regions, within p r) ∧
    (capacityPre.check_regions).2 = .error "region buffer overflow after splitting" := by
  decide

/-- C3 (amended with the capacity bound `|R| + |P| ≤ cap(R)`): when every
reserved region is contained in an available region and both lists pass
the 120-entry gate, `check_regions` returns `Ok`, subtracts each reserved
region from its containing region by the four cases (the subtraction is
exact in bytes, keeps the list sorted and within the old coverage, and
leaves every reserved range uncovered), clears P and sets
`allocatable = true`; concretely, scenario S1 finalizes
`[0x1000, 0x2000)` minus `[0x1100, 0x1200)` into
`{[0x1000, 0x100), [0x1200, 0xE00)}` with P empty. -/
theorem C3_finalize_subtraction (s : MemoryBlock)
    (hchR : SChain s.regions) (hposR : PosList s.regions)
    (hchP : SChain s.reserved_regions) (hposP : PosList s.reserved_regions)
    (hcov : ∀ p ∈ s.reserved_regions, ∃ r ∈ s.regions, within p r)
    (hlenR : s.regions.length ≤ 120) (hlenP : s.reserved_regions.length ≤ 120)
    (hcap : s.regions.length + s.reserved_regions.length ≤ s.region_capacity) :
    (∃ t, s.check_regions = (t, .ok ()) ∧
      t.reserved_regions = [] ∧ t.allocatable = true ∧
      SChain t.regions ∧ PosList t.regions ∧
      sumSize t.regions + sumSize s.reserved_regions = sumSize s.regions ∧
      (∀ y ∈ t.regions, ∃ q ∈ s.regions, within y q) ∧
      (∀ p ∈ s.reserved_regions, ∀ y ∈ t.regions, sep p y)) ∧
    s1Pre.check_regions
      = ({ regions := [⟨0x1000, 0x100⟩, ⟨0x1200, 0xE00⟩]
           reserved_regions := []
           region_capacity := 128
           reserved_region_capacity := 128
           allocatable := true }, .ok ()) := by
  obtain ⟨t, m1, m2, m3, _, _, m6, m7, m8, m9, m10, _⟩ :=
    check_regions_master hchR hposR hchP hposP hcov hlenR hlenP hcap
  exact ⟨⟨t, m1, m2, m3, m6, m7, m8, m9, m10⟩, by decide⟩

theorem C3_finalize_subtraction_witness :
    (∃ t, s1Pre.check_regions = (t, .ok ()) ∧
      t.reserved_regions = [] ∧ t.allocatable = true ∧
      SChain t.regions ∧ PosList t.regions ∧
      sumSize t.regions + sumSize s1Pre.reserved_regions = sumSize s1Pre.regions ∧
      (∀ y ∈ t.regions, ∃ q ∈ s1Pre.regions, within y q) ∧
      (∀ p ∈ s1Pre.reserved_regions, ∀ y ∈ t.regions, sep p y)) ∧
    s1Pre.check_regions
      = ({ regions := [⟨0x1000, 0x100⟩, ⟨0x1200, 0xE00⟩]
           reserved_regions := []
           region_capacity := 128
           reserved_region_capacity := 128
           allocatable := true }, .ok ()) :=
  C3_finalize_subtraction s1Pre (by decide) (by decide) (by decide) (by decide) (by decide)
    (by decide) (by decide) (by decide)

/-- One public operation on the pair of allocator state and live
allocations: ingestion of a non-empty region separated from its target
list (pre-finalize), a successful finalize of a properly nested reserved
list within capacity, or an allocation-phase call as in `AllocStep`. -/
inductive PublicStep :
    MemoryBlock × List MemoryRegions → MemoryBlock × List MemoryRegions → Prop
  | add_region {s t : MemoryBlock} {live : List MemoryRegions} {region : MemoryRegions}
      (hflag : s.allocatable = false) (hpos : 0 < region.size)
      (hsep : ∀ r ∈ s.regions, sep region r)
      (h : s.add_region region = .ok t) :
      PublicStep (s, live) (t, live)
  | add_reserved {s t : MemoryBlock} {live : List MemoryRegions} {region : MemoryRegions}
      (hflag : s.allocatable = false) (hpos : 0 < region.size)
      (hsep : ∀ p ∈ s.reserved_regions, sep region p)
      (h : s.add_reserved_region region = .ok t) :
      PublicStep (s, live) (t, live)
  | check {s t : MemoryBlock} {live : List MemoryRegions}
      (hflag : s.allocatable = false)
      (hcov : ∀ p ∈ s.reserved_regions, ∃ r ∈ s.regions, within p r)
      (hcap : s.regions.length + s.reserved_regions.length ≤ s.region_capacity)
      (h : s.check_regions = (t, .ok ())) :
      PublicStep (s, live) (t, live)
  | alloc_ok {s t : MemoryBlock} {live : List MemoryRegions} {sz a addr : Nat}
      (hsz : 0 < sz) (ha : 0 < a)
      (h : s.allocate_region ⟨sz, a⟩ = some (t, some addr)) :
      PublicStep (s, live) (t, ⟨addr, sz⟩ :: live)
  | alloc_fail {s t : MemoryBlock} {live : List MemoryRegions} {sz a : Nat}
      (h : s.allocate_region ⟨sz, a⟩ = some (t, none)) :
      PublicStep (s, live) (t, live)
  | dealloc {s u : MemoryBlock} {live1 live2 : List MemoryRegions} {z : MemoryRegions}
      {a : Nat} (h : s.deallocate_region z.address ⟨z.size, a⟩ = some u) :
      PublicStep (s, live1 ++ z :: live2) (u, live1 ++ live2)

/-- Single-step preservation of the run-time invariant by every public
operation. -/
theorem publicStep_master {p q : MemoryBlock × List MemoryRegions}
    (hInv : AllocInv p.1 p.2) (hstep : PublicStep p q) : AllocInv q.1 q.2 := by
  cases hstep with
  | add_region hflag hpos hsep h =>
    rename_i s t live region
    have hlive : live = [] := hInv.liveEmpty hflag
    subst hlive
    unfold MemoryBlock.add_region MemoryBlock.add_region_internal at h
    rw [if_neg (by simp)] at h
    cases haddl : addRegionList s.regions s.region_capacity region with
    | error e => rw [haddl] at h; simp [Except.map] at h
    | ok l2 =>
      rw [haddl] at h
      simp only [Except.map, Except.ok.injEq] at h
      subst h
      obtain ⟨_, c1, c2, _, _, _, _, _⟩ :=
        addRegionList_master hInv.chainR hInv.posR hpos hsep haddl
      exact ⟨c1, c2, hInv.chainP, hInv.posP, hInv.capR, hInv.capP,
        fun hT => absurd (hflag ▸ hT : (false : Bool) = true) (by simp),
        by simp, List.Pairwise.nil, by simp, by simp, fun _ => rfl⟩
  | add_reserved hflag hpos hsep h =>
    rename_i s t live region
    have hlive : live = [] := hInv.liveEmpty hflag
    subst hlive
    unfold MemoryBlock.add_reserved_region MemoryBlock.add_region_internal at h
    rw [if_pos rfl] at h
    cases haddl : addRegionList s.reserved_regions s.reserved_region_capacity region with
    | error e => rw [haddl] at h; simp [Except.map] at h
    | ok l2 =>
      rw [haddl] at h
      simp only [Except.map, Except.ok.injEq] at h
      subst h
      obtain ⟨_, c1, c2, _, _, _, _, _⟩ :=
        addRegionList_master hInv.chainP hInv.posP hpos hsep haddl
      exact ⟨hInv.chainR, hInv.posR, c1, c2, hInv.capR, hInv.capP,
        fun hT => absurd (hflag ▸ hT : (false : Bool) = true) (by simp),
        by simp, List.Pairwise.nil, by simp, by simp, fun _ => rfl⟩
  | check hflag hcov hcap h =>
    rename_i s t live
    have hlive : live = [] := hInv.liveEmpty hflag
    subst hlive
    have hg : ¬ (120 < s.regions.length ∨ 120 < s.reserved_regions.length) := by
      intro hgt
      unfold MemoryBlock.check_regions at h
      rw [if_pos hgt] at h
      simp at h
    replace hInv : AllocInv s [] := hInv
    obtain ⟨t2, m1, m2, m3, m4, m5, m6, m7, _, _, _, _⟩ :=
      check_regions_master hInv.chainR hInv.posR hInv.chainP hInv.posP hcov
        (by omega) (by omega) hcap
    rw [h] at m1
    have ht2 : t2 = t := (Prod.mk.injEq _ _ _ _ ▸ m1).1.symm
    subst ht2
    refine ⟨m6, m7, ?_, ?_, ?_, ?_, ?_, by simp, List.Pairwise.nil, by simp, by simp,
      fun _ => rfl⟩
    · rw [m2]
      exact List.Pairwise.nil
    · intro r hr
      rw [m2] at hr
      simp at hr
    · rw [m4]
      exact hInv.capR
    · rw [m5]
      exact hInv.capP
    · intro _ y hy p hp
      rw [m2] at hp
      simp at hp
  | alloc_ok hsz ha h => exact (allocate_region_ok_master hInv hsz ha h).1
  | alloc_fail h => exact (allocate_region_fail_master hInv h).1
  | dealloc h => exact (deallocate_region_master hInv h).1

/-- Multi-step preservation of the run-time invariant by public
operations. -/
theorem publicSteps_master {p q : MemoryBlock × List MemoryRegions}
    (hInv : AllocInv p.1 p.2) (hsteps : Relation.ReflTransGen PublicStep p q) :
    AllocInv q.1 q.2 := by
  induction hsteps with
  | refl => exact hInv
  | tail hs hstep ih => exact publicStep_master ih hstep

/-- The run of `add_region` calls `{0,1}, {10,1}, {20,1}` followed by the
spanning region `{0,100}`. -/
def spanningAddRun : Except String MemoryBlock :=
  (MemoryBlock.init.add_region ⟨0, 1⟩).bind fun s1 =>
  (s1.add_region ⟨10, 1⟩).bind fun s2 =>
  (s2.add_region ⟨20, 1⟩).bind fun s3 =>
  s3.add_region ⟨0, 100⟩

/-- C2 counterexample to "this holds for every input region": adding a
region that spans existing entries by exact-address match grows the
matched entry over the next-plus-one entry, leaving two overlapping
regions in R. -/
theorem C2_counterexample :
    spanningAddRun = .ok
      { regions := [⟨0, 100⟩, ⟨20, 1⟩]
        reserved_regions := []
        region_capacity := 128
        reserved_region_capacity := 128
        allocatable := false } ∧
    ¬ List.Pairwise sep [(⟨0, 100⟩ : MemoryRegions), ⟨20, 1⟩] := by decide

/-- C2 (amended: ingested regions non-empty and separated from their
target list, finalize called on a properly nested reserved list within
capacity, successful allocations of positive size and positive alignment,
frees matching live allocations): after every sequence of public
operations from a state satisfying the run-time invariant, both R and P
are sorted in strictly ascending address order with non-empty, pairwise
disjoint (strictly separated) entries.  The size restriction on
allocations is needed: `allocate_region ⟨0, a⟩` on a finalized state
succeeds and records a zero-size entry in P. -/
theorem C2_sorted_disjointness (p q : MemoryBlock × List MemoryRegions)
    (hInv : AllocInv p.1 p.2)
    (hsteps : Relation.ReflTransGen PublicStep p q) :
    SChain q.1.regions ∧ PosList q.1.regions ∧
    SChain q.1.reserved_regions ∧ PosList q.1.reserved_regions := by
  obtain hq := publicSteps_master hInv hsteps
  exact ⟨hq.chainR, hq.posR, hq.chainP, hq.posP⟩

theorem C2_sorted_disjointness_witness :
    SChain finalizedSimple.regions ∧ PosList finalizedSimple.regions ∧
    SChain finalizedSimple.reserved_regions ∧ PosList finalizedSimple.reserved_regions :=
  C2_sorted_disjointness (MemoryBlock.init, []) (finalizedSimple, []) (by decide)
    (Relation.ReflTransGen.tail
      (Relation.ReflTransGen.single
        (@PublicStep.add_region MemoryBlock.init
          { regions := [⟨0x1000, 0x1000⟩]
            reserved_regions := []
            region_capacity := 128
            reserved_region_capacity := 128
            allocatable := false } [] ⟨0x1000, 0x1000⟩
          (by decide) (by decide) (by decide) (by decide)))
      (@PublicStep.check
        { regions := [⟨0x1000, 0x1000⟩]
          reserved_regions := []
          region_capacity := 128
          reserved_region_capacity := 128
          allocatable := false } finalizedSimple []
        (by decide) (by decide) (by decide) (by decide)))

/-- Two regions with equal components are equal. -/
theorem mkRegion_eq {a b : Nat} {n : MemoryRegions} (h1 : a = n.address) (h2 : b = n.size) :
    (⟨a, b⟩ : MemoryRegions) = n := by
  cases n
  subst h1
  subst h2
  rfl

/-- Merging a separated non-empty range into a well-formed list and then
removing exactly that range restores the list: the four merge shapes are
inverted exactly by the four removal cases. -/
theorem addMerge_remove_roundtrip {l : List MemoryRegions} {x : MemoryRegions}
    (hch : SChain l) (hpos : PosList l) (hx : 0 < x.size)
    (hsep : ∀ p ∈ l, sep x p) :
    removeReservedList (addAndMergeRegion l (lowerBound x.address l) x)
      x.address x.size = l := by
  obtain ⟨A, B, rfl, hk, hAlt, hAle, hBge⟩ := split_at_lowerBound hch hpos hx hsep
  rw [hk]
  have hApos : ∀ r ∈ A, 0 < r.size := fun r hr => hpos r (List.mem_append.mpr (Or.inl hr))
  have hBpos : ∀ r ∈ B, 0 < r.size :=
    fun r hr => hpos r (List.mem_append.mpr (Or.inr hr))
  have hBlt : ∀ r ∈ B, x.address < r.address := by
    intro r hr
    have h1 := hBge r hr
    unfold MemoryRegions.endAddr at h1
    omega
  have hchB : SChain B := by
    unfold SChain at hch ⊢
    exact (List.pairwise_append.mp hch).2.1
  have hBstrict_of : ∀ (n : MemoryRegions) (B0 : List MemoryRegions), B = n :: B0 →
      ¬ n.address = x.endAddr → ∀ r ∈ B, x.endAddr < r.address := by
    intro n B0 hB hn r hr
    subst hB
    rcases List.mem_cons.mp hr with rfl | hr
    · have := hBge r (List.mem_cons_self _ _)
      omega
    · have h1 := hBge n (List.mem_cons_self _ _)
      have h2 : n.endAddr < r.address := by
        unfold SChain at hchB
        exact (List.pairwise_cons.mp hchB).1 r hr
      unfold MemoryRegions.endAddr at h1 h2 ⊢
      omega
  rcases List.eq_nil_or_concat A with rfl | ⟨A0, p, rfl⟩
  · -- no left neighbour
    cases B with
    | nil =>
      rw [addMerge_shape_insert [] [] x (by simp) (by simp)]
      simpa using removeRes_shape_exact [] [] x x.address x.size (by simp) (by simp) rfl rfl
    | cons n B0 =>
      by_cases hn : n.address = x.endAddr
      · -- right merge, inverted by the prefix removal
        have heq := addMerge_shape_right_nil n B0 x hn
        simp only [List.nil_append, List.length_nil]
        rw [heq]
        have hB0 : ∀ r ∈ B0, x.address < r.address :=
          fun r hr => hBlt r (List.mem_cons_of_mem _ hr)
        have hnpos := hBpos n (List.mem_cons_self _ _)
        have hlt : x.size < (⟨x.address, n.endAddr - x.address⟩ : MemoryRegions).size := by
          dsimp only
          unfold MemoryRegions.endAddr at hn ⊢
          omega
        have hshape := removeRes_shape_front [] B0 ⟨x.address, n.endAddr - x.address⟩
          x.address x.size (by simp) hB0 rfl hlt
        simp only [List.nil_append] at hshape
        rw [show (⟨x.address + x.size, n.endAddr - x.address - x.size⟩ : MemoryRegions) = n
            from mkRegion_eq (by unfold MemoryRegions.endAddr at hn; omega)
              (by unfold MemoryRegions.endAddr at hn ⊢; omega)] at hshape
        exact hshape
      · have hBs := hBstrict_of n B0 rfl hn
        rw [addMerge_shape_insert [] (n :: B0) x (by simp) hBs]
        simpa using removeRes_shape_exact [] (n :: B0) x x.address x.size (by simp) hBlt
          rfl rfl
  · -- left part ends in `p`
    simp only [List.concat_eq_append] at hk hAlt hAle hApos hch hpos ⊢
    have hpmem : p ∈ A0 ++ [p] := by simp
    have hppos : 0 < p.size := hApos p hpmem
    have hple : p.endAddr ≤ x.address := hAle p hpmem
    have hA0lt : ∀ r ∈ A0, r.address < x.address :=
      fun r hr => hAlt r (List.mem_append.mpr (Or.inl hr))
    have hplt : p.address < x.address := hAlt p hpmem
    have hAlt2 : ∀ r ∈ A0 ++ [p], r.address < x.address := hAlt
    have hklen : (A0 ++ [p]).length = A0.length + 1 := by simp
    rw [hklen]
    by_cases hp : p.endAddr = x.address
    · cases B with
      | nil =>
        have heq := addMerge_shape_left A0 p [] x hp hx (by simp)
        rw [List.append_assoc, List.singleton_append]
        rw [heq]
        have hmend : (⟨p.address, x.endAddr - p.address⟩ : MemoryRegions).endAddr
            = x.endAddr := by
          unfold MemoryRegions.endAddr
          unfold MemoryRegions.endAddr at hp
          dsimp only
          omega
        have hshape := removeRes_shape_suffix A0 [] ⟨p.address, x.endAddr - p.address⟩
          x.address x.size hA0lt (by simp) (by dsimp only; exact hplt) (by rw [hmend]; rfl)
        rw [show (⟨p.address, x.address - p.address⟩ : MemoryRegions) = p
            from mkRegion_eq rfl (by unfold MemoryRegions.endAddr at hp; omega)] at hshape
        exact hshape
      | cons n B0 =>
        have hnpos := hBpos n (List.mem_cons_self _ _)
        have hB0 : ∀ r ∈ B0, x.address < r.address :=
          fun r hr => hBlt r (List.mem_cons_of_mem _ hr)
        by_cases hn : n.address = x.endAddr
        · -- both sides merge, inverted by the interior removal
          have heq := addMerge_shape_both A0 p n B0 x hp hn
          rw [List.append_assoc, List.singleton_append]
          rw [heq]
          have hmend : (⟨p.address, n.endAddr - p.address⟩ : MemoryRegions).endAddr
              = n.endAddr := by
            unfold MemoryRegions.endAddr
            unfold MemoryRegions.endAddr at hp hn
            dsimp only
            omega
          have hcov2 : x.address + x.size ≤ (⟨p.address, n.endAddr - p.address⟩ :
              MemoryRegions).endAddr := by
            rw [hmend]
            unfold MemoryRegions.endAddr at hn ⊢
            omega
          have hne2 : ¬ x.address + x.size = (⟨p.address, n.endAddr - p.address⟩ :
              MemoryRegions).endAddr := by
            rw [hmend]
            unfold MemoryRegions.endAddr at hn ⊢
            omega
          have hshape := removeRes_shape_interior A0 B0 ⟨p.address, n.endAddr - p.address⟩
            x.address x.size hA0lt hB0 (by dsimp only; exact hplt) hcov2 hne2
          rw [hmend] at hshape
          rw [show (⟨p.address, x.address - p.address⟩ : MemoryRegions) = p
              from mkRegion_eq rfl (by unfold MemoryRegions.endAddr at hp; omega),
            show (⟨x.address + x.size, n.endAddr - (x.address + x.size)⟩ : MemoryRegions) = n
              from mkRegion_eq (by unfold MemoryRegions.endAddr at hn; omega)
                (by unfold MemoryRegions.endAddr at hn ⊢; omega)] at hshape
          exact hshape
        · -- left merge only, inverted by the suffix removal
          have hBs := hBstrict_of n B0 rfl hn
          have heq := addMerge_shape_left A0 p (n :: B0) x hp hx hBs
          rw [List.append_assoc, List.singleton_append]
          rw [heq]
          have hmend : (⟨p.address, x.endAddr - p.address⟩ : MemoryRegions).endAddr
              = x.endAddr := by
            unfold MemoryRegions.endAddr
            unfold MemoryRegions.endAddr at hp
            dsimp only
            omega
          have hshape := removeRes_shape_suffix A0 (n :: B0)
            ⟨p.address, x.endAddr - p.address⟩ x.address x.size hA0lt hBlt
            (by dsimp only; exact hplt) (by rw [hmend]; rfl)
          rw [show (⟨p.address, x.address - p.address⟩ : MemoryRegions) = p
              from mkRegion_eq rfl (by unfold MemoryRegions.endAddr at hp; omega)] at hshape
          exact hshape
    · -- `p` is strictly below, no left merge
      have hpstrict : p.endAddr < x.address := by omega
      have hA0p : ∀ r ∈ A0, r.endAddr < p.address := by
        intro r hr
        unfold SChain at hch
        have h1 := (List.pairwise_append.mp hch).1
        have h2 := (List.pairwise_append.mp h1).2.2
        exact h2 r hr p (List.mem_cons_self _ _)
      have hAstrict : ∀ r ∈ A0 ++ [p], r.endAddr < x.address := by
        intro r hr
        rcases List.mem_append.mp hr with hr | hr
        · have h1 := hA0p r hr
          unfold MemoryRegions.endAddr at h1 ⊢
          omega
        · rcases List.mem_cons.mp hr with rfl | hr
          · exact hpstrict
          · simp at hr
      cases B with
      | nil =>
        have heq := addMerge_shape_insert (A0 ++ [p]) [] x hAstrict (by simp)
        rw [hklen] at heq
        rw [heq]
        exact removeRes_shape_exact (A0 ++ [p]) [] x x.address x.size hAlt2 (by simp) rfl rfl
      | cons n B0 =>
        have hnpos := hBpos n (List.mem_cons_self _ _)
        have hB0 : ∀ r ∈ B0, x.address < r.address :=
          fun r hr => hBlt r (List.mem_cons_of_mem _ hr)
        by_cases hn : n.address = x.endAddr
        · -- right merge only, inverted by the prefix removal
          have heq := addMerge_shape_right_cons A0 p n B0 x hpstrict hn
          rw [List.append_assoc, List.singleton_append]
          rw [heq]
          have hlt : x.size < (⟨x.address, n.endAddr - x.address⟩ : MemoryRegions).size := by
            dsimp only
            unfold MemoryRegions.endAddr at hn ⊢
            omega
          have hshape := removeRes_shape_front (A0 ++ [p]) B0
            ⟨x.address, n.endAddr - x.address⟩ x.address x.size hAlt2 hB0 rfl hlt
          simp only [List.append_assoc, List.singleton_append] at hshape
          rw [show (⟨x.address + x.size, n.endAddr - x.address - x.size⟩ : MemoryRegions) = n
              from mkRegion_eq (by unfold MemoryRegions.endAddr at hn; omega)
                (by unfold MemoryRegions.endAddr at hn ⊢; omega)] at hshape
          exact hshape
        · -- plain insertion, inverted by the exact removal
          have hBs := hBstrict_of n B0 rfl hn
          have heq := addMerge_shape_insert (A0 ++ [p]) (n :: B0) x hAstrict hBs
          rw [hklen] at heq
          rw [heq]
          exact removeRes_shape_exact (A0 ++ [p]) (n :: B0) x x.address x.size hAlt2
            hBlt rfl rfl

/-- Carving a request out of one region of a well-formed list and then
insert-merging the carve back restores the list: the carve shapes (head
split, tail shrink, both, whole region) are inverted exactly by the four
merge shapes. -/
theorem carve_addback_roundtrip {R1 R2 : List MemoryRegions} {r : MemoryRegions}
    {sz al : Nat} {pieces : List MemoryRegions} {addr : Nat}
    (hch : SChain (R1 ++ r :: R2)) (hpos : PosList (R1 ++ r :: R2))
    (hsz : 0 < sz) (hal : 0 < al)
    (hcarve : carveRegion sz al r = some (pieces, addr)) :
    addAndMergeRegion (R1 ++ (pieces ++ R2)) (lowerBound addr (R1 ++ (pieces ++ R2)))
      ⟨addr, sz⟩ = R1 ++ r :: R2 := by
  obtain ⟨haddr, hle, hpieces⟩ := carveRegion_some hcarve
  have hge : r.address ≤ addr := haddr ▸ le_nextMultipleOf _ hal
  obtain ⟨hchR1, hchR2, hR1r, hrR2, hcross⟩ := (schain_append_cons _ _ _).mp hch
  have hrpos : 0 < r.size :=
    hpos r (List.mem_append.mpr (Or.inr (List.mem_cons_self _ _)))
  have hR1pos : ∀ a ∈ R1, 0 < a.size :=
    fun a ha => hpos a (List.mem_append.mpr (Or.inl ha))
  have hR1addr : ∀ a ∈ R1, a.address < addr := by
    intro a ha
    have h1 := hR1r a ha
    have h2 := hR1pos a ha
    unfold MemoryRegions.endAddr at h1
    omega
  have hR1end : ∀ a ∈ R1, a.endAddr < addr ∨ a.endAddr < r.address := by
    intro a ha
    exact Or.inr (hR1r a ha)
  have hR2gt : ∀ b ∈ R2, addr + sz < b.address := by
    intro b hb
    have h1 := hrR2 b hb
    unfold MemoryRegions.endAddr at h1 hle
    omega
  subst hpieces
  by_cases hhead : r.address % al ≠ 0
  · have hralt : r.address < addr := haddr ▸ lt_nextMultipleOf hal hhead
    rw [if_pos hhead]
    by_cases htail : addr + sz ≠ r.endAddr
    · -- head split and shrunk tail
      rw [if_pos htail]
      simp only [List.singleton_append, List.cons_append, List.nil_append]
      have hlow : lowerBound addr (R1 ++ ⟨r.address, addr - r.address⟩ ::
          ⟨addr + sz, r.endAddr - (addr + sz)⟩ :: R2) = R1.length + 1 := by
        have h := lowerBound_append_eq addr (R1 ++ [⟨r.address, addr - r.address⟩])
          (⟨addr + sz, r.endAddr - (addr + sz)⟩ :: R2)
          (by intro q hq
              rcases List.mem_append.mp hq with hq | hq
              · exact hR1addr q hq
              · rcases List.mem_cons.mp hq with rfl | hq
                · exact hralt
                · simp at hq)
          (by intro q hq
              rcases List.mem_cons.mp hq with rfl | hq
              · dsimp only
                omega
              · have := hR2gt q hq
                omega)
        rw [List.append_assoc, List.singleton_append] at h
        simpa using h
      rw [hlow]
      have heq := addMerge_shape_both R1 ⟨r.address, addr - r.address⟩
        ⟨addr + sz, r.endAddr - (addr + sz)⟩ R2 ⟨addr, sz⟩
        (by unfold MemoryRegions.endAddr
            dsimp only
            omega)
        (by unfold MemoryRegions.endAddr
            dsimp only)
      rw [show ((⟨addr + sz, r.endAddr - (addr + sz)⟩ : MemoryRegions)).endAddr
          = r.endAddr from by
            unfold MemoryRegions.endAddr
            unfold MemoryRegions.endAddr at hle
            dsimp only
            omega] at heq
      rw [show (⟨(⟨r.address, addr - r.address⟩ : MemoryRegions).address,
            r.endAddr - (⟨r.address, addr - r.address⟩ : MemoryRegions).address⟩ :
            MemoryRegions) = r from mkRegion_eq (by dsimp only)
          (by unfold MemoryRegions.endAddr; dsimp only; omega)] at heq
      exact heq
    · -- head split only, the carve reaches the end of the region
      rw [if_neg htail]
      push_neg at htail
      simp only [List.singleton_append, List.cons_append, List.nil_append,
        List.append_nil]
      have hlow : lowerBound addr (R1 ++ ⟨r.address, addr - r.address⟩ :: R2)
          = R1.length + 1 := by
        have h := lowerBound_append_eq addr (R1 ++ [⟨r.address, addr - r.address⟩]) R2
          (by intro q hq
              rcases List.mem_append.mp hq with hq | hq
              · exact hR1addr q hq
              · rcases List.mem_cons.mp hq with rfl | hq
                · exact hralt
                · simp at hq)
          (by intro q hq
              have := hR2gt q hq
              omega)
        rw [List.append_assoc, List.singleton_append] at h
        simpa using h
      rw [hlow]
      have heq := addMerge_shape_left R1 ⟨r.address, addr - r.address⟩ R2 ⟨addr, sz⟩
        (by unfold MemoryRegions.endAddr
            dsimp only
            omega)
        hsz
        (by intro b hb
            have := hR2gt b hb
            unfold MemoryRegions.endAddr
            dsimp only
            omega)
      rw [show ((⟨addr, sz⟩ : MemoryRegions)).endAddr = addr + sz from rfl] at heq
      rw [show (⟨(⟨r.address, addr - r.address⟩ : MemoryRegions).address,
            addr + sz - (⟨r.address, addr - r.address⟩ : MemoryRegions).address⟩ :
            MemoryRegions) = r from mkRegion_eq (by dsimp only)
          (by unfold MemoryRegions.endAddr at htail; dsimp only; omega)] at heq
      exact heq
  · -- no head split: the carve starts at the region base
    push_neg at hhead
    have haddreq : addr = r.address := haddr ▸ nextMultipleOf_eq_of_mod hal hhead
    rw [if_neg (by omega)]
    by_cases htail : addr + sz ≠ r.endAddr
    · -- shrunk tail only
      rw [if_pos htail]
      simp only [List.singleton_append, List.cons_append, List.nil_append]
      have hlow : lowerBound addr (R1 ++ ⟨addr + sz, r.endAddr - (addr + sz)⟩ :: R2)
          = R1.length := by
        apply lowerBound_append_eq addr R1 _ hR1addr
        intro q hq
        rcases List.mem_cons.mp hq with rfl | hq
        · dsimp only
          omega
        · have := hR2gt q hq
          omega
      rw [hlow]
      rcases List.eq_nil_or_concat R1 with rfl | ⟨A1, q, rfl⟩
      · have heq := addMerge_shape_right_nil ⟨addr + sz, r.endAddr - (addr + sz)⟩ R2
          ⟨addr, sz⟩ (by unfold MemoryRegions.endAddr; dsimp only)
        rw [show (([] : List MemoryRegions).length) = 0 from rfl]
        simp only [List.nil_append] at heq ⊢
        rw [heq]
        rw [show (⟨(⟨addr, sz⟩ : MemoryRegions).address,
              (⟨addr + sz, r.endAddr - (addr + sz)⟩ : MemoryRegions).endAddr
                - (⟨addr, sz⟩ : MemoryRegions).address⟩ : MemoryRegions) = r from
            mkRegion_eq (by dsimp only; omega)
              (by unfold MemoryRegions.endAddr
                  unfold MemoryRegions.endAddr at hle
                  dsimp only
                  omega)]
      · simp only [List.concat_eq_append] at hR1r hchR1 hcross hR1addr hR1pos ⊢
        have hq : q.endAddr < (⟨addr, sz⟩ : MemoryRegions).address := by
          have := hR1r q (by simp)
          dsimp only
          omega
        have heq := addMerge_shape_right_cons A1 q
          ⟨addr + sz, r.endAddr - (addr + sz)⟩ R2 ⟨addr, sz⟩ hq
          (by unfold MemoryRegions.endAddr; dsimp only)
        rw [show (A1 ++ [q]).length = A1.length + 1 from by simp]
        rw [List.append_assoc, List.singleton_append]
        rw [heq]
        rw [show (⟨(⟨addr, sz⟩ : MemoryRegions).address,
              (⟨addr + sz, r.endAddr - (addr + sz)⟩ : MemoryRegions).endAddr
                - (⟨addr, sz⟩ : MemoryRegions).address⟩ : MemoryRegions) = r from
            mkRegion_eq (by dsimp only; omega)
              (by unfold MemoryRegions.endAddr
                  unfold MemoryRegions.endAddr at hle
                  dsimp only
                  omega)]
        simp [List.append_assoc]
    · -- the whole region is consumed
      rw [if_neg htail]
      push_neg at htail
      simp only [List.nil_append]
      have hlow : lowerBound addr (R1 ++ R2) = R1.length := by
        apply lowerBound_append_eq addr R1 _ hR1addr
        intro q hq
        have := hR2gt q hq
        omega
      rw [hlow]
      have heq := addMerge_shape_insert R1 R2 ⟨addr, sz⟩
        (by intro a ha
            have := hR1r a ha
            dsimp only
            omega)
        (by intro b hb
            have := hR2gt b hb
            unfold MemoryRegions.endAddr
            dsimp only
            omega)
      rw [heq]
      rw [show (⟨addr, sz⟩ : MemoryRegions) = r from
          mkRegion_eq (by omega)
            (by unfold MemoryRegions.endAddr at htail; omega)]

/-- C4 (amended with headroom bounds that keep both calls clear of the
migration path): on a well-formed finalized state, a successful
`allocate_region` followed immediately by `deallocate_region` of the same
address and layout restores the allocator state exactly — the carve is
removed from the reserved list and the alignment split of the available
region is re-coalesced. -/
theorem C4_roundtrip (s t u : MemoryBlock) (sz a addr : Nat)
    (hWf : s.Wf) (hfin : s.allocatable = true) (hsz : 0 < sz) (ha : 0 < a)
    (hnr : s.regions.length + 11 ≤ s.region_capacity)
    (hnp : s.reserved_regions.length + 11 ≤ s.reserved_region_capacity)
    (h1 : s.allocate_region ⟨sz, a⟩ = some (t, some addr))
    (h2 : t.deallocate_region addr ⟨sz, a⟩ = some u) :
    u = s := by
  have hens : s.ensure_overflow_headroom = some s := by
    unfold MemoryBlock.ensure_overflow_headroom
    rw [if_neg (by omega)]
  unfold MemoryBlock.allocate_region at h1
  rw [if_neg (by rw [hfin]; simp), hens] at h1
  simp only [Option.some.injEq] at h1
  obtain ⟨rs, hgo, ht⟩ := allocate_region_internal_eq_some h1
  obtain ⟨R1, r, R2, pieces, hsplit, hres, hcarve, _⟩ := allocGo_shape hgo
  obtain ⟨haddr, hle, _⟩ := carveRegion_some hcarve
  have hge : r.address ≤ addr := haddr ▸ le_nextMultipleOf _ ha
  have hrmem : r ∈ s.regions := by rw [hsplit]; simp
  have hwc : within (⟨addr, sz⟩ : MemoryRegions) r := by
    unfold within MemoryRegions.endAddr
    unfold MemoryRegions.endAddr at hle
    dsimp only
    omega
  have hsepP : ∀ p ∈ s.reserved_regions, sep (⟨addr, sz⟩ : MemoryRegions) p := by
    intro p hp
    exact sep_comm (sep_of_within hwc (sep_comm (hWf.sepRP r hrmem p hp)))
  obtain ⟨_, _, _, hlenR, _⟩ := allocGo_master hsz ha hWf.chainR hWf.posR hgo
  obtain ⟨_, _, _, hlenP, _, _, _⟩ :=
    addMerge_master hWf.chainP hWf.posP
      (show 0 < (⟨addr, sz⟩ : MemoryRegions).size from hsz) hsepP
  dsimp only at hlenP
  have hPrt := addMerge_remove_roundtrip hWf.chainP hWf.posP
    (show 0 < (⟨addr, sz⟩ : MemoryRegions).size from hsz) hsepP
  dsimp only at hPrt
  have hTreg : t.regions = rs := by rw [ht]; rfl
  have hTres : t.reserved_regions
      = addAndMergeRegion s.reserved_regions (lowerBound addr s.reserved_regions)
          ⟨addr, sz⟩ := by rw [ht]; rfl
  have hTcapR : t.region_capacity = s.region_capacity := by rw [ht]; rfl
  have hTcapP : t.reserved_region_capacity = s.reserved_region_capacity := by rw [ht]; rfl
  have hTflag : t.allocatable = s.allocatable := by rw [ht]; rfl
  have hensT : t.ensure_overflow_headroom = some t := by
    unfold MemoryBlock.ensure_overflow_headroom
    rw [if_neg ?hc]
    case hc =>
      rw [hTcapR, hTcapP, hTreg, hTres]
      omega
  have hRrt : addAndMergeRegion rs (lowerBound addr rs) ⟨addr, sz⟩ = s.regions := by
    rw [hres, hsplit]
    exact carve_addback_roundtrip (hsplit ▸ hWf.chainR) (hsplit ▸ hWf.posR) hsz ha hcarve
  have hrem : t.remove_reserved_alloc_record addr sz
      = some { t with reserved_regions := s.reserved_regions } := by
    unfold MemoryBlock.remove_reserved_alloc_record
    rw [hensT]
    dsimp only
    rw [if_neg (by omega)]
    rw [hTres, hPrt]
  unfold MemoryBlock.deallocate_region at h2
  rw [if_neg (by rw [hTflag, hfin]; simp)] at h2
  dsimp only at h2
  rw [if_neg (by omega), hensT] at h2
  dsimp only at h2
  rw [hrem] at h2
  dsimp only at h2
  unfold MemoryBlock.add_free_region_merge at h2
  dsimp only at h2
  simp only [Option.some.injEq] at h2
  rw [← h2, hTreg, hRrt, hTcapR, hTcapP, hTflag, hfin]
  have hflag2 : s.allocatable = true := hfin
  rw [← hflag2]

/-- The state `allocate_region ⟨0x10, 0x10⟩` produces from `triggerState`:
the migration carve sits merged in the reserved list together with the
allocation record. -/
def c4Mid : MemoryBlock :=
  { regions := [⟨0x1410, 0x1BF0⟩, ⟨0x100000, 0x100⟩, ⟨0x101000, 0x100⟩, ⟨0x102000, 0x100⟩,
      ⟨0x103000, 0x100⟩, ⟨0x104000, 0x100⟩, ⟨0x105000, 0x100⟩]
    reserved_regions := [⟨0x1000, 0x410⟩]
    region_capacity := 32
    reserved_region_capacity := 32
    allocatable := true }

/-- The state after freeing that allocation again: the migration carve
stays in the reserved list, so neither list returns to its
pre-allocation contents. -/
def c4End : MemoryBlock :=
  { regions := [⟨0x1400, 0x1C00⟩, ⟨0x100000, 0x100⟩, ⟨0x101000, 0x100⟩, ⟨0x102000, 0x100⟩,
      ⟨0x103000, 0x100⟩, ⟨0x104000, 0x100⟩, ⟨0x105000, 0x100⟩]
    reserved_regions := [⟨0x1000, 0x400⟩]
    region_capacity := 32
    reserved_region_capacity := 32
    allocatable := true }

/-- C4 counterexample to the universal roundtrip: when the allocate call
triggers a migration, the immediate matching deallocate does not restore
R or P — the new-store carve remains recorded. -/
theorem C4_counterexample :
    triggerState.Wf ∧ triggerState.allocatable = true ∧
    triggerState.allocate_region ⟨0x10, 0x10⟩ = some (c4Mid, some 0x1400) ∧
    c4Mid.deallocate_region 0x1400 ⟨0x10, 0x10⟩ = some c4End ∧
    c4End.regions ≠ triggerState.regions ∧
    c4End.reserved_regions ≠ triggerState.reserved_regions := by decide

/-- The mid state of the witness roundtrip on the finalized
`[0x1000, 0x2000)` state. -/
def c4WitMid : MemoryBlock :=
  { regions := [⟨0x1100, 0xF00⟩]
    reserved_regions := [⟨0x1000, 0x100⟩]
    region_capacity := 128
    reserved_region_capacity := 128
    allocatable := true }

/-- The end state of the witness roundtrip (it equals `finalizedSimple`,
which is what the roundtrip theorem proves). -/
def c4WitEnd : MemoryBlock :=
  { regions := [⟨0x1000, 0x1000⟩]
    reserved_regions := []
    region_capacity := 128
    reserved_region_capacity := 128
    allocatable := true }

theorem C4_roundtrip_witness :
    finalizedSimple.allocate_region ⟨0x100, 0x100⟩ = some (c4WitMid, some 0x1000) ∧
    c4WitMid.deallocate_region 0x1000 ⟨0x100, 0x100⟩ = some c4WitEnd ∧
    c4WitEnd = finalizedSimple :=
  ⟨by decide, by decide,
   C4_roundtrip finalizedSimple c4WitMid c4WitEnd 0x100 0x100 0x1000 (by decide) (by decide)
     (by decide) (by decide) (by decide) (by decide) (by decide) (by decide)⟩



/-! ### C5: buddy accounting -/

/-- The sum the spec's accounting invariant asserts: over every live buddy
allocation, `next_power_of_two(max(request_size, MIN_BLOCK))`. -/
def buddyLiveSum (minB : Nat) (live : List Layout) : Nat :=
  (live.map (fun l => nextPow2 (max l.size minB))).sum

theorem buddyLiveSum_append (minB : Nat) (l1 l2 : List Layout) :
    buddyLiveSum minB (l1 ++ l2) = buddyLiveSum minB l1 + buddyLiveSum minB l2 := by
  simp [buddyLiveSum]

theorem buddyLiveSum_cons (minB : Nat) (l : Layout) (ls : List Layout) :
    buddyLiveSum minB (l :: ls) = nextPow2 (max l.size minB) + buddyLiveSum minB ls := by
  simp [buddyLiveSum]

/-- `BuddyAllocator::alloc`'s effect on the `allocated` counter: the
successful exit adds `required_size.next_power_of_two()`, where
`required_size = max(max(layout.size, layout.align), MINIMUM_ALLOCATABLE_BYTES)`
— note the `align` inside, which `dealloc` will not see. -/
theorem buddy_alloc_allocated {minB maxB : Nat} {s : BuddyAllocator}
    {layout : Layout} {heap : Option (Option Nat)} {s' : BuddyAllocator} {ptr : Nat}
    (h : Buddy.alloc minB maxB s layout heap = .ok (s', ptr)) :
    s'.allocated = s.allocated + nextPow2 (max (max layout.size layout.align) minB) := by
  simp only [Buddy.alloc] at h
  split at h
  · simp at h
  · rename_i s1 free1 heq
    split at h
    · simp at h
    · split at h
      · rename_i ptr0 rest hget
        simp only [Except.ok.injEq, Prod.mk.injEq] at h
        obtain ⟨h1, h2⟩ := h
        subst h1
        dsimp only
        have hs1 : s1.allocated = s.allocated := by
          split at heq
          · simp at heq
          · simp at heq
          · simp only [Except.ok.injEq, Prod.mk.injEq] at heq
            obtain ⟨he1, he2⟩ := heq
            subst he1
            rfl
          · simp only [Except.ok.injEq, Prod.mk.injEq] at heq
            obtain ⟨he1, he2⟩ := heq
            subst he1
            rfl
        omega
      · simp at h

/-- One step of the C5 accounting game.  An `alloc` (with any refill
environment) appends its layout to the live list; the amended claim
restricts it to layouts with `align ≤ max(size, MINIMUM_ALLOCATABLE_BYTES)`
— without that restriction the claim fails, see `C5_counterexample`.  A
`dealloc` removes one live allocation and, as the claim requires, passes
the same layout the allocation used. -/
inductive BuddyStep (minB maxB : Nat) :
    BuddyAllocator × List Layout → BuddyAllocator × List Layout → Prop
  | alloc {s s' : BuddyAllocator} {live : List Layout} {layout : Layout}
      {heap : Option (Option Nat)} {ptr : Nat}
      (halign : layout.align ≤ max layout.size minB)
      (h : Buddy.alloc minB maxB s layout heap = .ok (s', ptr)) :
      BuddyStep minB maxB (s, live) (s', layout :: live)
  | dealloc {s : BuddyAllocator} {live1 live2 : List Layout} {layout : Layout} {ptr : Nat} :
      BuddyStep minB maxB (s, live1 ++ layout :: live2)
        (Buddy.dealloc minB maxB s ptr layout, live1 ++ live2)

/-- Single-step preservation of the buddy accounting invariant. -/
theorem buddyStep_master {minB maxB : Nat} {p q : BuddyAllocator × List Layout}
    (hstep : BuddyStep minB maxB p q)
    (hinv : p.1.allocated = buddyLiveSum minB p.2) :
    q.1.allocated = buddyLiveSum minB q.2 := by
  cases hstep with
  | alloc halign h =>
    rename_i s s' live layout heap ptr
    dsimp only at hinv ⊢
    have h1 := buddy_alloc_allocated h
    have h2 : max (max layout.size layout.align) minB = max layout.size minB := by omega
    rw [buddyLiveSum_cons, h1, h2, hinv]
    omega
  | dealloc =>
    rename_i s live1 live2 layout ptr
    dsimp only at hinv ⊢
    have h1 : (Buddy.dealloc minB maxB s ptr layout).allocated
        = s.allocated - nextPow2 (max layout.size minB) := rfl
    rw [h1, hinv, buddyLiveSum_append, buddyLiveSum_cons, buddyLiveSum_append]
    omega

/-- Multi-step preservation of the buddy accounting invariant. -/
theorem buddySteps_master {minB maxB : Nat} {p q : BuddyAllocator × List Layout}
    (hsteps : Relation.ReflTransGen (BuddyStep minB maxB) p q)
    (hinv : p.1.allocated = buddyLiveSum minB p.2) :
    q.1.allocated = buddyLiveSum minB q.2 := by
  induction hsteps with
  | refl => exact hinv
  | tail hs hstep ih => exact buddyStep_master hstep ih

/-- C5 counterexample: on the `MIN = 16`, `MAX = 128` buddy heap `[0, 256)`,
`alloc(Layout(size 8, align 64))` adds
`next_power_of_two(max(max(8, 64), 16)) = 64` to `allocated`, but the
matching `dealloc` subtracts only `next_power_of_two(max(8, 16)) = 16`;
with no live allocations left, `allocated` is `48`, not the `0` the claim's
accounting equation demands.  The layout's size and align are both at most
`MAX_ALLOCATABLE_BYTES`, as the claim requires. -/
theorem C5_counterexample :
    (let s0 := Buddy.set_memory 16 128 (Buddy.new 16 128) 0 256
     (Buddy.alloc 16 128 s0 ⟨8, 64⟩ none).map fun p =>
       (Buddy.dealloc 16 128 p.1 p.2 ⟨8, 64⟩).allocated)
    = .ok 48 ∧ buddyLiveSum 16 [] = 0 := by
  decide

/-- C5 (amended): buddy accounting under the alignment restriction
`align ≤ max(size, MINIMUM_ALLOCATABLE_BYTES)`.  After any sequence of
`BuddyAllocator::alloc` calls so restricted and `BuddyAllocator::dealloc`
calls that each free a live allocation with its original layout, the
`allocated` counter equals the sum over the live allocations of
`next_power_of_two(max(request_size, MIN_BLOCK))`; in particular an
alloc/dealloc pair returns `allocated` to its prior value.  Without the
restriction the claim is false (`C5_counterexample`): `alloc` rounds up
`max(max(size, align), MIN_BLOCK)` while `dealloc` ignores `align`. -/
theorem C5_buddy_accounting (minB maxB : Nat) (p q : BuddyAllocator × List Layout)
    (hinv : p.1.allocated = buddyLiveSum minB p.2)
    (hsteps : Relation.ReflTransGen (BuddyStep minB maxB) p q) :
    q.1.allocated = buddyLiveSum minB q.2 :=
  buddySteps_master hsteps hinv

/-- The buddy state for heap `[0, 256)` with `MIN = 16`, `MAX = 128`, no
allocations yet. -/
def c5Start : BuddyAllocator :=
  { free_list := [[], [], [], [0, 128]], total_size := 256, allocated := 0 }

/-- `c5Start` after `alloc ⟨32, 32⟩` (which returns address `0`). -/
def c5Mid : BuddyAllocator :=
  { free_list := [[], [32], [64], [128]], total_size := 256, allocated := 32 }

theorem C5_buddy_accounting_witness :
    (Buddy.dealloc 16 128 c5Mid 0 ⟨32, 32⟩).allocated = buddyLiveSum 16 [] :=
  C5_buddy_accounting 16 128 (c5Start, []) (Buddy.dealloc 16 128 c5Mid 0 ⟨32, 32⟩, [])
    (by decide)
    (Relation.ReflTransGen.tail
      (Relation.ReflTransGen.single
        (@BuddyStep.alloc 16 128 c5Start c5Mid [] ⟨32, 32⟩ none 0 (by decide) (by decide)))
      (@BuddyStep.dealloc 16 128 c5Mid [] [] ⟨32, 32⟩ 0))


/-! ### C6: buddy merge completeness -/

/-- Doubling both operands doubles a xor. -/
theorem xor_double (a b : Nat) : (2 * a) ^^^ (2 * b) = 2 * (a ^^^ b) := by
  apply Nat.eq_of_testBit_eq
  intro i
  cases i with
  | zero =>
    simp [Nat.testBit_xor, Nat.testBit_zero, Nat.mul_mod_right]
  | succ i =>
    have h1 : 2 * a / 2 = a := by omega
    have h2 : 2 * b / 2 = b := by omega
    have h3 : 2 * (a ^^^ b) / 2 = a ^^^ b := by omega
    rw [Nat.testBit_xor, Nat.testBit_add_one, Nat.testBit_add_one, Nat.testBit_add_one,
      h1, h2, h3, Nat.testBit_xor]

/-- Xor with `1` on an even number sets the low bit. -/
theorem xor_double_one (a : Nat) : (2 * a) ^^^ 1 = 2 * a + 1 := by
  apply Nat.eq_of_testBit_eq
  intro i
  cases i with
  | zero =>
    simp [Nat.testBit_xor, Nat.testBit_zero]
  | succ i =>
    have h1 : 2 * a / 2 = a := by omega
    have h2 : (2 * a + 1) / 2 = a := by omega
    have h3 : (1 : Nat) / 2 = 0 := by omega
    rw [Nat.testBit_xor, Nat.testBit_add_one, Nat.testBit_add_one, Nat.testBit_add_one,
      h1, h2, h3]
    simp [Nat.testBit_zero]

/-- On a multiple of `2^(k+1)`, xor with `2^k` is addition of `2^k`. -/
theorem two_pow_mul_xor (k : Nat) :
    ∀ c : Nat, (2 ^ (k + 1) * c) ^^^ 2 ^ k = 2 ^ (k + 1) * c + 2 ^ k := by
  induction k with
  | zero =>
    intro c
    have e1 : 2 ^ (0 + 1) * c = 2 * c := by ring
    have e2 : (2 : Nat) ^ 0 = 1 := rfl
    rw [e1, e2, xor_double_one]
  | succ k ih =>
    intro c
    obtain ⟨x, hx⟩ : ∃ x, x = 2 ^ (k + 1) * c := ⟨_, rfl⟩
    have e1 : 2 ^ (k + 1 + 1) * c = 2 * x := by rw [hx]; ring
    have e2 : (2 : Nat) ^ (k + 1) = 2 * 2 ^ k := by ring
    rw [e1, e2, xor_double, hx, ih c]
    ring

/-- On a multiple of `2^(k+1)`, xor with `2^k` adds `2^k` (the address of
the right buddy). -/
theorem two_pow_succ_dvd_xor {k q : Nat} (h : 2 ^ (k + 1) ∣ q) :
    q ^^^ 2 ^ k = q + 2 ^ k := by
  obtain ⟨c, rfl⟩ := h
  exact two_pow_mul_xor k c

/-- On a `2^k`-aligned number that is not `2^(k+1)`-aligned, xor with `2^k`
subtracts `2^k` (the address of the left buddy). -/
theorem two_pow_dvd_xor_sub {k q : Nat} (h1 : 2 ^ k ∣ q) (h2 : ¬ 2 ^ (k + 1) ∣ q) :
    q ^^^ 2 ^ k = q - 2 ^ k := by
  obtain ⟨m, rfl⟩ := h1
  rcases Nat.mod_two_eq_zero_or_one m with h | h
  · exfalso
    apply h2
    refine ⟨m / 2, ?_⟩
    have hm : m = 2 * (m / 2) := by omega
    calc 2 ^ k * m = 2 ^ k * (2 * (m / 2)) := by rw [← hm]
      _ = 2 ^ (k + 1) * (m / 2) := by ring
  · obtain ⟨c, hc⟩ : ∃ c, m = 2 * c + 1 := ⟨m / 2, by omega⟩
    subst hc
    have e1 : 2 ^ k * (2 * c + 1) = 2 ^ (k + 1) * c + 2 ^ k := by ring
    rw [e1]
    have h3 := two_pow_mul_xor k c
    calc (2 ^ (k + 1) * c + 2 ^ k) ^^^ 2 ^ k
        = ((2 ^ (k + 1) * c) ^^^ 2 ^ k) ^^^ 2 ^ k := by rw [h3]
      _ = (2 ^ (k + 1) * c) ^^^ (2 ^ k ^^^ 2 ^ k) := Nat.xor_assoc _ _ _
      _ = (2 ^ (k + 1) * c) ^^^ 0 := by rw [Nat.xor_self]
      _ = 2 ^ (k + 1) * c := Nat.xor_zero _
      _ = 2 ^ (k + 1) * c + 2 ^ k - 2 ^ k := by omega

/-- A block is never its own buddy. -/
theorem xor_two_pow_ne_self (q k : Nat) : q ^^^ 2 ^ k ≠ q := by
  intro h
  have h1 : (q ^^^ 2 ^ k) ^^^ q = q ^^^ q := by rw [h]
  rw [Nat.xor_self, Nat.xor_comm q (2 ^ k), Nat.xor_assoc, Nat.xor_self, Nat.xor_zero] at h1
  have h2 : 0 < 2 ^ k := Nat.two_pow_pos k
  omega

/-- The buddy relation is an involution. -/
theorem xor_two_pow_involutive {p q k : Nat} (h : p ^^^ 2 ^ k = q) : q ^^^ 2 ^ k = p := by
  subst h
  rw [Nat.xor_assoc, Nat.xor_self, Nat.xor_zero]


/-- Buddy free-list invariant 1 (established by `set_memory`, preserved by
`alloc` and `dealloc`): every block in free list number `lvl` is aligned to
that level's block size. -/
def Aligned (minB : Nat) (fl : List (List Nat)) : Prop :=
  ∀ lvl l, fl.get? lvl = some l → ∀ p ∈ l, Buddy.level2size minB lvl ∣ p

/-- Buddy free-list invariant 2, the property C6 asserts: no two free
blocks at the same level `lvl` with `lvl + 1 < LEVELS` (a non-top level)
are buddies — the buddy of `p` being the address that differs from `p`
exactly in the bit at `log2(block_size)`, i.e. `p ^^^ block_size`. -/
def NoBuddies (minB LEVELS : Nat) (fl : List (List Nat)) : Prop :=
  ∀ lvl, lvl + 1 < LEVELS → ∀ l, fl.get? lvl = some l →
    ∀ p ∈ l, p ^^^ Buddy.level2size minB lvl ∉ l

theorem aligned_iff (minB : Nat) (fl : List (List Nat)) :
    Aligned minB fl ↔
      ∀ lvl, lvl < fl.length →
        ∀ p ∈ fl.getD lvl [], Buddy.level2size minB lvl ∣ p := by
  constructor
  · intro h lvl hlvl p hp
    obtain ⟨l, hl⟩ : ∃ l, fl.get? lvl = some l := by
      rw [List.get?_eq_get hlvl]
      exact ⟨_, rfl⟩
    refine h lvl l hl p ?_
    rwa [List.getD_eq_get?, hl] at hp
  · intro h lvl l hl p hp
    have hlvl : lvl < fl.length := by
      by_contra hc
      rw [List.get?_eq_none.mpr (by omega)] at hl
      cases hl
    refine h lvl hlvl p ?_
    rw [List.getD_eq_get?, hl]
    exact hp

instance (minB : Nat) (fl : List (List Nat)) : Decidable (Aligned minB fl) :=
  decidable_of_iff _ (aligned_iff minB fl).symm

theorem noBuddies_iff (minB LEVELS : Nat) (fl : List (List Nat)) :
    NoBuddies minB LEVELS fl ↔
      ∀ lvl, lvl < fl.length → lvl + 1 < LEVELS →
        ∀ p ∈ fl.getD lvl [],
          p ^^^ Buddy.level2size minB lvl ∉ fl.getD lvl [] := by
  constructor
  · intro h lvl hlvl hlt p hp
    obtain ⟨l, hl⟩ : ∃ l, fl.get? lvl = some l := by
      rw [List.get?_eq_get hlvl]
      exact ⟨_, rfl⟩
    rw [List.getD_eq_get?, hl] at hp ⊢
    exact h lvl hlt l hl p hp
  · intro h lvl hlt l hl p hp
    have hlvl : lvl < fl.length := by
      by_contra hc
      rw [List.get?_eq_none.mpr (by omega)] at hl
      cases hl
    have := h lvl hlvl hlt p (by rw [List.getD_eq_get?, hl]; exact hp)
    rwa [List.getD_eq_get?, hl] at this

instance (minB LEVELS : Nat) (fl : List (List Nat)) : Decidable (NoBuddies minB LEVELS fl) :=
  decidable_of_iff _ (noBuddies_iff minB LEVELS fl).symm

theorem get?_set_self {α : Type} (l : List α) (i : Nat) (a : α) (h : i < l.length) :
    (l.set i a).get? i = some a := by
  rw [List.get?_set_eq]
  rw [List.get?_eq_get h]
  rfl

theorem get?_set_of_ne {α : Type} (l : List α) (i j : Nat) (a : α) (h : i ≠ j) :
    (l.set i a).get? j = l.get? j :=
  List.get?_set_ne _ _ h

/-- Membership in `add_with_sort` is membership in the old list or equality
with the inserted pointer. -/
theorem mem_add_with_sort {l : List Nat} {ptr y : Nat} :
    y ∈ IntrusiveList.add_with_sort l ptr ↔ y ∈ l ∨ y = ptr := by
  unfold IntrusiveList.add_with_sort
  have hl : l.takeWhile (fun x => decide (x ≤ ptr)) ++ l.dropWhile (fun x => decide (x ≤ ptr)) = l :=
    List.takeWhile_append_dropWhile _ _
  constructor
  · intro h
    rcases List.mem_append.mp h with h | h
    · exact Or.inl (by rw [← hl]; exact List.mem_append.mpr (Or.inl h))
    · rcases List.mem_cons.mp h with h | h
      · exact Or.inr h
      · exact Or.inl (by rw [← hl]; exact List.mem_append.mpr (Or.inr h))
  · intro h
    rcases h with h | h
    · rw [← hl] at h
      rcases List.mem_append.mp h with h | h
      · exact List.mem_append.mpr (Or.inl h)
      · exact List.mem_append.mpr (Or.inr (List.mem_cons.mpr (Or.inr h)))
    · exact List.mem_append.mpr (Or.inr (List.mem_cons.mpr (Or.inl h)))


/-- The merge loop of `dealloc` preserves alignment of every free list and
the no-buddies property, provided the freed pointer is aligned to the block
size of its level.  The fuel is exactly `LEVELS - 1 - level`, the value
`dealloc` passes, so fuel `0` is the `level + 1 == LEVELS` exit. -/
theorem deallocLoop_master (minB LEVELS : Nat) :
    ∀ (fuel level ptr : Nat) (fl : List (List Nat)),
      fuel = LEVELS - 1 - level → level < LEVELS → fl.length = LEVELS →
      Aligned minB fl → NoBuddies minB LEVELS fl →
      Buddy.level2size minB level ∣ ptr →
      Aligned minB (Buddy.deallocLoop minB fl ptr level fuel) ∧
      NoBuddies minB LEVELS (Buddy.deallocLoop minB fl ptr level fuel) := by
  intro fuel
  induction fuel with
  | zero =>
    intro level ptr fl hfuel hlevel hlen hA hNB hdvd
    obtain ⟨l, hl⟩ : ∃ l, fl.get? level = some l := by
      rw [List.get?_eq_get (by omega)]
      exact ⟨_, rfl⟩
    simp only [Buddy.deallocLoop, Buddy.updateLevel, IntrusiveList.push_back]
    rw [hl]
    constructor
    · intro lvl l' hl' p hp
      by_cases hlv : lvl = level
      · subst hlv
        rw [get?_set_self _ _ _ (by omega)] at hl'
        cases hl'
        rcases List.mem_append.mp hp with h | h
        · exact hA lvl l hl p h
        · rw [List.mem_singleton] at h
          subst h
          exact hdvd
      · rw [get?_set_of_ne _ _ _ _ (fun he => hlv he.symm)] at hl'
        exact hA lvl l' hl' p hp
    · intro lvl hlt l' hl' p hp hmem
      have hlv : lvl ≠ level := by omega
      rw [get?_set_of_ne _ _ _ _ (fun he => hlv he.symm)] at hl'
      exact hNB lvl hlt l' hl' p hp hmem
  | succ n ih =>
    intro level ptr fl hfuel hlevel hlen hA hNB hdvd
    have hlevel1 : level + 1 < LEVELS := by omega
    obtain ⟨l, hl⟩ : ∃ l, fl.get? level = some l := by
      rw [List.get?_eq_get (by omega)]
      exact ⟨_, rfl⟩
    have hk0 : Buddy.level2size minB level = 2 ^ (level + lg2 minB) := rfl
    have hk1 : Buddy.level2size minB (level + 1) = 2 ^ (level + lg2 minB + 1) := by
      unfold Buddy.level2size
      rw [show level + 1 + lg2 minB = level + lg2 minB + 1 from by omega]
    have hbuddy : (if ptr % Buddy.level2size minB (level + 1) = 0
          then ptr + Buddy.level2size minB level
          else ptr - Buddy.level2size minB level)
        = ptr ^^^ 2 ^ (level + lg2 minB) := by
      by_cases hmod : ptr % Buddy.level2size minB (level + 1) = 0
      · rw [if_pos hmod, hk0]
        exact (two_pow_succ_dvd_xor (by rw [← hk1]; exact Nat.dvd_of_mod_eq_zero hmod)).symm
      · rw [if_neg hmod, hk0]
        refine (two_pow_dvd_xor_sub (by rw [← hk0]; exact hdvd) ?_).symm
        intro hc
        apply hmod
        rw [hk1]
        obtain ⟨c, hcc⟩ := hc
        rw [hcc]
        exact Nat.mul_mod_right _ _
    simp only [Buddy.deallocLoop]
    rw [hl, hbuddy]
    dsimp only
    cases hcc : l.contains (ptr ^^^ 2 ^ (level + lg2 minB)) with
    | false =>
      rw [if_neg (by simp)]
      have hxb_notin : ptr ^^^ 2 ^ (level + lg2 minB) ∉ l := by
        intro hm
        simp [List.contains] at hcc
        exact hcc hm
      constructor
      · intro lvl l' hl' p hp
        by_cases hlv : lvl = level
        · subst hlv
          rw [get?_set_self _ _ _ (by omega)] at hl'
          cases hl'
          rcases mem_add_with_sort.mp hp with h | h
          · exact hA lvl l hl p h
          · subst h
            exact hdvd
        · rw [get?_set_of_ne _ _ _ _ (fun he => hlv he.symm)] at hl'
          exact hA lvl l' hl' p hp
      · intro lvl hlt l' hl' p hp hmem
        by_cases hlv : lvl = level
        · subst hlv
          rw [get?_set_self _ _ _ (by omega)] at hl'
          cases hl'
          rcases mem_add_with_sort.mp hp with hpl | hpe
          · rcases mem_add_with_sort.mp hmem with hml | hme
            · exact hNB lvl hlt l hl p hpl hml
            · have h1 : ptr ^^^ 2 ^ (lvl + lg2 minB) = p :=
                xor_two_pow_involutive (by rw [← hk0]; exact hme)
              exact hxb_notin (h1 ▸ hpl)
          · subst hpe
            rcases mem_add_with_sort.mp hmem with hml | hme
            · exact hxb_notin (by rw [hk0] at hml; exact hml)
            · exact xor_two_pow_ne_self p (lvl + lg2 minB) (by rw [hk0] at hme; exact hme)
        · rw [get?_set_of_ne _ _ _ _ (fun he => hlv he.symm)] at hl'
          exact hNB lvl hlt l' hl' p hp hmem
    | true =>
      rw [if_pos rfl]
      refine ih (level + 1) (min ptr (ptr ^^^ 2 ^ (level + lg2 minB)))
        (fl.set level (l.erase (ptr ^^^ 2 ^ (level + lg2 minB))))
        (by omega) hlevel1 (by rw [List.length_set]; exact hlen) ?_ ?_ ?_
      · intro lvl l' hl' p hp
        by_cases hlv : lvl = level
        · subst hlv
          rw [get?_set_self _ _ _ (by omega)] at hl'
          cases hl'
          exact hA lvl l hl p (List.mem_of_mem_erase hp)
        · rw [get?_set_of_ne _ _ _ _ (fun he => hlv he.symm)] at hl'
          exact hA lvl l' hl' p hp
      · intro lvl hlt l' hl' p hp hmem
        by_cases hlv : lvl = level
        · subst hlv
          rw [get?_set_self _ _ _ (by omega)] at hl'
          cases hl'
          exact hNB lvl hlt l hl p (List.mem_of_mem_erase hp) (List.mem_of_mem_erase hmem)
        · rw [get?_set_of_ne _ _ _ _ (fun he => hlv he.symm)] at hl'
          exact hNB lvl hlt l' hl' p hp hmem
      · rw [hk1]
        by_cases hmod : ptr % Buddy.level2size minB (level + 1) = 0
        · have hx : ptr ^^^ 2 ^ (level + lg2 minB) = ptr + 2 ^ (level + lg2 minB) :=
            two_pow_succ_dvd_xor (by rw [← hk1]; exact Nat.dvd_of_mod_eq_zero hmod)
          rw [hx, show min ptr (ptr + 2 ^ (level + lg2 minB)) = ptr from by omega, ← hk1]
          exact Nat.dvd_of_mod_eq_zero hmod
        · have hnd : ¬ 2 ^ (level + lg2 minB + 1) ∣ ptr := by
            intro hc
            apply hmod
            rw [hk1]
            obtain ⟨c, hcq⟩ := hc
            rw [hcq]
            exact Nat.mul_mod_right _ _
          have hx : ptr ^^^ 2 ^ (level + lg2 minB) = ptr - 2 ^ (level + lg2 minB) :=
            two_pow_dvd_xor_sub (by rw [← hk0]; exact hdvd) hnd
          have hple : 2 ^ (level + lg2 minB) ≤ ptr := by
            rcases (by rw [← hk0]; exact hdvd : 2 ^ (level + lg2 minB) ∣ ptr) with ⟨m, hm⟩
            have hm0 : m ≠ 0 := by
              intro h0
              apply hnd
              rw [hm, h0]
              exact ⟨0, by ring⟩
            have h2 : 0 < 2 ^ (level + lg2 minB) := Nat.two_pow_pos _
            calc 2 ^ (level + lg2 minB) = 2 ^ (level + lg2 minB) * 1 := by ring
              _ ≤ 2 ^ (level + lg2 minB) * m := Nat.mul_le_mul_left _ (by omega)
              _ = ptr := hm.symm
          rw [hx, show min ptr (ptr - 2 ^ (level + lg2 minB)) = ptr - 2 ^ (level + lg2 minB) from by omega]
          obtain ⟨m, hm⟩ := (by rw [← hk0]; exact hdvd : 2 ^ (level + lg2 minB) ∣ ptr)
          rcases Nat.mod_two_eq_zero_or_one m with he | ho
          · exfalso
            apply hnd
            obtain ⟨c, hc0⟩ : ∃ c, m = 2 * c := ⟨m / 2, by omega⟩
            refine ⟨c, ?_⟩
            rw [hm, hc0]
            ring
          · obtain ⟨c, hc2⟩ : ∃ c, m = 2 * c + 1 := ⟨m / 2, by omega⟩
            refine ⟨c, ?_⟩
            have hexp : 2 ^ (level + lg2 minB) * (2 * c + 1)
                = 2 ^ (level + lg2 minB + 1) * c + 2 ^ (level + lg2 minB) := by ring
            rw [hm, hc2]
            omega


/-- C6: buddy merge completeness.  For every buddy state whose free lists
satisfy the buddy invariants (every free block aligned to its level's block
size, no two same-level non-top free blocks buddies) and every valid
deallocation — the freed pointer is aligned to the block size of the level
`dealloc` computes from its layout, and that level exists, both automatic
for a block that `alloc` returned with the same layout — after
`BuddyAllocator::dealloc` returns, no two blocks in the same free list at
any non-top level are buddies of each other (differ only in the bit at
`log2(block_size)`): every such pair has been merged upward by the loop.
The alignment invariant is preserved as well. -/
theorem C6_merge_completeness (minB maxB : Nat) (s : BuddyAllocator) (ptr : Nat)
    (layout : Layout)
    (hlen : s.free_list.length = Buddy.levels minB maxB)
    (hA : Aligned minB s.free_list)
    (hNB : NoBuddies minB (Buddy.levels minB maxB) s.free_list)
    (hlvl : Buddy.size2levelNextPower minB (max layout.size minB) < Buddy.levels minB maxB)
    (hdvd : Buddy.level2size minB (Buddy.size2levelNextPower minB (max layout.size minB)) ∣ ptr) :
    NoBuddies minB (Buddy.levels minB maxB)
      (Buddy.dealloc minB maxB s ptr layout).free_list ∧
    Aligned minB (Buddy.dealloc minB maxB s ptr layout).free_list := by
  have h := deallocLoop_master minB (Buddy.levels minB maxB)
    (Buddy.levels minB maxB - 1 - Buddy.size2levelNextPower minB (max layout.size minB))
    (Buddy.size2levelNextPower minB (max layout.size minB)) ptr s.free_list rfl hlvl hlen
    hA hNB hdvd
  exact ⟨h.2, h.1⟩

/-- A buddy state on the `MIN = 16`, `MAX = 128` heap `[0, 256)` with the
block `[0, 16)` allocated: its buddy `[16, 32)` free at level 0, `[32, 64)`
and `[64, 128)` consumed by the split, `[128, 256)` free at the top. -/
def c6Start : BuddyAllocator :=
  { free_list := [[16], [32], [64], [128]], total_size := 256, allocated := 16 }

theorem C6_merge_completeness_witness :
    NoBuddies 16 (Buddy.levels 16 128)
      (Buddy.dealloc 16 128 c6Start 0 ⟨16, 16⟩).free_list ∧
    Aligned 16 (Buddy.dealloc 16 128 c6Start 0 ⟨16, 16⟩).free_list :=
  C6_merge_completeness 16 128 c6Start 0 ⟨16, 16⟩ (by decide) (by decide) (by decide)
    (by decide) (by decide)

end ElfBootloader
